import Mathlib

/-!
# WebGrep task graph: a shallow embedding of `linked_task.cpp`

The C++ objects live in an explicit heap.  An address is a natural number, a
pointer is an `Option Nat` (`none` is `nullptr`), and every operation that the
C++ code performs on the heap is a function `Heap → Option _`: the result
`none` stands for "no defined result" (a null or dangling dereference, an
out-of-range `operator[]`, or a loop that used up its fuel).

* `unsigned` / `std::atomic_uint` values are naturals reduced with `u32`.
* `new` always succeeds and returns the next unused address; addresses of
  deleted objects are not handed out again.
* output on `std::cerr` is not part of the state.
-/

set_option autoImplicit false

namespace WebGrep

/-- A raw `LinkedTask*` stored in a `std::atomic_uintptr_t`; `none` is the null pointer. -/
abbrev Ptr := Option Nat

/-- Reduction of a natural number to the range of `unsigned` (32 bits). -/
def u32 (n : Nat) : Nat := n % 4294967296

/-- The terminating byte of a C string. -/
def NUL : Char := Char.ofNat 0

/-- The constant `MaxURLlen` of `linked_task.h`. -/
def MaxURLlen : Nat := 8192

/-- The struct `GrepVars`.  The members of `matchURLVector` and `matchTextVector`
are pairs of iterators into `pageContent`, kept as pairs of offsets;
`grepExpr` (a `std::regex`) is kept as its source text. -/
structure GrepVars where
  scheme : List Char
  targetUrl : List Char
  grepExpr : List Char
  responseCode : Int
  pageContent : List Char
  matchURLVector : List (Nat × Nat)
  matchTextVector : List (Nat × Nat)
  pageIsReady : Bool
  pageIsParsed : Bool
deriving DecidableEq

/-- The constructor `GrepVars::GrepVars()`. -/
def GrepVars.ctor : GrepVars :=
  { scheme := List.replicate 6 NUL, targetUrl := [], grepExpr := [], responseCode := 0,
    pageContent := [], matchURLVector := [], matchTextVector := [],
    pageIsReady := false, pageIsParsed := false }

/-- The class `LinkedTask`.  `linksCounterPtr` and `maxLinksCountPtr` are
`shared_ptr<atomic_uint>`: the index of a cell of `Heap.atomics`, or `none` when
empty.  The function slots `makeNewNode` and `deleteNode` keep the values the
constructor installs (`FuncNeu` and the deleting lambda). -/
structure LinkedTask where
  level : Nat
  order : Nat
  childNodesCount : Nat
  next : Ptr
  child : Ptr
  root : Ptr
  parent : Ptr
  grepVars : GrepVars
  linksCounterPtr : Option Nat
  maxLinksCountPtr : Option Nat
  nodeAllocationsCount : Nat
  maxPossbleNodesQuantity : Nat
deriving DecidableEq

/-- The memory: slot `a` of `nodes` is `some n` while the object at address `a` is
alive and `none` once it has been deleted; `atomics` are the shared counters. -/
structure Heap where
  nodes : List (Option LinkedTask)
  atomics : List Nat
deriving DecidableEq

/-- The heap before anything has been allocated, with the given shared counters. -/
def Heap.empty (atomics : List Nat) : Heap := { nodes := [], atomics := atomics }

/-- Dereference of the address `a`: the object, or `none` when nothing lives there. -/
def Heap.load (h : Heap) (a : Nat) : Option LinkedTask := h.nodes[a]?.join

/-- Overwrite the object at address `a`. -/
def Heap.store (h : Heap) (a : Nat) (n : LinkedTask) : Heap :=
  { h with nodes := h.nodes.set a (some n) }

/-- The expression `new LinkedTask(..)`: the object is placed at the next unused address. -/
def Heap.alloc (h : Heap) (n : LinkedTask) : Nat × Heap :=
  (h.nodes.length, { h with nodes := h.nodes ++ [some n] })

/-- The expression `delete p`. -/
def Heap.free (h : Heap) (a : Nat) : Heap :=
  { h with nodes := h.nodes.set a none }

/-- Number of objects alive in the heap. -/
def Heap.liveCount (h : Heap) : Nat := (h.nodes.filter Option.isSome).length

/-- The constructor `LinkedTask::LinkedTask()`. -/
def LinkedTask.ctor : LinkedTask :=
  { level := 0, order := 0, childNodesCount := 0, next := none, child := none,
    root := none, parent := none, grepVars := GrepVars.ctor,
    linksCounterPtr := none, maxLinksCountPtr := none,
    nodeAllocationsCount := 0, maxPossbleNodesQuantity := 8192 }

/-- The method `LinkedTask::shallowCopy(other)`, applied to `self`. -/
def LinkedTask.shallowCopy (self other : LinkedTask) : LinkedTask :=
  { self with
    level := other.level, root := other.root, parent := other.parent,
    grepVars := { self.grepVars with grepExpr := other.grepVars.grepExpr },
    maxLinksCountPtr := other.maxLinksCountPtr, linksCounterPtr := other.linksCounterPtr,
    maxPossbleNodesQuantity := other.maxPossbleNodesQuantity }

/-- The constructor `LinkedTask::LinkedTask(LinkedTask* rootNode)`; `rootNode` is the
object found at the address `rootAddr`. -/
def LinkedTask.ctorChild (rootAddr : Nat) (rootNode : LinkedTask) : LinkedTask :=
  { LinkedTask.ctor.shallowCopy rootNode with root := some rootAddr }

/-- The factory `LinkedTask::createRootNode()`: returns the address of the new root. -/
def createRootNode (h : Heap) : Nat × Heap :=
  let (ptr, h1) := h.alloc LinkedTask.ctor
  (ptr, h1.store ptr { LinkedTask.ctor with root := some ptr })

/-- The function `FuncNeu(RootNodePtr)`, the default `makeNewNode`: the new address
(or null at the ceiling) and the heap after the call, when no other thread works on the
root between the test of the ceiling and `fetch_add(1)`. In the source these are separate
steps; `FuncNeuTest`, `FuncNeuAllocate` and `FuncNeuThreads` give them one by one. -/
def FuncNeu (RootNodePtr : Nat) (h : Heap) : Option (Ptr × Heap) :=
  match h.load RootNodePtr with
  | none => none
  | some r =>
    let cntMax := r.maxPossbleNodesQuantity
    let cntCur := r.nodeAllocationsCount
    if cntMax ≤ cntCur then some (none, h)
    else
      let (p, h1) := h.alloc (LinkedTask.ctorChild RootNodePtr r)
      match h1.load RootNodePtr with
      | none => none
      | some r1 =>
        some (some p, h1.store RootNodePtr
          { r1 with nodeAllocationsCount := u32 (r1.nodeAllocationsCount + 1) })

/-- The loop of `LinkedTask::getLastOnLevel`: `item` walks along `next`, `last_item`
follows one step behind.  One unit of fuel is one iteration. -/
def getLastOnLevelLoop (h : Heap) : Nat → Ptr → Ptr → Option Ptr
  | _, none, last_item => some last_item
  | 0, some _, _ => none
  | fuel + 1, some i, _ =>
    match h.load i with
    | none => none
    | some n => getLastOnLevelLoop h fuel n.next (some i)

/-- The method `LinkedTask::getLastOnLevel()` of the object at address `this`. -/
def getLastOnLevel (fuel : Nat) (h : Heap) (this : Nat) : Option Nat :=
  match h.load this with
  | none => none
  | some t =>
    match getLastOnLevelLoop h fuel t.next t.next with
    | none => none
    | some last_item => some (last_item.getD this)

/-- The `for` loop of `LinkedTask::spawnNextNodes`; the first argument is
`nodesCount - c`, the number of iterations still allowed by the loop condition. -/
def spawnNextNodesLoop (this root : Nat) : Nat → Nat → Nat → Heap → Option (Nat × Heap)
  | 0, c, _, h => some (c, h)
  | k + 1, c, last_item, h =>
    match FuncNeu root h with
    | none => none
    | some (item, h1) =>
      match h1.load last_item with
      | none => none
      | some l =>
        let h2 := h1.store last_item { l with next := item }
        match item with
        | none => some (c, h2)
        | some i =>
          match h2.load i, h2.load this with
          | some it, some t =>
            let h3 := h2.store i
              { it.shallowCopy t with parent := t.parent, order := t.childNodesCount }
            match h3.load this with
            | none => none
            | some t1 =>
              let h4 := h3.store this
                { t1 with childNodesCount := u32 (t1.childNodesCount + 1) }
              spawnNextNodesLoop this root k (c + 1) i h4
          | _, _ => none

/-- The method `LinkedTask::spawnNextNodes(nodesCount)` of the object at `this`:
the returned count and the heap after the call. -/
def spawnNextNodes (fuel : Nat) (this : Nat) (nodesCount : Nat) (h : Heap) :
    Option (Nat × Heap) :=
  if nodesCount = 0 then some (0, h)
  else
    match h.load this with
    | none => none
    | some t =>
      match t.root, getLastOnLevel fuel h this with
      | some root, some last_item => spawnNextNodesLoop this root nodesCount 0 last_item h
      | _, _ => none

/-- The method `LinkedTask::spawnChildNode(expelledChild)` of the object at `this`:
the returned pointer, the value left in `expelledChild`, and the heap. -/
def spawnChildNode (this : Nat) (h : Heap) : Option (Ptr × Ptr × Heap) :=
  match h.load this with
  | none => none
  | some t =>
    match t.root with
    | none => none
    | some rootNode =>
      let expelledChild := t.child
      match FuncNeu rootNode h with
      | none => none
      | some (none, h1) => some (none, expelledChild, h1)
      | some (some item, h1) =>
        match h1.load this with
        | none => none
        | some t1 =>
          let h2 := h1.store this { t1 with child := some item }
          match h2.load item, h2.load this with
          | some it, some t2 =>
            let h3 := h2.store item
              { it.shallowCopy t2 with
                parent := some this, level := u32 (1 + t2.level),
                order := t2.childNodesCount }
            match h3.load this with
            | none => none
            | some t3 =>
              some (some item, expelledChild,
                h3.store this { t3 with childNodesCount := u32 (t3.childNodesCount + 1) })
          | _, _ => none

/-- How a call of a C++ functor ends: it returns, or it throws a `std::exception`;
in both cases `s` is the state it leaves behind. -/
inductive Outcome (σ : Type) where
  | returned (s : σ)
  | threw (s : σ)

/-- The first loop of `ForEachOnBranch`: skip up to `skipCount` items. -/
def ForEachOnBranchSkip (h : Heap) : Nat → Ptr → Option Ptr
  | 0, item => some item
  | _ + 1, none => some none
  | k + 1, some i =>
    match h.load i with
    | none => none
    | some n => ForEachOnBranchSkip h k n.next

/-- The second loop of `ForEachOnBranch`, inside its `try` block.  The functor works on
the heap and on its captured variables `α`.  When the functor throws, the `catch`
handler after the loop is entered: the loop is over and `cnt` is returned as it is. -/
def ForEachOnBranchLoop {α : Type} (functor : Nat → Heap × α → Option (Outcome (Heap × α))) :
    Nat → Ptr → Nat → Heap × α → Option (Nat × (Heap × α))
  | _, none, cnt, s => some (cnt, s)
  | 0, some _, _, _ => none
  | fuel + 1, some i, cnt, s =>
    match functor i s with
    | none => none
    | some (Outcome.threw s1) => some (cnt, s1)
    | some (Outcome.returned s1) =>
      match s1.1.load i with
      | none => none
      | some n => ForEachOnBranchLoop functor fuel n.next (cnt + 1) s1

/-- The function `ForEachOnBranch(head, functor, skipCount)`; `skipCount` is a `uint32_t`.
The result is the returned count and the state after the call; the call itself never
throws a `std::exception`. -/
def ForEachOnBranch {α : Type} (fuel : Nat) (head : Ptr)
    (functor : Nat → Heap × α → Option (Outcome (Heap × α))) (skipCount : Nat)
    (s : Heap × α) : Option (Nat × (Heap × α)) :=
  match ForEachOnBranchSkip s.1 skipCount head with
  | none => none
  | some item => ForEachOnBranchLoop functor fuel item 0 s

/-- The byte `str[i]` of a C string: past the stored characters the terminator is read. -/
def charAt (str : List Char) (i : Nat) : Char := str[i]?.getD NUL

/-- The test `0 != memcmp("://", str + off, 3)`. -/
def differsFromSemSlash (str : List Char) (off : Nat) : Bool :=
  !(charAt str off == ':' && charAt str (off + 1) == '/' && charAt str (off + 2) == '/')

/-- The `for` loop of `FindURLAddressBegin`; `ptr` is kept as the offset `ptr - str`.
The first argument bounds the iterations by `_bound - pos`.  Returns `(pos, ptr)`. -/
def FindURLAddressBeginLoop (str : List Char) (bound : Nat) : Nat → Nat → Nat → Nat × Nat
  | 0, pos, ptr => (pos, ptr)
  | n + 1, pos, ptr =>
    if pos < bound && differsFromSemSlash str ptr then
      FindURLAddressBeginLoop str bound n (pos + 1) pos
    else (pos, ptr)

/-- The function `FindURLAddressBegin(str, nmax)`. -/
def FindURLAddressBegin (str : List Char) (nmax : Nat) : Nat :=
  if charAt str 0 == '/' then 0
  else
    let bound := min MaxURLlen nmax
    let (pos, ptr) := FindURLAddressBeginLoop str bound (bound - 1) 1 0
    if pos < bound then ptr + (if charAt str ptr == ':' then 3 else 0)
    else nmax

/-- The conversion of a `char` buffer to `std::string`: the bytes before the first NUL.
On a buffer that holds no NUL the source reads on behind the buffer, which has no defined
result; the function takes such a buffer whole, and what is proved of a value read this
way assumes a NUL in the buffer. -/
def cString (buf : List Char) : List Char := buf.takeWhile (fun c => c != NUL)

/-- The function `MakeFullPath(url, len, host_and_port, targetVars)`. The branch of a
link that starts with a slash reads `targetVars.scheme.data()` as a C string, see
`cString`: its value is that of the source when the scheme buffer holds a NUL. -/
def MakeFullPath (url : List Char) (len : Nat) (host_and_port : List Char)
    (targetVars : GrepVars) : List Char :=
  let upos := FindURLAddressBegin url len
  let path : List Char :=
    if charAt url 0 != '/' && decide (len ≤ upos) then targetVars.targetUrl ++ ['/']
    else if upos = 0 then cString targetVars.scheme ++ [':', '/', '/'] ++ host_and_port
    else []
  path ++ (List.range len).map (charAt url)

/-- The range `[first, second)` of a pair of iterators into `content`, as
`std::string::assign(first, second)` reads it; `none` when the pair is not a range
of `content`. -/
def iteratorRange (content : List Char) (m : Nat × Nat) : Option (List Char) :=
  if m.1 ≤ m.2 ∧ m.2 ≤ content.length then some ((content.drop m.1).take (m.2 - m.1))
  else none

/-- The lambda `func` of `LinkedTask::spawnGreppedSubtasks`; its captured variable
`cposition` is the second component of the state.  The source `targetVariables` is taken
by value here: this is the lambda of the source when the reference it holds is not to the
`grepVars` of a node that the lambda writes. `spawnGreppedSubtasksFuncRef` holds the
reference, and `spawnGreppedSubtasksFuncRef_eq` shows when the two agree. -/
def spawnGreppedSubtasksFunc (host_and_port : List Char) (targetVariables : GrepVars)
    (_node : Nat) (s : Heap × Nat) : Option (Outcome (Heap × Nat)) :=
  match s.1.load _node, targetVariables.matchURLVector[s.2]? with
  | some n, some m =>
    match iteratorRange targetVariables.pageContent m with
    | none => none
    | some turl =>
      let turl1 := MakeFullPath turl turl.length host_and_port targetVariables
      some (Outcome.returned
        (s.1.store _node { n with grepVars := { n.grepVars with targetUrl := turl1 } },
         s.2 + 1))
  | _, _ => none

/-- The statement `linksCounterPtr->fetch_add(cnt)` on the object at `this`. -/
def linksCounterFetchAdd (this : Nat) (cnt : Nat) (h : Heap) : Option Heap :=
  match h.load this with
  | none => none
  | some t =>
    match t.linksCounterPtr with
    | none => none
    | some cp =>
      match h.atomics[cp]? with
      | none => none
      | some v => some { h with atomics := h.atomics.set cp (u32 (v + cnt)) }

/-- The method `LinkedTask::spawnGreppedSubtasks(host_and_port, targetVariables, skipCount)`
of the object at `this`, for a source taken by value (see `spawnGreppedSubtasksFunc`;
`spawnGreppedSubtasksRef` is the method with the source held by reference).  `skipCount`
is a `size_t` and is converted to the `uint32_t` argument of `ForEachOnBranch`. -/
def spawnGreppedSubtasks (fuel : Nat) (this : Nat) (host_and_port : List Char)
    (targetVariables : GrepVars) (skipCount : Nat) (h : Heap) : Option (Nat × Heap) :=
  if !targetVariables.pageIsParsed || targetVariables.matchURLVector.isEmpty then some (0, h)
  else
    match spawnNextNodes fuel this (targetVariables.matchURLVector.length - 1) h with
    | none => none
    | some (_, h1) =>
      match ForEachOnBranch fuel (some this)
          (spawnGreppedSubtasksFunc host_and_port targetVariables) (u32 skipCount) (h1, 0) with
      | none => none
      | some (cnt, (h2, _)) =>
        match linksCounterFetchAdd this cnt h2 with
        | none => none
        | some h3 => some (cnt, h3)

/-- The function `DeleteCall(item, data)`: the root is deleted directly, every other
node through `root->deleteNode(root, item)`, which deletes it and decrements the
root's `nodeAllocationsCount`. -/
def DeleteCall (item : Nat) (h : Heap) : Option Heap :=
  match h.load item with
  | none => none
  | some n =>
    if n.root = some item then some (h.free item)
    else
      match n.root with
      | none => none
      | some root =>
        match h.load root with
        | none => none
        | some _ =>
          let h1 := h.free item
          match h1.load root with
          | none => none
          | some r1 =>
            some (h1.store root
              { r1 with nodeAllocationsCount := u32 (r1.nodeAllocationsCount + 4294967295) })

/-- The function `TraverseFunc(head, additional, func)`: `next`, then `child`, then
`head`.  One unit of fuel is one level of the recursion. -/
def TraverseFunc (func : Nat → Heap → Option Heap) : Nat → Ptr → Heap → Option Heap
  | _, none, h => some h
  | 0, some _, _ => none
  | fuel + 1, some hd, h =>
    match h.load hd with
    | none => none
    | some n =>
      match TraverseFunc func fuel n.next h with
      | none => none
      | some h1 =>
        match TraverseFunc func fuel n.child h1 with
        | none => none
        | some h2 => func hd h2

/-- The function `DeleteList(head)`. -/
def DeleteList (fuel : Nat) (head : Ptr) (h : Heap) : Option Heap :=
  TraverseFunc DeleteCall fuel head h

/-! ## Chains and frame relations -/

/-- The sibling chain: `isChain h p l` holds when following `next` from the pointer `p`
visits exactly the addresses `l`, each alive, and then reaches the null pointer. -/
def isChain (h : Heap) : Ptr → List Nat → Bool
  | p, [] => p.isNone
  | p, a :: rest =>
    p == some a &&
      (match h.load a with
       | some n => isChain h n.next rest
       | none => false)

/-- Two states of one object that differ at most in `next`, `child`, `childNodesCount` and
`nodeAllocationsCount`, the members that `spawnNextNodes` and `spawnChildNode` write on
nodes that exist already. -/
def LinkedTask.sameButLinks (n0 n1 : LinkedTask) : Prop :=
  n1 = { n0 with next := n1.next, child := n1.child, childNodesCount := n1.childNodesCount,
                 nodeAllocationsCount := n1.nodeAllocationsCount }
/-- What the spawning methods may do to the objects that exist before the call: `h1` has
the same shared counters as `h`, and every object alive in `h` is alive in `h1` and
differs at most in `next`, `child`, `childNodesCount` and `nodeAllocationsCount`. -/
def Heap.evolvesTo (h h1 : Heap) : Prop :=
  h1.atomics = h.atomics ∧
  (∀ a n0, h.load a = some n0 → ∃ n1, h1.load a = some n1 ∧ n0.sameButLinks n1) ∧
  h.nodes.length ≤ h1.nodes.length ∧
  ∀ a, a < h.nodes.length → h.load a = none → h1.load a = none
/-- Every object of `h` other than the one at `x` is alive in `h1` with the same value of
the member `f`. -/
def Heap.keepsOff {β : Type} (f : LinkedTask → β) (h h1 : Heap) (x : Nat) : Prop :=
  ∀ a, a ≠ x → ∀ n0, h.load a = some n0 → ∃ n1, h1.load a = some n1 ∧ f n1 = f n0
/-- Two states of one object that differ at most in `grepVars.targetUrl`. -/
def LinkedTask.sameButUrl (n0 n1 : LinkedTask) : Prop :=
  n1 = { n0 with grepVars := { n0.grepVars with targetUrl := n1.grepVars.targetUrl } }

/-- Every pair of `matchURLVector` is a range of `pageContent`. -/
def GrepVars.validMatches (g : GrepVars) : Prop :=
  ∀ m ∈ g.matchURLVector, m.1 ≤ m.2 ∧ m.2 ≤ g.pageContent.length

/-- The effect of one successful iteration of the loop of `spawnNextNodes` run for the node
`this` (state `t` before the iteration) with root `r` (state `rn`) and tail `last`: the
heap `h4` has one more object, at the address `h.nodes.length`, linked behind `last`. -/
def SiblingStep (this r last : Nat) (t rn : LinkedTask) (h h4 : Heap) : Prop :=
  h.load this = some t ∧ h.load r = some rn
  ∧ rn.nodeAllocationsCount < rn.maxPossbleNodesQuantity
  ∧ h.evolvesTo h4 ∧ h4.nodes.length = h.nodes.length + 1
  ∧ h4.liveCount = h.liveCount + 1
  ∧ h.keepsOff LinkedTask.next h4 last
  ∧ h.keepsOff LinkedTask.nodeAllocationsCount h4 r
  ∧ h.keepsOff LinkedTask.child h4 h.nodes.length
  ∧ (∃ n1, h4.load last = some n1 ∧ n1.next = some h.nodes.length)
  ∧ (∃ n1, h4.load h.nodes.length = some n1 ∧ n1.next = none
      ∧ n1.root = t.root ∧ n1.parent = t.parent ∧ n1.level = t.level
      ∧ n1.nodeAllocationsCount = 0
      ∧ n1.maxPossbleNodesQuantity = t.maxPossbleNodesQuantity
      ∧ n1.linksCounterPtr = t.linksCounterPtr)
  ∧ (∃ rn1, h4.load r = some rn1
      ∧ rn1.nodeAllocationsCount = u32 (rn.nodeAllocationsCount + 1)
      ∧ rn1.maxPossbleNodesQuantity = rn.maxPossbleNodesQuantity)

/-- The effect of a successful `spawnChildNode` on the parent `p` (state `t` before the
call) with root `r` (state `rn`): one more object, at the address `h.nodes.length`, stored
in `child` of `p`. -/
def ChildStep (p r : Nat) (t rn : LinkedTask) (h h4 : Heap) : Prop :=
  h.load p = some t ∧ h.load r = some rn
  ∧ rn.nodeAllocationsCount < rn.maxPossbleNodesQuantity
  ∧ h.evolvesTo h4 ∧ h4.nodes.length = h.nodes.length + 1
  ∧ h4.liveCount = h.liveCount + 1
  ∧ h.keepsOff LinkedTask.next h4 h.nodes.length
  ∧ h.keepsOff LinkedTask.nodeAllocationsCount h4 r
  ∧ h.keepsOff LinkedTask.child h4 p
  ∧ (∃ pn, h4.load p = some pn ∧ pn.child = some h.nodes.length)
  ∧ (∃ cn, h4.load h.nodes.length = some cn ∧ cn.next = none
      ∧ cn.root = t.root ∧ cn.parent = some p ∧ cn.level = u32 (1 + t.level)
      ∧ cn.nodeAllocationsCount = 0
      ∧ cn.maxPossbleNodesQuantity = t.maxPossbleNodesQuantity
      ∧ cn.linksCounterPtr = t.linksCounterPtr)
  ∧ (∃ rn1, h4.load r = some rn1
      ∧ rn1.nodeAllocationsCount = u32 (rn.nodeAllocationsCount + 1)
      ∧ rn1.maxPossbleNodesQuantity = rn.maxPossbleNodesQuantity)

/-- What the lambda of `spawnGreppedSubtasks` may do to the heap: the same addresses, the
same shared counters, and every object alive with at most another `grepVars.targetUrl`. -/
def Heap.retargetsTo (h h1 : Heap) : Prop :=
  h1.atomics = h.atomics ∧ h1.nodes.length = h.nodes.length ∧
  (∀ a n0, h.load a = some n0 → ∃ n1, h1.load a = some n1 ∧ n0.sameButUrl n1) ∧
  ∀ a, h.load a = none → h1.load a = none

instance GrepVars.decidableValidMatches (g : GrepVars) : Decidable g.validMatches := by
  unfold GrepVars.validMatches
  infer_instance

/-- A fresh root in an empty heap with the given shared counters, after the assignments
a caller makes before a crawl: `root->linksCounterPtr`, `root->maxLinksCountPtr` and
`root->maxPossbleNodesQuantity.store(M)`. -/
def configuredRoot (atomics : List Nat) (links maxLinks : Option Nat) (M : Nat) : Heap :=
  let (r, h) := createRootNode (Heap.empty atomics)
  match h.load r with
  | some n =>
    h.store r { n with linksCounterPtr := links, maxLinksCountPtr := maxLinks,
                       maxPossbleNodesQuantity := u32 M }
  | none => h

/-- The heap after the first two statements of `CrawlerPV::selfTest`:
`createRootNode()` and `lq->spawnChildNode(tmp)`; the root is at address 0 and the
child at address 1. -/
def selfTestHeap : Heap :=
  match spawnChildNode 0 (createRootNode (Heap.empty [])).2 with
  | some (_, _, h) => h
  | none => Heap.empty []

/-- A parsed page with the three links `/a`, `/b` and `x`. -/
def samplePage : GrepVars :=
  { GrepVars.ctor with
    scheme := ['h', 't', 't', 'p', NUL, NUL],
    targetUrl := "http://s.example".toList,
    pageContent := "/a /b x".toList,
    matchURLVector := [(0, 2), (3, 5), (6, 7)],
    pageIsReady := true, pageIsParsed := true }

/-- The heap in which `CrawlerPV::start` calls `spawnGreppedSubtasks`: a configured root
(counters `current = 0` and `max = maxLinks`, ceiling `M`) with one child at address 1. -/
def startHeap (maxLinks M : Nat) : Heap :=
  match spawnChildNode 0 (configuredRoot [0, maxLinks] (some 0) (some 1) M) with
  | some (_, _, h) => h
  | none => configuredRoot [0, maxLinks] (some 0) (some 1) M

/-- A parsed page on which `n` links were matched (each the relative link `a`). -/
def linksPage (n : Nat) : GrepVars :=
  { GrepVars.ctor with
    scheme := ['h', 't', 't', 'p', NUL, NUL],
    targetUrl := ['u'],
    pageContent := ['a'],
    matchURLVector := List.replicate n (0, 1),
    pageIsReady := true, pageIsParsed := true }

/-- A functor for `ForEachOnBranch` that records the address of every node it is applied
to and throws a `std::exception` on the node `bad`. -/
def loggingFunctor (bad : Nat) (node : Nat) (s : Heap × List Nat) :
    Option (Outcome (Heap × List Nat)) :=
  if node = bad then some (Outcome.threw (s.1, s.2 ++ [node]))
  else some (Outcome.returned (s.1, s.2 ++ [node]))

/-- A branch of three nodes at the addresses 0, 1 and 2: a root and two next siblings. -/
def threeChain : Heap :=
  match spawnNextNodes 1 0 2 (createRootNode (Heap.empty [])).2 with
  | some (_, h) => h
  | none => Heap.empty []

/-- A walk of the second loop of `ForEachOnBranch` from `item`: the functor returns on the
nodes `pre`, met in this order along `next`, and throws on the node `bad` met after them;
`sf` is the state that the throwing call leaves. -/
def returnsThenThrows {α : Type} (functor : Nat → Heap × α → Option (Outcome (Heap × α))) :
    List Nat → Nat → Ptr → Heap × α → Heap × α → Prop
  | [], bad, item, s, sf => item = some bad ∧ functor bad s = some (Outcome.threw sf)
  | i :: rest, bad, item, s, sf =>
    item = some i ∧ ∃ s1 n, functor i s = some (Outcome.returned s1) ∧ s1.1.load i = some n
      ∧ returnsThenThrows functor rest bad n.next s1 sf

/-! ## Runs of operations and their invariants -/

/-- The assignments `root->linksCounterPtr = ..; root->maxLinksCountPtr = ..` that a caller
makes on a node before a crawl (as `Crawler::start` does on its root). -/
def setLinkCounters (node : Nat) (links maxLinks : Option Nat) (h : Heap) : Option Heap :=
  match h.load node with
  | none => none
  | some n => some (h.store node { n with linksCounterPtr := links, maxLinksCountPtr := maxLinks })

/-- The operations on the task graph.  `deleteNode item` is the call that `DeleteCall`
makes for `item`; `makeNewNode root` is `root->makeNewNode(root)`. -/
inductive GraphOp where
  | createRootNode
  | setLinkCounters (node : Nat) (links maxLinks : Option Nat)
  | makeNewNode (root : Nat)
  | spawnChildNode (this : Nat)
  | spawnNextNodes (fuel this nodesCount : Nat)
  | spawnGreppedSubtasks (fuel this : Nat) (host_and_port : List Char)
      (targetVariables : GrepVars) (skipCount : Nat)
  | deleteNode (item : Nat)
  | DeleteList (fuel : Nat) (head : Ptr)

/-- The heap after one operation; `none` when the operation has no defined result. -/
def GraphOp.apply : GraphOp → Heap → Option Heap
  | GraphOp.createRootNode, h => some (WebGrep.createRootNode h).2
  | GraphOp.setLinkCounters node links maxLinks, h =>
    WebGrep.setLinkCounters node links maxLinks h
  | GraphOp.makeNewNode root, h => (FuncNeu root h).map Prod.snd
  | GraphOp.spawnChildNode this, h => (WebGrep.spawnChildNode this h).map (fun r => r.2.2)
  | GraphOp.spawnNextNodes fuel this n, h =>
    (WebGrep.spawnNextNodes fuel this n h).map Prod.snd
  | GraphOp.spawnGreppedSubtasks fuel this hp gv skip, h =>
    (WebGrep.spawnGreppedSubtasks fuel this hp gv skip h).map Prod.snd
  | GraphOp.deleteNode item, h => DeleteCall item h
  | GraphOp.DeleteList fuel head, h => WebGrep.DeleteList fuel head h

/-- The heap after a sequence of operations. -/
def runOps : List GraphOp → Heap → Option Heap
  | [], h => some h
  | op :: rest, h =>
    match op.apply h with
    | none => none
    | some h1 => runOps rest h1

/-- The operations that build the tree: everything but the deletions, `createRootNode`
and the bare `makeNewNode`. -/
def GraphOp.isSpawn : GraphOp → Bool
  | GraphOp.setLinkCounters _ _ _ => true
  | GraphOp.spawnChildNode _ => true
  | GraphOp.spawnNextNodes _ _ _ => true
  | GraphOp.spawnGreppedSubtasks _ _ _ _ _ => true
  | _ => false

/-- The object at `b` counts for the root `r`: it is alive, it is not `r` itself, and its
`root` member is `r`. -/
def Heap.owns (h : Heap) (r b : Nat) : Bool :=
  decide (b ≠ r) &&
    (match h.load b with
     | some n => decide (n.root = some r)
     | none => false)

/-- Number of objects alive in `h`, other than `r`, whose `root` member is `r`. -/
def Heap.ownedBy (h : Heap) (r : Nat) : Nat :=
  ((List.range h.nodes.length).filter (h.owns r)).length

/-- The accounting invariant of the allocator: on every object the count is within the
ceiling, the ceiling is an `unsigned` value and `root` is an address that has been
allocated; and the count of every object covers the objects that name it as their root. -/
def Heap.countsOk (h : Heap) : Prop :=
  (∀ a n, h.load a = some n →
    n.nodeAllocationsCount ≤ n.maxPossbleNodesQuantity
      ∧ n.maxPossbleNodesQuantity < 4294967296
      ∧ ∀ r, n.root = some r → r < h.nodes.length) ∧
  (∀ r rn, h.load r = some rn → h.ownedBy r ≤ rn.nodeAllocationsCount)

/-- A change of the heap that keeps the addresses, the liveness of every object and the
members `root`, `nodeAllocationsCount` and `maxPossbleNodesQuantity`. -/
def Heap.sameAccounting (h h1 : Heap) : Prop :=
  h1.nodes.length = h.nodes.length ∧
  (∀ a, h.load a = none → h1.load a = none) ∧
  ∀ a n0, h.load a = some n0 → ∃ n1, h1.load a = some n1 ∧ n1.root = n0.root
    ∧ n1.nodeAllocationsCount = n0.nodeAllocationsCount
    ∧ n1.maxPossbleNodesQuantity = n0.maxPossbleNodesQuantity

/-- The shape invariant of a heap that holds one tree with its root at address 0: the root
points to itself, every object names it as root, levels are bounded by the root's count,
an object with a parent is one level below it, an object without parent is on level 0,
and `next` joins objects of the same level and parent. -/
def Heap.treeOk (h : Heap) : Prop :=
  ∃ rn, h.load 0 = some rn ∧ rn.root = some 0 ∧ rn.parent = none ∧ rn.level = 0
    ∧ rn.nodeAllocationsCount ≤ rn.maxPossbleNodesQuantity
    ∧ rn.maxPossbleNodesQuantity < 4294967296
    ∧ ∀ a n, h.load a = some n →
        n.root = some 0 ∧ n.level ≤ rn.nodeAllocationsCount
        ∧ (n.parent = none → n.level = 0)
        ∧ (∀ p, n.parent = some p → ∃ pn, h.load p = some pn ∧ n.level = pn.level + 1)
        ∧ (∀ m, n.next = some m →
            ∃ mn, h.load m = some mn ∧ mn.level = n.level ∧ mn.parent = n.parent)

/-- A change of the heap that keeps the liveness of every object and its members `root`,
`parent`, `level`, `nodeAllocationsCount` and `maxPossbleNodesQuantity`, and keeps `next`
or resets it to null. -/
def Heap.sameShape (h h1 : Heap) : Prop :=
  (∀ a, h.load a = none → h1.load a = none) ∧
  ∀ a n0, h.load a = some n0 → ∃ n1, h1.load a = some n1 ∧ n1.root = n0.root
    ∧ n1.parent = n0.parent ∧ n1.level = n0.level
    ∧ (n1.next = n0.next ∨ n1.next = none)
    ∧ n1.nodeAllocationsCount = n0.nodeAllocationsCount
    ∧ n1.maxPossbleNodesQuantity = n0.maxPossbleNodesQuantity

/-- A run that builds and prunes a small tree: a root with counters, a child, three
URLs spawned from `samplePage`, a grandchild, one node deleted on its own, and the
subtree of the child deleted with `DeleteList`. -/
def sampleRun : List GraphOp :=
  [GraphOp.createRootNode, GraphOp.setLinkCounters 0 (some 0) (some 1),
   GraphOp.spawnChildNode 0,
   GraphOp.spawnGreppedSubtasks 4 1 [] samplePage 0,
   GraphOp.spawnChildNode 2, GraphOp.spawnNextNodes 2 4 2, GraphOp.makeNewNode 0,
   GraphOp.deleteNode 7, GraphOp.DeleteList 8 (some 1)]

/-- The heap that `sampleRun` reaches from the empty heap with the counters 0 and 4096. -/
def sampleRunHeap : Heap :=
  (runOps sampleRun (Heap.empty [0, 4096])).getD (Heap.empty [])

/-- A run of spawning operations on a fresh root: counters, a child, three URLs from
`samplePage`, a grandchild under the second URL and one sibling of the root itself. -/
def sampleSpawnRun : List GraphOp :=
  [GraphOp.setLinkCounters 0 (some 0) (some 1), GraphOp.spawnChildNode 0,
   GraphOp.spawnGreppedSubtasks 4 1 [] samplePage 0, GraphOp.spawnChildNode 2,
   GraphOp.spawnNextNodes 1 0 1]

/-- The heap that `sampleSpawnRun` reaches from a fresh root. -/
def sampleSpawnHeap : Heap :=
  (runOps sampleSpawnRun (createRootNode (Heap.empty [0, 4096])).2).getD (Heap.empty [])

/-- The heap `startHeap 4096 8192` after `spawnNextNodes(1)` on the child at the
address 1. -/
def siblingHeap : Heap :=
  ((GraphOp.spawnNextNodes 2 1 1).apply (startHeap 4096 8192)).getD (Heap.empty [])

/-! ## The URL helpers of linked_task.cpp -/

/-- The call `s.find_first_of(chars)` of `std::string`: the offset of the first character
of `s` that is one of `chars`, `none` for `npos`. -/
def findFirstOf (s chars : List Char) : Option Nat :=
  let i := s.findIdx (fun c => chars.contains c)
  if i < s.length then some i else none

/-- The function `ExtractHostPortHttp`. The local `url` starts as the C-string content of
`targetUrl` (up to its first NUL); `find_first_of` is given the characters of the literal
`://`; `substr` is taken from `targetUrl` itself and throws `std::out_of_range` when the
offset is beyond its size, which is the result `none`. -/
def ExtractHostPortHttp (targetUrl : List Char) : Option (List Char) :=
  let url := cString targetUrl
  let cut (url : List Char) : List Char :=
    match findFirstOf url ['/'] with
    | some slash_pos => url.take slash_pos
    | none => url
  match findFirstOf url [':', '/', '/'] with
  | some hpos =>
    if hpos + 3 ≤ targetUrl.length then some (cut (targetUrl.drop (hpos + 3)))
    else none
  | none => some (cut url)

/-- The loop of `FindURLPathBegin`: `ptr` advances while the byte under it is not a slash
and `ptr` is below the bound; the byte is read before the bound is tested. -/
def FindURLPathBeginLoop (str : List Char) (bound : Nat) : Nat → Nat → Nat
  | 0, ptr => ptr
  | n + 1, ptr =>
    if charAt str ptr != '/' && decide (ptr < bound) then
      FindURLPathBeginLoop str bound n (ptr + 1)
    else ptr

/-- The function `FindURLPathBegin`: `upos` is computed and adjusted, and the scan starts
at `str` whatever its value; the loop runs at most `min nmax MaxURLlen` times. -/
def FindURLPathBegin (str : List Char) (nmax : Nat) : Nat :=
  let upos := FindURLAddressBegin str nmax
  let _upos := if upos ≤ nmax then 0 else upos
  FindURLPathBeginLoop str (min nmax MaxURLlen) (min nmax MaxURLlen) 0

/-- The characters that `FindClosingQuote` compares with: the first `sizeof(stopChars) - 1`
bytes of the array, which are the double quote, the apostrophe, the newline, `>`, the
space, `<` and the NUL written in the literal. -/
def stopChars : List Char :=
  [Char.ofNat 34, Char.ofNat 39, Char.ofNat 10, '>', ' ', '<', NUL]

/-- The loop of `FindClosingQuote` with `strPtr` at the offset `off` and `n` bytes left
before `end`. -/
def FindClosingQuoteLoop (buf : List Char) : Nat → Nat → Nat
  | 0, off => off
  | n + 1, off =>
    if stopChars.contains (charAt buf off) then off
    else FindClosingQuoteLoop buf n (off + 1)

/-- The function `FindClosingQuote` on the buffer `buf` that starts at `strPtr`, with
`n = end - strPtr`. -/
def FindClosingQuote (buf : List Char) (n : Nat) : Nat :=
  FindClosingQuoteLoop buf n 0

/-- An absolute URL whose scheme is 8191 letters long, so that its `://` starts at the
offset 8191. -/
def longSchemeUrl : List Char := List.replicate 8191 'a' ++ "://h/p".toList

/-! ## The orchestrator CrawlerPV of crawler_private.cpp -/

/-- The struct `LonelyTask` of crawler_worker.h: the shared handle of the root the task
was made for, the target node, and the action, a function pointer that is `none` when
null. The worker context and the `additional` pointer are left out. -/
structure LonelyTask where
  root : Ptr
  target : Ptr
  action : Option Nat
deriving DecidableEq

/-- A functor as the pool receives it: a functor handed in by a caller, or one of the
lambdas of `scheduleTask`, which capture a `LonelyTask` and run its action. -/
inductive CallableDoubleFunc where
  | functor (id : Nat)
  | runTask (task : LonelyTask)
deriving DecidableEq

/-- Modelled from the spec: the class `ThreadsPool` of thread_pool.h, of which the
orchestrator uses `closed`, `threadsCount`, `submit`, `terminateDetach` and
`joinExportAll`. The pool holds its number of threads, whether it is closed, and the
functors it has accepted and not started. -/
structure ThreadsPool where
  threads : Nat
  isClosed : Bool
  queue : List CallableDoubleFunc
deriving DecidableEq

/-- Modelled from the spec: a new pool of `threadsNumber` threads is open and has no work. -/
def ThreadsPool.ctor (threadsNumber : Nat) : ThreadsPool :=
  { threads := threadsNumber, isClosed := false, queue := [] }

/-- Modelled from the spec: `closed()` is true after a close or a terminate. -/
def ThreadsPool.closed (p : ThreadsPool) : Bool := p.isClosed

/-- Modelled from the spec: `threadsCount()` is the size of the pool. -/
def ThreadsPool.threadsCount (p : ThreadsPool) : Nat := p.threads

/-- Modelled from the spec: `submit` of an array of functors; a closed pool does not take
the work. The submission of one functor is the array of length one. -/
def ThreadsPool.submit (p : ThreadsPool) (funcs : List CallableDoubleFunc) : ThreadsPool :=
  if p.isClosed then p else { p with queue := p.queue ++ funcs }

/-- Modelled from the spec: `terminateDetach` tells the workers to exit and does not wait;
the pool is closed afterwards and its work is abandoned with it. -/
def ThreadsPool.terminateDetach (p : ThreadsPool) : ThreadsPool :=
  { p with isClosed := true }

/-- Modelled from the spec: `joinExportAll` waits for the threads to exit and hands the
functors that were not started to the callback; the result is that array and the closed,
empty pool. -/
def ThreadsPool.joinExportAll (p : ThreadsPool) : List CallableDoubleFunc × ThreadsPool :=
  (p.queue, { p with isClosed := true, queue := [] })

/-- The members of `CrawlerPV` that the scheduling methods read and write: the root, the
pool and the two vectors of abandoned work. -/
structure CrawlerPV where
  taskRoot : Ptr
  workersPool : ThreadsPool
  lonelyVector : List LonelyTask
  lonelyFunctorsVector : List CallableDoubleFunc
deriving DecidableEq

/-- The constructor of `CrawlerPV`: no root, a pool of one thread, empty vectors. -/
def CrawlerPV.ctor : CrawlerPV :=
  { taskRoot := none, workersPool := ThreadsPool.ctor 1, lonelyVector := [],
    lonelyFunctorsVector := [] }

/-- The method `scheduleTask` with its return value. On a closed pool the task is pushed
to `lonelyVector`. Otherwise the task is submitted, and with `resendAbandonedTasks` every
task of `lonelyVector` whose action is not null is submitted too and the vector is
cleared. No exception is raised in the model. -/
def CrawlerPV.scheduleTask (pv : CrawlerPV) (task : LonelyTask)
    (resendAbandonedTasks : Bool) : Bool × CrawlerPV :=
  if pv.workersPool.closed then
    (true, { pv with lonelyVector := pv.lonelyVector ++ [task] })
  else
    let pool1 := pv.workersPool.submit [CallableDoubleFunc.runTask task]
    if !resendAbandonedTasks then (true, { pv with workersPool := pool1 })
    else
      let pool2 := pv.lonelyVector.foldl
        (fun pool alone =>
          if alone.action.isSome then pool.submit [CallableDoubleFunc.runTask alone]
          else pool) pool1
      (true, { pv with workersPool := pool2, lonelyVector := [] })

/-- The method `scheduleFunctor` with its return value. On a closed pool the functor is
pushed to `lonelyFunctorsVector`. Otherwise it is submitted, and with
`resendAbandonedTasks` every functor of `lonelyFunctorsVector` is submitted too and the
vector is cleared. No exception is raised in the model. -/
def CrawlerPV.scheduleFunctor (pv : CrawlerPV) (func : CallableDoubleFunc)
    (resendAbandonedTasks : Bool) : Bool × CrawlerPV :=
  if pv.workersPool.closed then
    (true, { pv with lonelyFunctorsVector := pv.lonelyFunctorsVector ++ [func] })
  else
    let pool1 := pv.workersPool.submit [func]
    if !resendAbandonedTasks then (true, { pv with workersPool := pool1 })
    else
      let pool2 := pv.lonelyFunctorsVector.foldl (fun pool f => pool.submit [f]) pool1
      (true, { pv with workersPool := pool2, lonelyFunctorsVector := [] })

/-- The method `stop`. It starts a detached thread that calls `joinExportAll` with a
callback that appends the exported functors to `lonelyFunctorsVector`, and returns at
once. The flag `waiterDone` tells whether that thread has finished when the caller goes
on: if so the pool is closed and its queue is in the vector, if not nothing has changed
yet. -/
def CrawlerPV.stop (pv : CrawlerPV) (waiterDone : Bool) : CrawlerPV :=
  if waiterDone then
    let (exported, pool) := pv.workersPool.joinExportAll
    { pv with workersPool := pool,
              lonelyFunctorsVector := pv.lonelyFunctorsVector ++ exported }
  else pv

/-- The method `start`. The default-constructed `LonelyTask fake` and the statements
behind the early return, from `FuncGrepOne` on, belong to crawler_worker.cpp and are the
parameters `fake` and `rootPipeline`. The result is `none` when the new root is not
alive. -/
def CrawlerPV.start (pv : CrawlerPV) (h : Heap) (neuRootTask : Ptr) (threadsNumber : Nat)
    (forceRebuild waiterDone : Bool) (fake : LonelyTask)
    (rootPipeline : CrawlerPV → Heap → Option (CrawlerPV × Heap)) :
    Option (CrawlerPV × Heap) :=
  let pv1 :=
    if neuRootTask != pv.taskRoot then
      { pv with workersPool := pv.workersPool.terminateDetach }
    else pv.stop waiterDone
  let pv2 :=
    if pv1.workersPool.closed || pv1.workersPool.threadsCount != threadsNumber then
      { pv1 with workersPool := ThreadsPool.ctor threadsNumber }
    else pv1
  let pv3 :=
    if pv2.taskRoot == neuRootTask then
      let pool :=
        if !pv2.lonelyFunctorsVector.isEmpty then
          pv2.workersPool.submit pv2.lonelyFunctorsVector
        else pv2.workersPool
      let pv2a := { pv2 with workersPool := pool, lonelyFunctorsVector := [] }
      if !pv2a.lonelyVector.isEmpty then (pv2a.scheduleTask fake true).2 else pv2a
    else pv2
  let pv4 := { pv3 with taskRoot := neuRootTask }
  match neuRootTask with
  | none => some (pv4, h)
  | some r =>
    match h.load r with
    | none => none
    | some rn =>
      if rn.grepVars.pageIsParsed && !forceRebuild then some (pv4, h)
      else rootPipeline pv4 h

/-- Two roots with parsed pages, at the addresses 0 and 1. -/
def twoRootsHeap : Heap :=
  let (a, h) := createRootNode (Heap.empty [])
  let (b, h) := createRootNode h
  let parse (h : Heap) (r : Nat) : Heap :=
    match h.load r with
    | some n => h.store r { n with grepVars := { n.grepVars with pageIsParsed := true } }
    | none => h
  parse (parse h a) b

/-- A task made for the root at the address 0. -/
def oldRootTask : LonelyTask := { root := some 0, target := some 0, action := some 0 }

/-- A default-constructed `LonelyTask`, all members null. -/
def fakeTask : LonelyTask := { root := none, target := none, action := none }

/-- The orchestrator with abandoned work of the root at the address 0: after `start` on
that root a functor is submitted, `stop` exports it, and a task scheduled while the
pool is closed goes to `lonelyVector`. -/
def pocketedCrawler : Option CrawlerPV :=
  match CrawlerPV.ctor.start twoRootsHeap (some 0) 1 false true fakeTask
      (fun _ _ => none) with
  | none => none
  | some (s0, _) =>
    let s1 := (s0.scheduleFunctor (CallableDoubleFunc.functor 7) false).2
    let s2 := s1.stop true
    some (s2.scheduleTask oldRootTask false).2

/-- The run `start(B, 1)` on the orchestrator `pv`, with `B` the root at the address 1. -/
def startOnNewRoot (pv : CrawlerPV) (waiterDone : Bool) : Option CrawlerPV :=
  (pv.start twoRootsHeap (some 1) 1 false waiterDone fakeTask (fun _ _ => none)).map
    (fun r => r.1)

/-- The orchestrator after a functor was submitted and `stop` has exported it: the pool
is closed and `lonelyFunctorsVector` holds the functor. -/
def stoppedCrawler : CrawlerPV :=
  ((CrawlerPV.ctor.scheduleFunctor (CallableDoubleFunc.functor 7) false).2).stop true

/-! ## Trees of nodes and post-order -/

/-- A finite tree of node addresses, as the specification speaks of it: empty, or a node
with the tree behind its `next` link and the tree behind its `child` link. -/
inductive TaskTree where
  | nil : TaskTree
  | node (addr : Nat) (next child : TaskTree) : TaskTree
deriving DecidableEq

/-- The pointer to a tree: null for the empty tree, else the address of its top node. -/
def TaskTree.ptr : TaskTree → Ptr
  | TaskTree.nil => none
  | TaskTree.node a _ _ => some a

/-- The post-order of the specification: first the nodes behind `next`, then the nodes
behind `child`, then the node itself. -/
def TaskTree.postOrder : TaskTree → List Nat
  | TaskTree.nil => []
  | TaskTree.node a n c => n.postOrder ++ c.postOrder ++ [a]

/-- The number of nodes on the longest path of links from the top. -/
def TaskTree.height : TaskTree → Nat
  | TaskTree.nil => 0
  | TaskTree.node _ n c => 1 + max n.height c.height

/-- The heap holds the tree `t`: every node of `t` is alive, and its `next` and `child`
members point to the two trees below it. -/
def Heap.holdsTree (h : Heap) : TaskTree → Bool
  | TaskTree.nil => true
  | TaskTree.node a n c =>
    (match h.load a with
     | some x => decide (x.next = n.ptr) && decide (x.child = c.ptr)
     | none => false) && h.holdsTree n && h.holdsTree c

/-- The function `func` applied to the addresses of a list, one after the other; `none`
as soon as one call has no defined result. -/
def visitAll (func : Nat → Heap → Option Heap) : List Nat → Heap → Option Heap
  | [], h => some h
  | a :: rest, h =>
    match func a h with
    | none => none
    | some h1 => visitAll func rest h1

/-- The tree that `sampleSpawnRun` builds: the root 0 with its sibling 5, under the root
the chain 1, 2, 3, and the node 4 under the node 2. -/
def sampleSpawnTree : TaskTree :=
  TaskTree.node 0 (TaskTree.node 5 TaskTree.nil TaskTree.nil)
    (TaskTree.node 1
      (TaskTree.node 2 (TaskTree.node 3 TaskTree.nil TaskTree.nil)
        (TaskTree.node 4 TaskTree.nil TaskTree.nil))
      TaskTree.nil)

/-! ## The steps of FuncNeu under concurrent callers -/

/-- The first statements of `FuncNeu`: the loads of `maxPossbleNodesQuantity` and of
`nodeAllocationsCount` and the test `cntMax <= cntCur`. The result tells whether the call
goes on to allocate. -/
def FuncNeuTest (RootNodePtr : Nat) (h : Heap) : Option Bool :=
  match h.load RootNodePtr with
  | none => none
  | some r => some (!decide (r.maxPossbleNodesQuantity ≤ r.nodeAllocationsCount))

/-- The statements of `FuncNeu` behind a passed test: `new LinkedTask(RootNodePtr)` and
`RootNodePtr->nodeAllocationsCount.fetch_add(1)`. -/
def FuncNeuAllocate (RootNodePtr : Nat) (h : Heap) : Option (Ptr × Heap) :=
  match h.load RootNodePtr with
  | none => none
  | some r =>
    let (p, h1) := h.alloc (LinkedTask.ctorChild RootNodePtr r)
    match h1.load RootNodePtr with
    | none => none
    | some r1 =>
      some (some p, h1.store RootNodePtr
        { r1 with nodeAllocationsCount := u32 (r1.nodeAllocationsCount + 1) })

/-- Calls of `FuncNeu` on one root by several threads, one call per thread. The schedule
lists the threads in the order of their steps: the first step of a thread is the test,
its second step the statements behind the test, which allocate when its own test has
passed. The list `tested` holds the outcome of the tests made so far. -/
def FuncNeuThreads (RootNodePtr : Nat) : List Nat → List (Nat × Bool) → Heap → Option Heap
  | [], _, h => some h
  | w :: rest, tested, h =>
    match tested.lookup w with
    | none =>
      match FuncNeuTest RootNodePtr h with
      | none => none
      | some passed => FuncNeuThreads RootNodePtr rest ((w, passed) :: tested) h
    | some true =>
      match FuncNeuAllocate RootNodePtr h with
      | none => none
      | some (_, h1) => FuncNeuThreads RootNodePtr rest tested h1
    | some false => FuncNeuThreads RootNodePtr rest tested h

/-! ## The source of spawnGreppedSubtasks held by reference -/

/-- Where the reference `targetVariables` of `spawnGreppedSubtasks` points: to a `GrepVars`
object that is no member of a node, or to the member `grepVars` of the node at an
address. -/
inductive SourceRef where
  | object (gv : GrepVars)
  | ofNode (a : Nat)
  deriving DecidableEq

/-- The value behind the reference in the heap `h`; `none` when the node is not alive. -/
def SourceRef.read : SourceRef → Heap → Option GrepVars
  | SourceRef.object gv, _ => some gv
  | SourceRef.ofNode a, h => (h.load a).map LinkedTask.grepVars

/-- The lambda `func` of `LinkedTask::spawnGreppedSubtasks` with `targetVariables` held by
reference, as in the source: `turl.assign` writes the matched text into
`_node->grepVars.targetUrl`, and `MakeFullPath` reads `targetVariables` as it is after
that write. -/
def spawnGreppedSubtasksFuncRef (host_and_port : List Char) (targetVariables : SourceRef)
    (_node : Nat) (s : Heap × Nat) : Option (Outcome (Heap × Nat)) :=
  match s.1.load _node, targetVariables.read s.1 with
  | some n, some gv =>
    match gv.matchURLVector[s.2]? with
    | none => none
    | some m =>
      match iteratorRange gv.pageContent m with
      | none => none
      | some turl =>
        let h1 := s.1.store _node { n with grepVars := { n.grepVars with targetUrl := turl } }
        match h1.load _node, targetVariables.read h1 with
        | some n1, some gv1 =>
          let turl1 := MakeFullPath turl turl.length host_and_port gv1
          some (Outcome.returned
            (h1.store _node { n1 with grepVars := { n1.grepVars with targetUrl := turl1 } },
             s.2 + 1))
        | _, _ => none
  | _, _ => none

/-- The method `LinkedTask::spawnGreppedSubtasks(host_and_port, targetVariables, skipCount)`
of the object at `this` with `targetVariables` held by reference. -/
def spawnGreppedSubtasksRef (fuel : Nat) (this : Nat) (host_and_port : List Char)
    (targetVariables : SourceRef) (skipCount : Nat) (h : Heap) : Option (Nat × Heap) :=
  match targetVariables.read h with
  | none => none
  | some gv =>
    if !gv.pageIsParsed || gv.matchURLVector.isEmpty then some (0, h)
    else
      match spawnNextNodes fuel this (gv.matchURLVector.length - 1) h with
      | none => none
      | some (_, h1) =>
        match ForEachOnBranch fuel (some this)
            (spawnGreppedSubtasksFuncRef host_and_port targetVariables) (u32 skipCount)
            (h1, 0) with
        | none => none
        | some (cnt, (h2, _)) =>
          match linksCounterFetchAdd this cnt h2 with
          | none => none
          | some h3 => some (cnt, h3)

/-- The heap of the call in `CrawlerPV::start`: `startHeap 4096 8192` whose root, at the
address 0, holds the parsed page `samplePage`; the child is at the address 1. -/
def rootPageHeap : Heap :=
  match (startHeap 4096 8192).load 0 with
  | some r => (startHeap 4096 8192).store 0 { r with grepVars := samplePage }
  | none => startHeap 4096 8192

/-! ## Loads and stores -/

theorem load_store_same (h : Heap) (a : Nat) (n : LinkedTask) (ha : a < h.nodes.length) :
    (h.store a n).load a = some n := by
  simp [Heap.load, Heap.store, ha]

theorem load_store_ne (h : Heap) (a b : Nat) (n : LinkedTask) (hab : a ≠ b) :
    (h.store a n).load b = h.load b := by
  simp [Heap.load, Heap.store, List.getElem?_set, hab]

theorem load_store (h : Heap) (a b : Nat) (n : LinkedTask) (ha : a < h.nodes.length) :
    (h.store a n).load b = if a = b then some n else h.load b := by
  by_cases hab : a = b
  · subst hab; simp [load_store_same h a n ha]
  · simp [hab, load_store_ne h a b n hab]

theorem load_lt {h : Heap} {a : Nat} {n : LinkedTask} (hl : h.load a = some n) :
    a < h.nodes.length := by
  by_contra hc
  have : h.nodes[a]? = none := List.getElem?_eq_none (Nat.le_of_not_lt hc)
  simp [Heap.load, this] at hl

theorem load_alloc_old (h : Heap) (n : LinkedTask) (a : Nat) (ha : a < h.nodes.length) :
    (h.alloc n).2.load a = h.load a := by
  simp [Heap.load, Heap.alloc, List.getElem?_append_left ha]

theorem load_alloc_new (h : Heap) (n : LinkedTask) :
    (h.alloc n).2.load h.nodes.length = some n := by
  simp [Heap.load, Heap.alloc]

/-! ## Sibling chains -/

theorem isChain_nil (h : Heap) (p : Ptr) : isChain h p [] = true ↔ p = none := by
  cases p <;> simp [isChain]

theorem isChain_cons (h : Heap) (p : Ptr) (a : Nat) (rest : List Nat) :
    isChain h p (a :: rest) = true ↔
      p = some a ∧ ∃ n, h.load a = some n ∧ isChain h n.next rest = true := by
  cases hl : h.load a <;> simp [isChain, hl]

theorem isChain_unique (h : Heap) : ∀ (l1 l2 : List Nat) (p : Ptr),
    isChain h p l1 = true → isChain h p l2 = true → l1 = l2
  | [], [], _, _, _ => rfl
  | [], b :: l2, p, h1, h2 => by
    rw [isChain_nil] at h1
    rw [isChain_cons] at h2
    rw [h1] at h2
    exact absurd h2.1 (by simp)
  | a :: l1, [], p, h1, h2 => by
    rw [isChain_nil] at h2
    rw [isChain_cons] at h1
    rw [h2] at h1
    exact absurd h1.1 (by simp)
  | a :: l1, b :: l2, p, h1, h2 => by
    rw [isChain_cons] at h1 h2
    obtain ⟨hp1, n1, hn1, hc1⟩ := h1
    obtain ⟨hp2, n2, hn2, hc2⟩ := h2
    have hab : a = b := by
      rw [hp1] at hp2
      exact Option.some.inj hp2
    subst hab
    rw [hn1] at hn2
    have hn : n1 = n2 := Option.some.inj hn2
    subst hn
    rw [isChain_unique h l1 l2 n1.next hc1 hc2]

theorem isChain_suffix (h : Heap) : ∀ (l1 l2 : List Nat) (p : Ptr),
    isChain h p (l1 ++ l2) = true → ∃ q, isChain h q l2 = true ∧ (l1 = [] → q = p)
  | [], l2, p, hc => ⟨p, hc, fun _ => rfl⟩
  | a :: l1, l2, p, hc => by
    rw [List.cons_append, isChain_cons] at hc
    obtain ⟨_, n, _, hc1⟩ := hc
    obtain ⟨q, hq, _⟩ := isChain_suffix h l1 l2 n.next hc1
    exact ⟨q, hq, fun hnil => absurd hnil (by simp)⟩

theorem isChain_head (h : Heap) (p : Ptr) (a : Nat) (l : List Nat)
    (hc : isChain h p (a :: l) = true) : p = some a :=
  ((isChain_cons h p a l).1 hc).1

theorem isChain_nodup (h : Heap) : ∀ (l : List Nat) (p : Ptr),
    isChain h p l = true → l.Nodup
  | [], _, _ => List.nodup_nil
  | a :: l, p, hc => by
    have hc0 := hc
    rw [isChain_cons] at hc
    obtain ⟨hp, n, hn, hc1⟩ := hc
    refine List.nodup_cons.2 ⟨?_, isChain_nodup h l n.next hc1⟩
    intro hmem
    obtain ⟨x, y, hxy⟩ := List.append_of_mem hmem
    rw [hxy] at hc1
    obtain ⟨q, hq, _⟩ := isChain_suffix h x (a :: y) n.next hc1
    have hqa : q = some a := isChain_head h q a y hq
    rw [hqa, ← hp] at hq
    have := isChain_unique h _ _ p hc0 hq
    have hlen := congrArg List.length this
    rw [hxy] at hlen
    simp at hlen
    omega

theorem isChain_mem_live (h : Heap) : ∀ (l : List Nat) (p : Ptr),
    isChain h p l = true → ∀ a ∈ l, ∃ n, h.load a = some n
  | [], _, _, a, ha => absurd ha (by simp)
  | b :: l, p, hc, a, ha => by
    rw [isChain_cons] at hc
    obtain ⟨_, n, hn, hc1⟩ := hc
    rcases List.mem_cons.1 ha with hab | hmem
    · exact ⟨n, hab ▸ hn⟩
    · exact isChain_mem_live h l n.next hc1 a hmem

/-- A chain is kept by every change of the heap that keeps the `next` member of its nodes. -/
theorem isChain_congr (h h1 : Heap) : ∀ (l : List Nat) (p : Ptr),
    isChain h p l = true →
    (∀ a ∈ l, ∀ n, h.load a = some n → ∃ n1, h1.load a = some n1 ∧ n1.next = n.next) →
    isChain h1 p l = true
  | [], p, hc, _ => by
    rw [isChain_nil] at hc ⊢
    exact hc
  | a :: l, p, hc, hfr => by
    rw [isChain_cons] at hc ⊢
    obtain ⟨hp, n, hn, hc1⟩ := hc
    obtain ⟨n1, hn1, hnext⟩ := hfr a (List.mem_cons_self a l) n hn
    refine ⟨hp, n1, hn1, ?_⟩
    rw [hnext]
    exact isChain_congr h h1 l n.next hc1
      (fun b hb m hm => hfr b (List.mem_cons_of_mem a hb) m hm)

/-- Linking a new last node `i` behind the tail `last` of a chain. -/
theorem isChain_snoc (h h1 : Heap) (last i : Nat) : ∀ (l : List Nat) (p : Ptr),
    isChain h p (l ++ [last]) = true →
    (∀ a ∈ l, ∀ n, h.load a = some n → ∃ n1, h1.load a = some n1 ∧ n1.next = n.next) →
    (∃ n1, h1.load last = some n1 ∧ n1.next = some i) →
    (∃ n1, h1.load i = some n1 ∧ n1.next = none) →
    isChain h1 p (l ++ [last] ++ [i]) = true
  | [], p, hc, _, hlast, hi => by
    simp only [List.nil_append, List.singleton_append] at hc ⊢
    rw [isChain_cons] at hc ⊢
    obtain ⟨hp, _, _, _⟩ := hc
    obtain ⟨n1, hn1, hnext⟩ := hlast
    obtain ⟨n2, hn2, hnext2⟩ := hi
    refine ⟨hp, n1, hn1, ?_⟩
    rw [hnext, isChain_cons]
    refine ⟨rfl, n2, hn2, ?_⟩
    rw [hnext2, isChain_nil]
  | a :: l, p, hc, hfr, hlast, hi => by
    simp only [List.cons_append] at hc ⊢
    rw [isChain_cons] at hc ⊢
    obtain ⟨hp, n, hn, hc1⟩ := hc
    obtain ⟨n1, hn1, hnext⟩ := hfr a (List.mem_cons_self a l) n hn
    refine ⟨hp, n1, hn1, ?_⟩
    rw [hnext]
    have := isChain_snoc h h1 last i l n.next hc1
      (fun b hb m hm => hfr b (List.mem_cons_of_mem a hb) m hm) hlast hi
    simpa using this

/-! ## Frame relations -/

theorem length_store (h : Heap) (a : Nat) (n : LinkedTask) :
    (h.store a n).nodes.length = h.nodes.length := by
  simp [Heap.store]

theorem atomics_store (h : Heap) (a : Nat) (n : LinkedTask) :
    (h.store a n).atomics = h.atomics := rfl

theorem length_alloc (h : Heap) (n : LinkedTask) :
    (h.alloc n).2.nodes.length = h.nodes.length + 1 := by
  simp [Heap.alloc]

theorem atomics_alloc (h : Heap) (n : LinkedTask) : (h.alloc n).2.atomics = h.atomics := rfl

theorem filter_isSome_set_some : ∀ (l : List (Option LinkedTask)) (a : Nat) (x y : LinkedTask),
    l[a]? = some (some y) →
    ((l.set a (some x)).filter Option.isSome).length = (l.filter Option.isSome).length
  | [], a, x, y, hl => by simp at hl
  | s :: l, 0, x, y, hl => by
    simp at hl
    subst hl
    simp [List.filter_cons]
  | s :: l, a + 1, x, y, hl => by
    simp at hl
    have ih := filter_isSome_set_some l a x y hl
    cases s <;> simp [List.filter_cons, ih]

theorem liveCount_store (h : Heap) (a : Nat) (n n0 : LinkedTask) (hl : h.load a = some n0) :
    (h.store a n).liveCount = h.liveCount := by
  unfold Heap.liveCount Heap.store
  have hlt := load_lt hl
  have : h.nodes[a]? = some (some n0) := by
    rw [List.getElem?_eq_getElem hlt]
    simp only [Heap.load, List.getElem?_eq_getElem hlt, Option.join] at hl
    simpa using hl
  exact filter_isSome_set_some h.nodes a n n0 this

theorem liveCount_alloc (h : Heap) (n : LinkedTask) :
    (h.alloc n).2.liveCount = h.liveCount + 1 := by
  simp [Heap.liveCount, Heap.alloc, List.filter_append]

theorem sameButLinks_refl (n : LinkedTask) : n.sameButLinks n := by
  cases n; rfl

theorem sameButLinks_trans {a b c : LinkedTask} (h1 : a.sameButLinks b)
    (h2 : b.sameButLinks c) : a.sameButLinks c := by
  unfold LinkedTask.sameButLinks at *
  rw [h2, h1]

theorem sameButLinks_fields {n0 n1 : LinkedTask} (hs : n0.sameButLinks n1) :
    n1.root = n0.root ∧ n1.parent = n0.parent ∧ n1.level = n0.level
      ∧ n1.maxPossbleNodesQuantity = n0.maxPossbleNodesQuantity
      ∧ n1.linksCounterPtr = n0.linksCounterPtr
      ∧ n1.maxLinksCountPtr = n0.maxLinksCountPtr ∧ n1.grepVars = n0.grepVars := by
  unfold LinkedTask.sameButLinks at hs
  refine ⟨?_, ?_, ?_, ?_, ?_, ?_, ?_⟩ <;> rw [hs]

theorem evolvesTo_refl (h : Heap) : h.evolvesTo h :=
  ⟨rfl, fun _ n0 hn => ⟨n0, hn, sameButLinks_refl n0⟩, Nat.le_refl _, fun _ _ hn => hn⟩

theorem evolvesTo_trans {h1 h2 h3 : Heap} (h12 : h1.evolvesTo h2) (h23 : h2.evolvesTo h3) :
    h1.evolvesTo h3 := by
  refine ⟨h23.1.trans h12.1, fun a n0 hn => ?_, Nat.le_trans h12.2.2.1 h23.2.2.1,
    fun a ha hn => h23.2.2.2 a (Nat.lt_of_lt_of_le ha h12.2.2.1) (h12.2.2.2 a ha hn)⟩
  obtain ⟨n1, hn1, hs1⟩ := h12.2.1 a n0 hn
  obtain ⟨n2, hn2, hs2⟩ := h23.2.1 a n1 hn1
  exact ⟨n2, hn2, sameButLinks_trans hs1 hs2⟩

theorem evolvesTo_store (h : Heap) (a : Nat) (n n1 : LinkedTask) (hl : h.load a = some n)
    (hs : n.sameButLinks n1) : h.evolvesTo (h.store a n1) := by
  refine ⟨rfl, fun b n0 hn => ?_, by rw [length_store], fun b _ hb => ?_⟩
  · rw [load_store h a b n1 (load_lt hl)]
    by_cases hab : a = b
    · subst hab
      rw [hl] at hn
      have : n = n0 := Option.some.inj hn
      subst this
      exact ⟨n1, by simp, hs⟩
    · exact ⟨n0, by simp [hab, hn], sameButLinks_refl n0⟩
  · rw [load_store_ne h a b n1 (by
      intro hab
      subst hab
      rw [hl] at hb
      exact absurd hb (by simp))]
    exact hb

theorem evolvesTo_alloc (h : Heap) (n : LinkedTask) : h.evolvesTo (h.alloc n).2 := by
  refine ⟨rfl, fun b n0 hn => ?_, by rw [length_alloc]; omega, fun b hb hn => ?_⟩
  · exact ⟨n0, by rw [load_alloc_old h n b (load_lt hn)]; exact hn, sameButLinks_refl n0⟩
  · rw [load_alloc_old h n b hb]; exact hn

/-- Storing to an address that did not exist before keeps the relation. -/
theorem evolvesTo_store_new (h h1 : Heap) (a : Nat) (n : LinkedTask) (hev : h.evolvesTo h1)
    (ha : h.nodes.length ≤ a) : h.evolvesTo (h1.store a n) := by
  refine ⟨hev.1, fun b n0 hn => ?_, by rw [length_store]; exact hev.2.2.1,
    fun b hb hn => ?_⟩
  · obtain ⟨n1, hn1, hs⟩ := hev.2.1 b n0 hn
    have hb := load_lt hn
    exact ⟨n1, by rw [load_store_ne h1 a b n (by omega)]; exact hn1, hs⟩
  · rw [load_store_ne h1 a b n (by omega)]
    exact hev.2.2.2 b hb hn

/-! ## Allocation and the tail of a chain -/

theorem keepsOff_refl {β : Type} (f : LinkedTask → β) (h : Heap) (x : Nat) :
    h.keepsOff f h x :=
  fun _ _ n0 hn => ⟨n0, hn, rfl⟩

theorem keepsOff_trans {β : Type} {f : LinkedTask → β} {h1 h2 h3 : Heap} {x : Nat}
    (h12 : h1.keepsOff f h2 x) (h23 : h2.keepsOff f h3 x) : h1.keepsOff f h3 x := by
  intro a hax n0 hn
  obtain ⟨n1, hn1, e1⟩ := h12 a hax n0 hn
  obtain ⟨n2, hn2, e2⟩ := h23 a hax n1 hn1
  exact ⟨n2, hn2, e2.trans e1⟩

/-- A store that keeps the member `f`, or that goes to the address `x` itself. -/
theorem keepsOff_store {β : Type} (f : LinkedTask → β) (h : Heap) (a x : Nat)
    (n n1 : LinkedTask) (hl : h.load a = some n) (hs : a = x ∨ f n1 = f n) :
    h.keepsOff f (h.store a n1) x := by
  intro b hbx n0 hn
  rw [load_store h a b n1 (load_lt hl)]
  by_cases hab : a = b
  · subst hab
    rw [hl] at hn
    have : n = n0 := Option.some.inj hn
    subst this
    rcases hs with hax | hnext
    · exact absurd hax hbx
    · exact ⟨n1, by simp, hnext⟩
  · exact ⟨n0, by simp [hab, hn], rfl⟩

theorem keepsOff_alloc {β : Type} (f : LinkedTask → β) (h : Heap) (n : LinkedTask) (x : Nat) :
    h.keepsOff f (h.alloc n).2 x := by
  intro b _ n0 hn
  exact ⟨n0, by rw [load_alloc_old h n b (load_lt hn)]; exact hn, rfl⟩

theorem keepsOff_store_new {β : Type} (f : LinkedTask → β) (h h1 : Heap) (a x : Nat)
    (n : LinkedTask) (hk : h.keepsOff f h1 x) (ha : h.nodes.length ≤ a) :
    h.keepsOff f (h1.store a n) x := by
  intro b hbx n0 hn
  obtain ⟨n1, hn1, e⟩ := hk b hbx n0 hn
  have hb := load_lt hn
  exact ⟨n1, by rw [load_store_ne h1 a b n (by omega)]; exact hn1, e⟩

theorem FuncNeu_full (h : Heap) (r : Nat) (rn : LinkedTask) (hr : h.load r = some rn)
    (hfull : rn.maxPossbleNodesQuantity ≤ rn.nodeAllocationsCount) :
    FuncNeu r h = some (none, h) := by
  simp [FuncNeu, hr, hfull]

theorem FuncNeu_room (h : Heap) (r : Nat) (rn : LinkedTask) (hr : h.load r = some rn)
    (hroom : rn.nodeAllocationsCount < rn.maxPossbleNodesQuantity) :
    FuncNeu r h = some (some h.nodes.length,
      (h.alloc (LinkedTask.ctorChild r rn)).2.store r
        { rn with nodeAllocationsCount := u32 (rn.nodeAllocationsCount + 1) }) := by
  have h1 : (h.alloc (LinkedTask.ctorChild r rn)).2.load r = some rn := by
    rw [load_alloc_old h _ r (load_lt hr)]; exact hr
  have hnot : ¬ rn.maxPossbleNodesQuantity ≤ rn.nodeAllocationsCount := by omega
  simp only [FuncNeu, hr, hnot, if_false, h1]
  rfl

theorem u32_of_lt {n : Nat} (h : n < 4294967296) : u32 n = n := Nat.mod_eq_of_lt h

theorem getLastOnLevelLoop_chain (h : Heap) : ∀ (l : List Nat) (p q : Ptr) (fuel : Nat),
    isChain h p l = true → l.length ≤ fuel →
    getLastOnLevelLoop h fuel p q = some ((l.getLast?.map some).getD q)
  | [], p, q, fuel, hc, _ => by
    rw [isChain_nil] at hc
    subst hc
    cases fuel <;> simp [getLastOnLevelLoop]
  | a :: l, p, q, 0, _, hf => by simp at hf
  | a :: l, p, q, fuel + 1, hc, hf => by
    rw [isChain_cons] at hc
    obtain ⟨hp, n, hn, hc1⟩ := hc
    subst hp
    simp only [getLastOnLevelLoop, hn]
    rw [getLastOnLevelLoop_chain h l n.next (some a) fuel hc1 (by simpa using hf)]
    cases l with
    | nil => simp
    | cons b l1 =>
      have hne : (b :: l1).getLast? = some ((b :: l1).getLast (by simp)) :=
        List.getLast?_eq_getLast _ _
      simp [List.getLast?_cons_cons, hne]

theorem getLastOnLevel_chain (h : Heap) (this last fuel : Nat) (pre : List Nat)
    (hc : isChain h (some this) (pre ++ [last]) = true) (hf : pre.length ≤ fuel) :
    getLastOnLevel fuel h this = some last := by
  cases pre with
  | nil =>
    simp only [List.nil_append] at hc
    rw [isChain_cons] at hc
    obtain ⟨hp, n, hn, hc1⟩ := hc
    have : this = last := Option.some.inj hp
    subst this
    rw [isChain_nil] at hc1
    cases fuel <;> simp [getLastOnLevel, hn, hc1, getLastOnLevelLoop]
  | cons a pre1 =>
    simp only [List.cons_append] at hc
    rw [isChain_cons] at hc
    obtain ⟨hp, n, hn, hc1⟩ := hc
    have : this = a := Option.some.inj hp
    subst this
    have hlen : (pre1 ++ [last]).length ≤ fuel := by simpa using hf
    simp [getLastOnLevel, hn, getLastOnLevelLoop_chain h _ n.next n.next fuel hc1 hlen]

/-! ## The loop of spawnNextNodes -/

/-- One successful iteration of the loop of `spawnNextNodes`. -/
theorem spawnNextNodesLoop_step (this r last k c : Nat) (h : Heap) (rn l0 t : LinkedTask)
    (hr : h.load r = some rn)
    (hroom : rn.nodeAllocationsCount < rn.maxPossbleNodesQuantity)
    (hlast : h.load last = some l0) (hthis : h.load this = some t) :
    ∃ h4, spawnNextNodesLoop this r (k + 1) c last h =
        spawnNextNodesLoop this r k (c + 1) h.nodes.length h4
      ∧ SiblingStep this r last t rn h h4 := by
  have hrlt := load_lt hr
  have hlastlt := load_lt hlast
  have hthislt := load_lt hthis
  -- the allocation
  have hAr : (h.alloc (LinkedTask.ctorChild r rn)).2.load r = some rn := by
    rw [load_alloc_old h _ r hrlt]; exact hr
  have hF := FuncNeu_room h r rn hr hroom
  generalize hh1 : (h.alloc (LinkedTask.ctorChild r rn)).2.store r
        { rn with nodeAllocationsCount := u32 (rn.nodeAllocationsCount + 1) } = h1 at hF
  have e01 : h.evolvesTo h1 := by
    rw [← hh1]
    exact evolvesTo_trans (evolvesTo_alloc h _)
      (evolvesTo_store _ r rn _ hAr (by cases rn; rfl))
  have k01 : h.keepsOff LinkedTask.next h1 last := by
    rw [← hh1]
    exact keepsOff_trans (keepsOff_alloc _ h _ last)
      (keepsOff_store _ _ r last rn _ hAr (Or.inr rfl))
  have c01 : h.keepsOff LinkedTask.nodeAllocationsCount h1 r := by
    rw [← hh1]
    exact keepsOff_trans (keepsOff_alloc _ h _ r)
      (keepsOff_store _ _ r r rn _ hAr (Or.inl rfl))
  have d01 : h.keepsOff LinkedTask.child h1 h.nodes.length := by
    rw [← hh1]
    exact keepsOff_trans (keepsOff_alloc _ h _ _)
      (keepsOff_store _ _ r _ rn _ hAr (Or.inr rfl))
  have len1 : h1.nodes.length = h.nodes.length + 1 := by
    rw [← hh1, length_store, length_alloc]
  have live1 : h1.liveCount = h.liveCount + 1 := by
    rw [← hh1, liveCount_store _ r _ rn hAr, liveCount_alloc]
  have hi1 : h1.load h.nodes.length = some (LinkedTask.ctorChild r rn) := by
    rw [← hh1, load_store_ne _ r _ _ (by omega), load_alloc_new]
  have hr1 : h1.load r = some
      { rn with nodeAllocationsCount := u32 (rn.nodeAllocationsCount + 1) } := by
    rw [← hh1, load_store_same _ r _ (by rw [length_alloc]; omega)]
  -- the store to last_item->next
  obtain ⟨l1, hl1, _⟩ := e01.2.1 last l0 hlast
  generalize hh2 : h1.store last { l1 with next := some h.nodes.length } = h2
  have e12 : h1.evolvesTo h2 := by
    rw [← hh2]; exact evolvesTo_store h1 last l1 _ hl1 (by cases l1; rfl)
  have k12 : h1.keepsOff LinkedTask.next h2 last := by
    rw [← hh2]; exact keepsOff_store _ h1 last last l1 _ hl1 (Or.inl rfl)
  have c12 : h1.keepsOff LinkedTask.nodeAllocationsCount h2 r := by
    rw [← hh2]; exact keepsOff_store _ h1 last r l1 _ hl1 (Or.inr rfl)
  have d12 : h1.keepsOff LinkedTask.child h2 h.nodes.length := by
    rw [← hh2]; exact keepsOff_store _ h1 last _ l1 _ hl1 (Or.inr rfl)
  have len2 : h2.nodes.length = h.nodes.length + 1 := by rw [← hh2, length_store, len1]
  have live2 : h2.liveCount = h.liveCount + 1 := by
    rw [← hh2, liveCount_store _ last _ l1 hl1, live1]
  have hi2 : h2.load h.nodes.length = some (LinkedTask.ctorChild r rn) := by
    rw [← hh2, load_store_ne _ last _ _ (by omega), hi1]
  have hlast2 : h2.load last = some { l1 with next := some h.nodes.length } := by
    rw [← hh2, load_store_same _ last _ (by omega)]
  obtain ⟨t2, ht2, hst2⟩ := (evolvesTo_trans e01 e12).2.1 this t hthis
  -- the new item is set up
  generalize hh3 : h2.store h.nodes.length
      { (LinkedTask.ctorChild r rn).shallowCopy t2 with
        parent := t2.parent, order := t2.childNodesCount } = h3
  have e03 : h.evolvesTo h3 := by
    rw [← hh3]
    exact evolvesTo_store_new h h2 _ _ (evolvesTo_trans e01 e12) (Nat.le_refl _)
  have k03 : h.keepsOff LinkedTask.next h3 last := by
    rw [← hh3]
    exact keepsOff_store_new _ h h2 _ last _ (keepsOff_trans k01 k12) (Nat.le_refl _)
  have c03 : h.keepsOff LinkedTask.nodeAllocationsCount h3 r := by
    rw [← hh3]
    exact keepsOff_store_new _ h h2 _ r _ (keepsOff_trans c01 c12) (Nat.le_refl _)
  have d03 : h.keepsOff LinkedTask.child h3 h.nodes.length := by
    rw [← hh3]
    exact keepsOff_store_new _ h h2 _ _ _ (keepsOff_trans d01 d12) (Nat.le_refl _)
  have len3 : h3.nodes.length = h.nodes.length + 1 := by rw [← hh3, length_store, len2]
  have live3 : h3.liveCount = h.liveCount + 1 := by
    rw [← hh3, liveCount_store _ _ _ _ hi2, live2]
  have hi3 : ∃ n1, h3.load h.nodes.length = some n1 ∧ n1.next = none
      ∧ n1.root = t.root ∧ n1.parent = t.parent ∧ n1.level = t.level
      ∧ n1.nodeAllocationsCount = 0
      ∧ n1.maxPossbleNodesQuantity = t.maxPossbleNodesQuantity
      ∧ n1.linksCounterPtr = t.linksCounterPtr := by
    rw [← hh3, load_store_same _ _ _ (by omega)]
    have hf := sameButLinks_fields hst2
    exact ⟨_, rfl, rfl, hf.1, hf.2.1, hf.2.2.1, rfl, hf.2.2.2.1, hf.2.2.2.2.1⟩
  have ht3 : h3.load this = some t2 := by
    rw [← hh3, load_store_ne _ _ this _ (by omega), ht2]
  -- childNodesCount of this
  generalize hh4 : h3.store this
      { t2 with childNodesCount := u32 (t2.childNodesCount + 1) } = h4
  have e34 : h3.evolvesTo h4 := by
    rw [← hh4]; exact evolvesTo_store h3 this t2 _ ht3 (by cases t2; rfl)
  have k34 : h3.keepsOff LinkedTask.next h4 last := by
    rw [← hh4]; exact keepsOff_store _ h3 this last t2 _ ht3 (Or.inr rfl)
  have c34 : h3.keepsOff LinkedTask.nodeAllocationsCount h4 r := by
    rw [← hh4]; exact keepsOff_store _ h3 this r t2 _ ht3 (Or.inr rfl)
  have d34 : h3.keepsOff LinkedTask.child h4 h.nodes.length := by
    rw [← hh4]; exact keepsOff_store _ h3 this _ t2 _ ht3 (Or.inr rfl)
  refine ⟨h4, ?_, hthis, hr, hroom, evolvesTo_trans e03 e34, ?_, ?_, keepsOff_trans k03 k34,
    keepsOff_trans c03 c34, keepsOff_trans d03 d34, ?_, ?_, ?_⟩
  · rw [spawnNextNodesLoop, hF]
    simp only [hl1, hh2, hi2, ht2, hh3, ht3, hh4]
  · rw [← hh4, length_store, len3]
  · rw [← hh4, liveCount_store _ _ _ _ ht3, live3]
  · have hl3 : h3.load last = some { l1 with next := some h.nodes.length } := by
      rw [← hh3, load_store_ne _ _ last _ (by omega), hlast2]
    rw [← hh4, load_store h3 this last _ (load_lt ht3)]
    by_cases htl : this = last
    · subst htl
      rw [ht3] at hl3
      have e := Option.some.inj hl3
      rw [if_pos rfl]
      refine ⟨_, rfl, ?_⟩
      simp [e]
    · rw [if_neg htl]
      exact ⟨_, hl3, rfl⟩
  · obtain ⟨n1, hn1, hrest⟩ := hi3
    refine ⟨n1, ?_, hrest⟩
    rw [← hh4, load_store_ne _ this _ _ (by omega), hn1]
  · have hr2 : ∃ rn2, h2.load r = some rn2
        ∧ rn2.nodeAllocationsCount = u32 (rn.nodeAllocationsCount + 1)
        ∧ rn2.maxPossbleNodesQuantity = rn.maxPossbleNodesQuantity := by
      rw [← hh2, load_store h1 last r _ (load_lt hl1)]
      by_cases hlr : last = r
      · subst hlr
        rw [hr1] at hl1
        have e := Option.some.inj hl1
        rw [if_pos rfl]
        refine ⟨_, rfl, ?_, ?_⟩
        · rw [← e]
        · rw [← e]
      · rw [if_neg hlr]
        exact ⟨_, hr1, rfl, rfl⟩
    obtain ⟨rn2, hrn2, hc2, hm2⟩ := hr2
    have hr3 : h3.load r = some rn2 := by
      rw [← hh3, load_store_ne _ _ r _ (by omega), hrn2]
    rw [← hh4, load_store h3 this r _ (load_lt ht3)]
    by_cases htr : this = r
    · subst htr
      rw [ht3] at hr3
      have e := Option.some.inj hr3
      rw [if_pos rfl]
      refine ⟨_, rfl, ?_, ?_⟩
      · simp [e, hc2]
      · simp [e, hm2]
    · rw [if_neg htr]
      exact ⟨rn2, hr3, hc2, hm2⟩

theorem isChain_last (h : Heap) (p : Ptr) (pre : List Nat) (last : Nat)
    (hc : isChain h p (pre ++ [last]) = true) :
    ∃ l0, h.load last = some l0 ∧ l0.next = none := by
  obtain ⟨q, hq, _⟩ := isChain_suffix h pre [last] p hc
  rw [isChain_cons] at hq
  obtain ⟨_, n, hn, hnil⟩ := hq
  rw [isChain_nil] at hnil
  exact ⟨n, hn, hnil⟩

theorem isChain_last_not_mem (h : Heap) (p : Ptr) (pre : List Nat) (last : Nat)
    (hc : isChain h p (pre ++ [last]) = true) : ∀ a ∈ pre, a ≠ last := by
  intro a ha hal
  have hnd := isChain_nodup h _ p hc
  rw [List.nodup_append] at hnd
  exact hnd.2.2 ha (by simp [hal])

/-- The loop of `spawnNextNodes`, started at the tail of the chain of `this`: it adds
`min n (max - count)` nodes behind the tail, in the order of their allocation. -/
theorem spawnNextNodesLoop_spec (this r : Nat) : ∀ (n c last : Nat) (h : Heap)
    (pre : List Nat) (rn t : LinkedTask),
    isChain h (some this) (pre ++ [last]) = true → h.load r = some rn →
    rn.maxPossbleNodesQuantity < 4294967296 → h.load this = some t →
    ∃ h1, spawnNextNodesLoop this r n c last h =
        some (c + min n (rn.maxPossbleNodesQuantity - rn.nodeAllocationsCount), h1)
      ∧ isChain h1 (some this) (pre ++ [last] ++ List.range' h.nodes.length
          (min n (rn.maxPossbleNodesQuantity - rn.nodeAllocationsCount))) = true
      ∧ h.evolvesTo h1
      ∧ h1.nodes.length = h.nodes.length
          + min n (rn.maxPossbleNodesQuantity - rn.nodeAllocationsCount)
      ∧ h1.liveCount = h.liveCount
          + min n (rn.maxPossbleNodesQuantity - rn.nodeAllocationsCount)
      ∧ ∃ rn1, h1.load r = some rn1
          ∧ rn1.nodeAllocationsCount = rn.nodeAllocationsCount
              + min n (rn.maxPossbleNodesQuantity - rn.nodeAllocationsCount)
          ∧ rn1.maxPossbleNodesQuantity = rn.maxPossbleNodesQuantity
  | 0, c, last, h, pre, rn, t, hc, hr, _, _ => by
    refine ⟨h, by simp [spawnNextNodesLoop], by simpa using hc, evolvesTo_refl h,
      by simp, by simp, rn, hr, by simp, rfl⟩
  | n + 1, c, last, h, pre, rn, t, hc, hr, hmax, hthis => by
    obtain ⟨l0, hlast, hl0next⟩ := isChain_last h _ pre last hc
    by_cases hfull : rn.maxPossbleNodesQuantity ≤ rn.nodeAllocationsCount
    · have hk : min (n + 1) (rn.maxPossbleNodesQuantity - rn.nodeAllocationsCount) = 0 := by
        omega
      rw [hk]
      have hst : h.evolvesTo (h.store last { l0 with next := none }) :=
        evolvesTo_store h last l0 _ hlast (by cases l0; rfl)
      refine ⟨h.store last { l0 with next := none }, ?_, ?_, hst, by simp [length_store],
        by simp [liveCount_store h last _ l0 hlast], ?_⟩
      · rw [spawnNextNodesLoop, FuncNeu_full h r rn hr hfull]
        simp only [hlast, Nat.add_zero]
      · simp only [List.range'_zero, List.append_nil]
        refine isChain_congr h _ _ _ hc (fun a _ m hm => ?_)
        rw [load_store h last a _ (load_lt hlast)]
        by_cases hla : last = a
        · subst hla
          rw [hlast] at hm
          have e := Option.some.inj hm
          rw [if_pos rfl]
          exact ⟨_, rfl, by rw [← e, hl0next]⟩
        · rw [if_neg hla]
          exact ⟨m, hm, rfl⟩
      · obtain ⟨rn1, hrn1, hs⟩ := hst.2.1 r rn hr
        rw [load_store h last r _ (load_lt hlast)] at hrn1 ⊢
        by_cases hlr : last = r
        · subst hlr
          rw [hr] at hlast
          have e := Option.some.inj hlast
          rw [if_pos rfl]
          exact ⟨_, rfl, by simp [e], by simp [e]⟩
        · rw [if_neg hlr]
          exact ⟨rn, hr, by simp, rfl⟩
    · have hroom : rn.nodeAllocationsCount < rn.maxPossbleNodesQuantity := by omega
      obtain ⟨h4, hstep, _, _, _, hev, hlen, hlive, hkeep, _, _, hl4, ⟨ni, hni, hninext, _⟩,
          rn1, hrn1, hcnt1', hmax1⟩ :=
        spawnNextNodesLoop_step this r last n c h rn l0 t hr hroom hlast hthis
      have hcnt1 : rn1.nodeAllocationsCount = rn.nodeAllocationsCount + 1 := by
        rw [hcnt1']; exact u32_of_lt (by omega)
      have hc4 : isChain h4 (some this) (pre ++ [last] ++ [h.nodes.length]) = true :=
        isChain_snoc h h4 last h.nodes.length pre (some this) hc
          (fun a ha m hm => hkeep a (isChain_last_not_mem h _ pre last hc a ha) m hm) hl4
          ⟨ni, hni, hninext⟩
      obtain ⟨t4, ht4, _⟩ := hev.2.1 this t hthis
      obtain ⟨h1, hloop, hc1, hev1, hlen1, hlive1, rn2, hrn2, hcnt2, hmax2⟩ :=
        spawnNextNodesLoop_spec this r n (c + 1) h.nodes.length h4 (pre ++ [last]) rn1 t4
          hc4 hrn1 (by omega) ht4
      have hk : min (n + 1) (rn.maxPossbleNodesQuantity - rn.nodeAllocationsCount)
          = min n (rn1.maxPossbleNodesQuantity - rn1.nodeAllocationsCount) + 1 := by
        omega
      rw [hk]
      refine ⟨h1, ?_, ?_, evolvesTo_trans hev hev1, by omega, by omega, rn2, hrn2,
        by omega, by omega⟩
      · rw [hstep, hloop]
        congr 2
        omega
      · rw [hlen] at hc1
        rw [List.range'_succ]
        simpa [List.append_assoc] using hc1

/-! ## The branch walk of spawnGreppedSubtasks -/

theorem sameButUrl_refl (n : LinkedTask) : n.sameButUrl n := by
  cases n; rfl

theorem sameButUrl_trans {a b c : LinkedTask} (h1 : a.sameButUrl b) (h2 : b.sameButUrl c) :
    a.sameButUrl c := by
  unfold LinkedTask.sameButUrl at *
  rw [h2, h1]

/-- The method `spawnNextNodes` on a node whose sibling chain is `chain`: `min n (max - count)` nodes
are appended behind the tail, and that number is returned. -/
theorem spawnNextNodes_spec (h : Heap) (this r : Nat) (t rn : LinkedTask) (chain : List Nat)
    (fuel n : Nat) (hthis : h.load this = some t) (hroot : t.root = some r)
    (hr : h.load r = some rn) (hmax : rn.maxPossbleNodesQuantity < 4294967296)
    (hc : isChain h (some this) chain = true) (hf : chain.length ≤ fuel) :
    ∃ h1, spawnNextNodes fuel this n h =
        some (min n (rn.maxPossbleNodesQuantity - rn.nodeAllocationsCount), h1)
      ∧ isChain h1 (some this) (chain ++ List.range' h.nodes.length
          (min n (rn.maxPossbleNodesQuantity - rn.nodeAllocationsCount))) = true
      ∧ h.evolvesTo h1
      ∧ h1.nodes.length = h.nodes.length
          + min n (rn.maxPossbleNodesQuantity - rn.nodeAllocationsCount)
      ∧ h1.liveCount = h.liveCount
          + min n (rn.maxPossbleNodesQuantity - rn.nodeAllocationsCount)
      ∧ ∃ rn1, h1.load r = some rn1
          ∧ rn1.nodeAllocationsCount = rn.nodeAllocationsCount
              + min n (rn.maxPossbleNodesQuantity - rn.nodeAllocationsCount)
          ∧ rn1.maxPossbleNodesQuantity = rn.maxPossbleNodesQuantity := by
  by_cases hn0 : n = 0
  · subst hn0
    refine ⟨h, by simp [spawnNextNodes], by simpa using hc, evolvesTo_refl h, by simp,
      by simp, rn, hr, by simp, rfl⟩
  · have hne : chain ≠ [] := by
      intro hnil
      rw [hnil, isChain_nil] at hc
      exact absurd hc (by simp)
    have hsplit : chain = chain.dropLast ++ [chain.getLast hne] :=
      (List.dropLast_append_getLast hne).symm
    rw [hsplit] at hc
    have hlast := getLastOnLevel_chain h this (chain.getLast hne) fuel chain.dropLast hc
      (by rw [List.length_dropLast]; omega)
    obtain ⟨h1, hloop, hc1, hrest⟩ :=
      spawnNextNodesLoop_spec this r n 0 (chain.getLast hne) h chain.dropLast rn t hc hr hmax
        hthis
    refine ⟨h1, ?_, ?_, hrest⟩
    · simp only [spawnNextNodes, hn0, if_false, hthis, hroot, hlast, hloop, Nat.zero_add]
    · rw [← hsplit] at hc1
      exact hc1

theorem linksCounterFetchAdd_eq (h : Heap) (this cnt cp v : Nat) (t : LinkedTask)
    (hthis : h.load this = some t) (hcp : t.linksCounterPtr = some cp)
    (hv : h.atomics[cp]? = some v) :
    linksCounterFetchAdd this cnt h
      = some { h with atomics := h.atomics.set cp (u32 (v + cnt)) } := by
  simp only [linksCounterFetchAdd, hthis, hcp, hv]

/-- The method `spawnChildNode` when the root has room: the new node sits at the next unused
address, is stored in `child` of the parent, and copies the parent's `root`. -/
theorem spawnChildNode_room (h : Heap) (p r : Nat) (t rn : LinkedTask)
    (hp : h.load p = some t) (hroot : t.root = some r) (hr : h.load r = some rn)
    (hroom : rn.nodeAllocationsCount < rn.maxPossbleNodesQuantity) :
    ∃ h4, spawnChildNode p h = some (some h.nodes.length, t.child, h4)
      ∧ ChildStep p r t rn h h4 := by
  have hplt := load_lt hp
  have hrlt := load_lt hr
  have hAr : (h.alloc (LinkedTask.ctorChild r rn)).2.load r = some rn := by
    rw [load_alloc_old h _ r hrlt]; exact hr
  have hF := FuncNeu_room h r rn hr hroom
  generalize hh1 : (h.alloc (LinkedTask.ctorChild r rn)).2.store r
        { rn with nodeAllocationsCount := u32 (rn.nodeAllocationsCount + 1) } = h1 at hF
  have e01 : h.evolvesTo h1 := by
    rw [← hh1]
    exact evolvesTo_trans (evolvesTo_alloc h _)
      (evolvesTo_store _ r rn _ hAr (by cases rn; rfl))
  have k01 : h.keepsOff LinkedTask.next h1 h.nodes.length := by
    rw [← hh1]
    exact keepsOff_trans (keepsOff_alloc _ h _ _)
      (keepsOff_store _ _ r _ rn _ hAr (Or.inr rfl))
  have c01 : h.keepsOff LinkedTask.nodeAllocationsCount h1 r := by
    rw [← hh1]
    exact keepsOff_trans (keepsOff_alloc _ h _ r)
      (keepsOff_store _ _ r r rn _ hAr (Or.inl rfl))
  have d01 : h.keepsOff LinkedTask.child h1 p := by
    rw [← hh1]
    exact keepsOff_trans (keepsOff_alloc _ h _ _)
      (keepsOff_store _ _ r _ rn _ hAr (Or.inr rfl))
  have len1 : h1.nodes.length = h.nodes.length + 1 := by
    rw [← hh1, length_store, length_alloc]
  have live1 : h1.liveCount = h.liveCount + 1 := by
    rw [← hh1, liveCount_store _ r _ rn hAr, liveCount_alloc]
  have hi1 : h1.load h.nodes.length = some (LinkedTask.ctorChild r rn) := by
    rw [← hh1, load_store_ne _ r _ _ (by omega), load_alloc_new]
  have hr1 : h1.load r = some
      { rn with nodeAllocationsCount := u32 (rn.nodeAllocationsCount + 1) } := by
    rw [← hh1, load_store_same _ r _ (by rw [length_alloc]; omega)]
  obtain ⟨t1, ht1, hst1⟩ := e01.2.1 p t hp
  have hchild1 : t1.child = t.child := by
    rw [← hh1, load_store _ r p _ (by rw [length_alloc]; omega)] at ht1
    by_cases hrp : r = p
    · subst hrp
      rw [if_pos rfl] at ht1
      rw [hr] at hp
      rw [← Option.some.inj ht1, ← Option.some.inj hp]
    · rw [if_neg hrp, load_alloc_old h _ p hplt, hp] at ht1
      rw [← Option.some.inj ht1]
  generalize hh2 : h1.store p { t1 with child := some h.nodes.length } = h2
  have e12 : h1.evolvesTo h2 := by
    rw [← hh2]; exact evolvesTo_store h1 p t1 _ ht1 (by cases t1; rfl)
  have k12 : h1.keepsOff LinkedTask.next h2 h.nodes.length := by
    rw [← hh2]; exact keepsOff_store _ h1 p _ t1 _ ht1 (Or.inr rfl)
  have c12 : h1.keepsOff LinkedTask.nodeAllocationsCount h2 r := by
    rw [← hh2]; exact keepsOff_store _ h1 p r t1 _ ht1 (Or.inr rfl)
  have d12 : h1.keepsOff LinkedTask.child h2 p := by
    rw [← hh2]; exact keepsOff_store _ h1 p p t1 _ ht1 (Or.inl rfl)
  have hi2 : h2.load h.nodes.length = some (LinkedTask.ctorChild r rn) := by
    rw [← hh2, load_store_ne _ p _ _ (by omega), hi1]
  have hp2 : h2.load p = some { t1 with child := some h.nodes.length } := by
    rw [← hh2, load_store_same _ p _ (by omega)]
  have len2 : h2.nodes.length = h.nodes.length + 1 := by rw [← hh2, length_store, len1]
  have live2 : h2.liveCount = h.liveCount + 1 := by
    rw [← hh2, liveCount_store _ p _ t1 ht1, live1]
  generalize hh3 : h2.store h.nodes.length
      { (LinkedTask.ctorChild r rn).shallowCopy { t1 with child := some h.nodes.length } with
        parent := some p, level := u32 (1 + t1.level), order := t1.childNodesCount } = h3
  have e03 : h.evolvesTo h3 := by
    rw [← hh3]
    exact evolvesTo_store_new h h2 _ _ (evolvesTo_trans e01 e12) (Nat.le_refl _)
  have k03 : h.keepsOff LinkedTask.next h3 h.nodes.length := by
    rw [← hh3]
    exact keepsOff_store_new _ h h2 _ _ _ (keepsOff_trans k01 k12) (Nat.le_refl _)
  have c03 : h.keepsOff LinkedTask.nodeAllocationsCount h3 r := by
    rw [← hh3]
    exact keepsOff_store_new _ h h2 _ r _ (keepsOff_trans c01 c12) (Nat.le_refl _)
  have d03 : h.keepsOff LinkedTask.child h3 p := by
    rw [← hh3]
    exact keepsOff_store_new _ h h2 _ p _ (keepsOff_trans d01 d12) (Nat.le_refl _)
  have hp3 : h3.load p = some { t1 with child := some h.nodes.length } := by
    rw [← hh3, load_store_ne _ _ p _ (by omega), hp2]
  have len3 : h3.nodes.length = h.nodes.length + 1 := by rw [← hh3, length_store, len2]
  have live3 : h3.liveCount = h.liveCount + 1 := by
    rw [← hh3, liveCount_store _ _ _ _ hi2, live2]
  generalize hh4 : h3.store p { ({ t1 with child := some h.nodes.length } : LinkedTask) with
      childNodesCount := u32 (t1.childNodesCount + 1) } = h4
  have e34 : h3.evolvesTo h4 := by
    rw [← hh4]; exact evolvesTo_store h3 p _ _ hp3 rfl
  have k34 : h3.keepsOff LinkedTask.next h4 h.nodes.length := by
    rw [← hh4]; exact keepsOff_store _ h3 p _ _ _ hp3 (Or.inr rfl)
  have c34 : h3.keepsOff LinkedTask.nodeAllocationsCount h4 r := by
    rw [← hh4]; exact keepsOff_store _ h3 p r _ _ hp3 (Or.inr rfl)
  have d34 : h3.keepsOff LinkedTask.child h4 p := by
    rw [← hh4]; exact keepsOff_store _ h3 p p _ _ hp3 (Or.inl rfl)
  have hcall : spawnChildNode p h = some (some h.nodes.length, t.child, h4) := by
    simp only [spawnChildNode, hp, hroot, hF, ht1, hh2, hi2, hp2, hh3, hp3, hh4, hchild1.symm]
  have hf := sameButLinks_fields hst1
  refine ⟨h4, hcall, hp, hr, hroom, evolvesTo_trans e03 e34, ?_, ?_, keepsOff_trans k03 k34,
    keepsOff_trans c03 c34, keepsOff_trans d03 d34, ?_, ?_, ?_⟩
  · rw [← hh4, length_store, len3]
  · rw [← hh4, liveCount_store _ p _ _ hp3, live3]
  · rw [← hh4, load_store_same _ p _ (by omega)]
    exact ⟨_, rfl, rfl⟩
  · rw [← hh4, load_store_ne _ p _ _ (by omega), ← hh3, load_store_same _ _ _ (by omega)]
    exact ⟨_, rfl, rfl, hf.1, rfl, by rw [← hf.2.2.1], rfl, hf.2.2.2.1, hf.2.2.2.2.1⟩
  · have hr3 : h3.load r = some
        { rn with nodeAllocationsCount := u32 (rn.nodeAllocationsCount + 1) } ∨
        (r = p ∧ ∃ x, h3.load r = some x
          ∧ x.nodeAllocationsCount = u32 (rn.nodeAllocationsCount + 1)
          ∧ x.maxPossbleNodesQuantity = rn.maxPossbleNodesQuantity) := by
      by_cases hrp : r = p
      · right
        subst hrp
        rw [hr1] at ht1
        have e := Option.some.inj ht1
        exact ⟨rfl, _, hp3, by rw [← e], by rw [← e]⟩
      · left
        rw [← hh3, load_store_ne _ _ r _ (by omega), ← hh2, load_store_ne _ p r _ (Ne.symm hrp),
          hr1]
    rw [← hh4, load_store h3 p r _ (load_lt hp3)]
    by_cases hpr : p = r
    · rw [if_pos hpr]
      rcases hr3 with h3r | ⟨_, x, hx, hxc, hxm⟩
      · subst hpr
        rw [hp3] at h3r
        have e := Option.some.inj h3r
        refine ⟨_, rfl, ?_, ?_⟩
        · show ({ t1 with child := some h.nodes.length } : LinkedTask).nodeAllocationsCount = _
          rw [e]
        · show ({ t1 with child := some h.nodes.length } : LinkedTask).maxPossbleNodesQuantity
            = _
          rw [e]
      · subst hpr
        rw [hp3] at hx
        have e := Option.some.inj hx
        refine ⟨_, rfl, ?_, ?_⟩
        · show ({ t1 with child := some h.nodes.length } : LinkedTask).nodeAllocationsCount = _
          rw [e, hxc]
        · show ({ t1 with child := some h.nodes.length } : LinkedTask).maxPossbleNodesQuantity
            = _
          rw [e, hxm]
    · rw [if_neg hpr]
      rcases hr3 with h3r | ⟨hrp, _⟩
      · exact ⟨_, h3r, rfl, rfl⟩
      · exact absurd hrp.symm hpr

/-- The method `spawnChildNode` when the root is at its ceiling. -/
theorem spawnChildNode_full (h : Heap) (p r : Nat) (t rn : LinkedTask)
    (hp : h.load p = some t) (hroot : t.root = some r) (hr : h.load r = some rn)
    (hfull : rn.maxPossbleNodesQuantity ≤ rn.nodeAllocationsCount) :
    spawnChildNode p h = some (none, t.child, h) := by
  simp only [spawnChildNode, hp, hroot, FuncNeu_full h r rn hr hfull]

/-! ## What every returning call keeps -/

/-- The loop of `getLastOnLevel` carries every property `Q` that is inherited along `next`
to the node it returns, and that node has no `next`. -/
theorem getLastOnLevelLoop_carries (h : Heap) (Q : Nat → Prop)
    (hQ : ∀ a n m, Q a → h.load a = some n → n.next = some m → Q m) :
    ∀ (fuel : Nat) (p q res : Ptr),
    (∀ j, p = some j → Q j) →
    (p = none → ∀ i, q = some i → Q i ∧ ∃ n, h.load i = some n ∧ n.next = none) →
    getLastOnLevelLoop h fuel p q = some res →
    (∀ i, res = some i → Q i ∧ ∃ n, h.load i = some n ∧ n.next = none)
      ∧ (res = none → p = none ∧ q = none)
  | fuel, none, q, res, _, hq, hres => by
    have e : getLastOnLevelLoop h fuel none q = some q := by
      cases fuel <;> simp [getLastOnLevelLoop]
    rw [e] at hres
    have := Option.some.inj hres
    subst this
    exact ⟨hq rfl, fun hn => ⟨rfl, hn⟩⟩
  | 0, some j, q, res, _, _, hres => by simp [getLastOnLevelLoop] at hres
  | fuel + 1, some j, q, res, hp, _, hres => by
    rw [getLastOnLevelLoop] at hres
    cases hl : h.load j with
    | none => simp [hl] at hres
    | some n =>
      simp only [hl] at hres
      have hQj := hp j rfl
      have ih := getLastOnLevelLoop_carries h Q hQ fuel n.next (some j) res
        (fun m hm => hQ j n m hQj hl hm)
        (fun hn i hi => by
          have := Option.some.inj hi
          subst this
          exact ⟨hQj, n, hl, hn⟩) hres
      refine ⟨ih.1, fun hn => ?_⟩
      exact absurd (ih.2 hn).2 (by simp)

theorem getLastOnLevel_carries (h : Heap) (Q : Nat → Prop) (this last fuel : Nat)
    (hQ : ∀ a n m, Q a → h.load a = some n → n.next = some m → Q m) (hthis : Q this)
    (hres : getLastOnLevel fuel h this = some last) :
    Q last ∧ ∃ l, h.load last = some l ∧ l.next = none := by
  unfold getLastOnLevel at hres
  cases ht : h.load this with
  | none => simp [ht] at hres
  | some t =>
    simp only [ht] at hres
    cases hloop : getLastOnLevelLoop h fuel t.next t.next with
    | none => simp [hloop] at hres
    | some res =>
      simp only [hloop] at hres
      have hlast : res.getD this = last := Option.some.inj hres
      have key := getLastOnLevelLoop_carries h Q hQ fuel t.next t.next res
        (fun m hm => hQ this t m hthis ht hm)
        (fun hn i hi => by rw [hn] at hi; exact absurd hi (by simp)) hloop
      cases res with
      | none =>
        simp only [Option.getD_none] at hlast
        subst hlast
        exact ⟨hthis, t, ht, (key.2 rfl).1⟩
      | some i =>
        simp only [Option.getD_some] at hlast
        subst hlast
        exact key.1 i rfl

/-- Induction along the loop of `spawnNextNodes`: a property of the tail and the heap that
survives the final store of a refused allocation and every successful iteration holds when
the loop returns. -/
theorem spawnNextNodesLoop_induction (this r : Nat) (P : Nat → Heap → Prop)
    (hfull : ∀ last h l rn, P last h → h.load r = some rn →
      rn.maxPossbleNodesQuantity ≤ rn.nodeAllocationsCount → h.load last = some l →
      P last (h.store last { l with next := none }))
    (hstep : ∀ last h h4 t rn, P last h → SiblingStep this r last t rn h h4 →
      P h.nodes.length h4) :
    ∀ (n c last : Nat) (h : Heap) (c1 : Nat) (hf : Heap) (t l0 : LinkedTask),
    h.load this = some t → h.load last = some l0 → P last h →
    spawnNextNodesLoop this r n c last h = some (c1, hf) → ∃ last1, P last1 hf
  | 0, c, last, h, c1, hf, t, l0, _, _, hP, hres => by
    simp only [spawnNextNodesLoop, Option.some.injEq, Prod.mk.injEq] at hres
    rw [← hres.2]
    exact ⟨last, hP⟩
  | n + 1, c, last, h, c1, hf, t, l0, hthis, hlast, hP, hres => by
    cases hr : h.load r with
    | none =>
      simp [spawnNextNodesLoop, FuncNeu, hr] at hres
    | some rn =>
      by_cases hfl : rn.maxPossbleNodesQuantity ≤ rn.nodeAllocationsCount
      · rw [spawnNextNodesLoop, FuncNeu_full h r rn hr hfl] at hres
        simp only [hlast, Option.some.injEq, Prod.mk.injEq] at hres
        rw [← hres.2]
        exact ⟨last, hfull last h l0 rn hP hr hfl hlast⟩
      · obtain ⟨h4, heq, hs⟩ := spawnNextNodesLoop_step this r last n c h rn l0 t hr
          (by omega) hlast hthis
        rw [heq] at hres
        have hs0 := hs
        obtain ⟨_, _, _, hev, _, _, _, _, _, _, ⟨ni, hni, _⟩, _⟩ := hs
        obtain ⟨t4, ht4, _⟩ := hev.2.1 this t hthis
        exact spawnNextNodesLoop_induction this r P hfull hstep n (c + 1) h.nodes.length h4
          c1 hf t4 ni ht4 hni (hstep last h h4 t rn hP hs0) hres

/-- Whenever `spawnNextNodes` returns, the objects that existed before are still there and
differ at most in their link members and counts; the shared counters are untouched. -/
theorem spawnNextNodes_evolves (fuel this n : Nat) (h : Heap) (c : Nat) (h1 : Heap)
    (hres : spawnNextNodes fuel this n h = some (c, h1)) : h.evolvesTo h1 := by
  unfold spawnNextNodes at hres
  by_cases hn : n = 0
  · simp only [hn, if_true, Option.some.injEq, Prod.mk.injEq] at hres
    rw [← hres.2]
    exact evolvesTo_refl h
  · simp only [hn, if_false] at hres
    cases ht : h.load this with
    | none => simp [ht] at hres
    | some t =>
      simp only [ht] at hres
      cases hroot : t.root with
      | none => simp [hroot] at hres
      | some r =>
        cases hlast : getLastOnLevel fuel h this with
        | none => simp [hroot, hlast] at hres
        | some last =>
          simp only [hroot, hlast] at hres
          obtain ⟨_, l0, hl0, _⟩ := getLastOnLevel_carries h (fun _ => True) this last fuel
            (fun _ _ _ _ _ _ => trivial) trivial hlast
          obtain ⟨_, hP⟩ := spawnNextNodesLoop_induction this r (fun _ hx => h.evolvesTo hx)
            (fun last hx l _ hP _ _ hl =>
              evolvesTo_trans hP (evolvesTo_store hx last l _ hl (by cases l; rfl)))
            (fun _ _ _ _ _ hP hs => evolvesTo_trans hP hs.2.2.2.1)
            n 0 last h c h1 t l0 ht hl0 (evolvesTo_refl h) hres
          exact hP

theorem retargetsTo_refl (h : Heap) : h.retargetsTo h :=
  ⟨rfl, rfl, fun _ n0 hn => ⟨n0, hn, sameButUrl_refl n0⟩, fun _ hn => hn⟩

theorem retargetsTo_trans {h1 h2 h3 : Heap} (h12 : h1.retargetsTo h2)
    (h23 : h2.retargetsTo h3) : h1.retargetsTo h3 := by
  refine ⟨h23.1.trans h12.1, h23.2.1.trans h12.2.1, fun a n0 hn => ?_,
    fun a hn => h23.2.2.2 a (h12.2.2.2 a hn)⟩
  obtain ⟨n1, hn1, hs1⟩ := h12.2.2.1 a n0 hn
  obtain ⟨n2, hn2, hs2⟩ := h23.2.2.1 a n1 hn1
  exact ⟨n2, hn2, sameButUrl_trans hs1 hs2⟩

/-- One call of the lambda of `spawnGreppedSubtasks`: it returns (it never throws), adds one
to `cposition` and writes only `targetUrl` of the node. -/
theorem spawnGreppedSubtasksFunc_returns (hp : List Char) (gv : GrepVars) (node : Nat)
    (s : Heap × Nat) (o : Outcome (Heap × Nat))
    (hres : spawnGreppedSubtasksFunc hp gv node s = some o) :
    ∃ h1, o = Outcome.returned (h1, s.2 + 1) ∧ s.1.retargetsTo h1
      ∧ s.2 < gv.matchURLVector.length := by
  unfold spawnGreppedSubtasksFunc at hres
  split at hres
  · rename_i n m hn hm
    split at hres
    · exact absurd hres (by simp)
    · rename_i turl _
      have ho := (Option.some.inj hres).symm
      refine ⟨_, ho, ⟨rfl, length_store _ _ _, fun a n0 ha => ?_, fun a ha => ?_⟩, ?_⟩
      · rw [load_store s.1 node a _ (load_lt hn)]
        by_cases hna : node = a
        · subst hna
          rw [hn] at ha
          have e := Option.some.inj ha
          subst e
          rw [if_pos rfl]
          exact ⟨_, rfl, rfl⟩
        · rw [if_neg hna]
          exact ⟨n0, ha, sameButUrl_refl n0⟩
      · rw [load_store_ne s.1 node a _ (by
          intro hna
          subst hna
          rw [hn] at ha
          exact absurd ha (by simp))]
        exact ha
      · by_contra hc
        rw [List.getElem?_eq_none (Nat.le_of_not_lt hc)] at hm
        exact absurd hm (by simp)
  · exact absurd hres (by simp)

/-- Whenever the second loop of `ForEachOnBranch` returns for the lambda of
`spawnGreppedSubtasks`, the lambda was called `cnt1 - cnt` times, each time with an index
inside `matchURLVector`, and only `targetUrl` members were written. -/
theorem ForEachOnBranchLoop_func_returns (hp : List Char) (gv : GrepVars) :
    ∀ (fuel : Nat) (p : Ptr) (cnt c : Nat) (h : Heap) (cnt1 c1 : Nat) (h1 : Heap),
    ForEachOnBranchLoop (spawnGreppedSubtasksFunc hp gv) fuel p cnt (h, c)
      = some (cnt1, (h1, c1)) →
    h.retargetsTo h1 ∧ cnt1 - cnt = c1 - c ∧ cnt ≤ cnt1 ∧ c ≤ c1
      ∧ c1 ≤ gv.matchURLVector.length ∨ (h.retargetsTo h1 ∧ cnt1 = cnt ∧ c1 = c)
  | fuel, none, cnt, c, h, cnt1, c1, h1, hres => by
    have e : ForEachOnBranchLoop (spawnGreppedSubtasksFunc hp gv) fuel none cnt (h, c)
        = some (cnt, (h, c)) := by
      cases fuel <;> simp [ForEachOnBranchLoop]
    rw [e] at hres
    simp only [Option.some.injEq, Prod.mk.injEq] at hres
    obtain ⟨h1c, h2c, h3c⟩ := hres
    subst h1c h2c h3c
    exact Or.inr ⟨retargetsTo_refl _, rfl, rfl⟩
  | 0, some i, cnt, c, h, cnt1, c1, h1, hres => by
    simp [ForEachOnBranchLoop] at hres
  | fuel + 1, some i, cnt, c, h, cnt1, c1, h1, hres => by
    rw [ForEachOnBranchLoop] at hres
    cases hf : spawnGreppedSubtasksFunc hp gv i (h, c) with
    | none => simp [hf] at hres
    | some o =>
      obtain ⟨h2, ho, hrt, hlt⟩ := spawnGreppedSubtasksFunc_returns hp gv i (h, c) o hf
      simp only [hf, ho] at hres
      cases hl : h2.load i with
      | none => simp [hl] at hres
      | some n =>
        simp only [hl] at hres
        simp only at hlt
        rcases ForEachOnBranchLoop_func_returns hp gv fuel n.next (cnt + 1) (c + 1) h2 cnt1
            c1 h1 hres with ⟨hr2, he, hle, hle2, hb⟩ | ⟨hr2, he1, he2⟩
        · exact Or.inl ⟨retargetsTo_trans hrt hr2, by omega, by omega, by omega, hb⟩
        · exact Or.inl ⟨retargetsTo_trans hrt hr2, by omega, by omega, by omega, by omega⟩

/-- Whenever `spawnGreppedSubtasks` returns `c`, the links counter of the head holds
`(old + c) mod 2^32` and every other shared counter is untouched. -/
theorem spawnGreppedSubtasks_counter (fuel this : Nat) (hp : List Char) (gv : GrepVars)
    (skip : Nat) (h : Heap) (c : Nat) (h1 : Heap) (t : LinkedTask) (cp v : Nat)
    (hres : spawnGreppedSubtasks fuel this hp gv skip h = some (c, h1))
    (hthis : h.load this = some t) (hcp : t.linksCounterPtr = some cp)
    (hv : h.atomics[cp]? = some v) (hvlt : v < 4294967296) :
    h1.atomics = h.atomics.set cp (u32 (v + c)) := by
  have hcplt : cp < h.atomics.length := by
    by_contra hc
    rw [List.getElem?_eq_none (Nat.le_of_not_lt hc)] at hv
    exact absurd hv (by simp)
  unfold spawnGreppedSubtasks at hres
  split at hres
  · simp only [Option.some.injEq, Prod.mk.injEq] at hres
    rw [← hres.1, ← hres.2, Nat.add_zero, u32_of_lt hvlt]
    apply List.ext_getElem? 
    intro i
    by_cases hi : cp = i
    · subst hi
      rw [List.getElem?_set_self hcplt, hv]
    · rw [List.getElem?_set_ne hi]
  · cases hs : spawnNextNodes fuel this (gv.matchURLVector.length - 1) h with
    | none => simp [hs] at hres
    | some r1 =>
      obtain ⟨c0, hA⟩ := r1
      simp only [hs] at hres
      have hev := spawnNextNodes_evolves fuel this _ h c0 hA hs
      cases hfe : ForEachOnBranch fuel (some this) (spawnGreppedSubtasksFunc hp gv)
          (u32 skip) (hA, 0) with
      | none => simp [hfe] at hres
      | some r2 =>
        obtain ⟨cnt, hB, cpos⟩ := r2
        simp only [hfe] at hres
        have hrt : hA.retargetsTo hB := by
          unfold ForEachOnBranch at hfe
          cases hsk : ForEachOnBranchSkip hA (u32 skip) (some this) with
          | none => simp [hsk] at hfe
          | some item =>
            simp only [hsk] at hfe
            rcases ForEachOnBranchLoop_func_returns hp gv fuel item 0 0 hA cnt cpos hB hfe
              with ⟨hr, _⟩ | ⟨hr, _⟩
            · exact hr
            · exact hr
        obtain ⟨t1, ht1, hs1⟩ := hev.2.1 this t hthis
        obtain ⟨t2, ht2, hs2⟩ := hrt.2.2.1 this t1 ht1
        have hcp2 : t2.linksCounterPtr = some cp := by
          rw [hs2]
          rw [(sameButLinks_fields hs1).2.2.2.2.1]
          exact hcp
        have hv2 : hB.atomics[cp]? = some v := by rw [hrt.1, hev.1]; exact hv
        rw [linksCounterFetchAdd_eq hB this cnt cp v t2 ht2 hcp2 hv2] at hres
        simp only [Option.some.injEq, Prod.mk.injEq] at hres
        rw [← hres.1, ← hres.2]
        show hB.atomics.set cp (u32 (v + cnt)) = _
        rw [hrt.1, hev.1]

/-- The branch walk of `returnsThenThrows` through the second loop of `ForEachOnBranch`. -/
theorem ForEachOnBranchLoop_throw {α : Type}
    (functor : Nat → Heap × α → Option (Outcome (Heap × α))) :
    ∀ (pre : List Nat) (bad : Nat) (item : Ptr) (s sf : Heap × α) (fuel cnt : Nat),
    returnsThenThrows functor pre bad item s sf → pre.length < fuel →
    ForEachOnBranchLoop functor fuel item cnt s = some (cnt + pre.length, sf)
  | [], bad, item, s, sf, 0, cnt, _, hf => by simp at hf
  | [], bad, item, s, sf, fuel + 1, cnt, hrun, _ => by
    obtain ⟨hitem, hthrow⟩ := hrun
    subst hitem
    simp [ForEachOnBranchLoop, hthrow]
  | i :: rest, bad, item, s, sf, 0, cnt, _, hf => by simp at hf
  | i :: rest, bad, item, s, sf, fuel + 1, cnt, hrun, hf => by
    obtain ⟨hitem, s1, n, hret, hload, hrest⟩ := hrun
    subst hitem
    have ih := ForEachOnBranchLoop_throw functor rest bad n.next s1 sf fuel (cnt + 1) hrest
      (by simpa using hf)
    simp only [ForEachOnBranchLoop, hret, hload, ih, List.length_cons]
    congr 2
    omega

/-- The loop of `ForEachOnBranch` ends at a throw: when the functor returns on the nodes
`pre` of the branch (after the skipped ones) and throws a `std::exception` on the next
node, `ForEachOnBranch` catches the exception and returns normally; the loop ends at that
node: the returned count is the number of nodes before it, and the state is the one the
throwing call left, whatever siblings follow. -/
theorem ForEachOnBranch_ends_at_throwing_node {α : Type} (fuel : Nat) (head : Ptr)
    (functor : Nat → Heap × α → Option (Outcome (Heap × α))) (skipCount : Nat)
    (s sf : Heap × α) (item : Ptr) (pre : List Nat) (bad : Nat)
    (hskip : ForEachOnBranchSkip s.1 skipCount head = some item)
    (hrun : returnsThenThrows functor pre bad item s sf) (hf : pre.length < fuel) :
    ForEachOnBranch fuel head functor skipCount s = some (pre.length, sf) := by
  unfold ForEachOnBranch
  rw [hskip]
  simpa using ForEachOnBranchLoop_throw functor pre bad item s sf fuel 0 hrun hf

/-- On the branch 0, 1, 2 with one node skipped, the functor returns on node 1 and throws
on node 2: the count is 1 and the log holds the nodes 1 and 2. -/
theorem ForEachOnBranch_ends_at_throwing_node_example :
    ForEachOnBranch 5 (some 0) (loggingFunctor 2) 1 (threeChain, [])
      = some ([1].length, (threeChain, [1, 2])) :=
  ForEachOnBranch_ends_at_throwing_node 5 (some 0) (loggingFunctor 2) 1 (threeChain, [])
    (threeChain, [1, 2]) (some 1) [1] 2 (by decide)
    ⟨rfl, (threeChain, [1]), _, by rfl, by rfl, rfl, by rfl⟩ (by decide)

/-! ## The accounting invariant -/

theorem owns_congr (h h1 : Heap) (r b : Nat)
    (he : (h1.load b).map LinkedTask.root = (h.load b).map LinkedTask.root) :
    h1.owns r b = h.owns r b := by
  unfold Heap.owns
  cases h0 : h.load b with
  | none =>
    rw [h0] at he
    cases h1b : h1.load b with
    | none => rfl
    | some n1 => rw [h1b] at he; simp at he
  | some n0 =>
    rw [h0] at he
    cases h1b : h1.load b with
    | none => rw [h1b] at he; simp at he
    | some n1 =>
      rw [h1b] at he
      simp only [Option.map_some', Option.some.injEq] at he
      simp only [he]

theorem ownedBy_congr (h h1 : Heap) (r : Nat) (hlen : h1.nodes.length = h.nodes.length)
    (hp : ∀ b, b < h.nodes.length → h1.owns r b = h.owns r b) :
    h1.ownedBy r = h.ownedBy r := by
  unfold Heap.ownedBy
  rw [hlen]
  congr 1
  apply List.filter_congr
  intro b hb
  exact hp b (List.mem_range.1 hb)

theorem ownedBy_succ (h h1 : Heap) (r : Nat) (hlen : h1.nodes.length = h.nodes.length + 1)
    (hp : ∀ b, b < h.nodes.length → h1.owns r b = h.owns r b) :
    h1.ownedBy r = h.ownedBy r + (if h1.owns r h.nodes.length = true then 1 else 0) := by
  unfold Heap.ownedBy
  rw [hlen, List.range_succ, List.filter_append, List.length_append]
  congr 1
  · congr 1
    apply List.filter_congr
    intro b hb
    exact hp b (List.mem_range.1 hb)
  · by_cases ho : h1.owns r h.nodes.length = true
    · simp [List.filter_cons, ho]
    · simp [List.filter_cons, ho]

theorem filter_range_remove (p q : Nat → Bool) (x : Nat) : ∀ (n : Nat), x < n →
    (∀ b, b < n → b ≠ x → q b = p b) → p x = true → q x = false →
    ((List.range n).filter p).length = ((List.range n).filter q).length + 1
  | 0, hx, _, _, _ => by omega
  | n + 1, hx, hpq, hpx, hqx => by
    rw [List.range_succ, List.filter_append, List.filter_append, List.length_append,
      List.length_append]
    by_cases hxn : x = n
    · subst hxn
      have e : (List.range x).filter q = (List.range x).filter p := by
        apply List.filter_congr
        intro b hb
        have hb' := List.mem_range.1 hb
        exact hpq b (by omega) (by omega)
      rw [e]
      simp [List.filter_cons, hpx, hqx]
    · have ih := filter_range_remove p q x n (by omega)
        (fun b hb hbx => hpq b (by omega) hbx) hpx hqx
      have e : q n = p n := hpq n (by omega) (fun hc => hxn hc.symm)
      rw [ih]
      simp only [List.filter_cons, List.filter_nil, e]
      omega

theorem ownedBy_remove (h h1 : Heap) (r x : Nat) (hlen : h1.nodes.length = h.nodes.length)
    (hx : x < h.nodes.length)
    (hp : ∀ b, b < h.nodes.length → b ≠ x → h1.owns r b = h.owns r b)
    (hpx : h.owns r x = true) (hqx : h1.owns r x = false) :
    h.ownedBy r = h1.ownedBy r + 1 := by
  unfold Heap.ownedBy
  rw [hlen]
  exact filter_range_remove (h.owns r) (h1.owns r) x h.nodes.length hx hp hpx hqx

theorem sameAccounting_refl (h : Heap) : h.sameAccounting h :=
  ⟨rfl, fun _ hn => hn, fun _ n0 hn => ⟨n0, hn, rfl, rfl, rfl⟩⟩

theorem sameAccounting_trans {h1 h2 h3 : Heap} (h12 : h1.sameAccounting h2)
    (h23 : h2.sameAccounting h3) : h1.sameAccounting h3 := by
  refine ⟨h23.1.trans h12.1, fun a hn => h23.2.1 a (h12.2.1 a hn), fun a n0 hn => ?_⟩
  obtain ⟨n1, hn1, e1, e2, e3⟩ := h12.2.2 a n0 hn
  obtain ⟨n2, hn2, f1, f2, f3⟩ := h23.2.2 a n1 hn1
  exact ⟨n2, hn2, f1.trans e1, f2.trans e2, f3.trans e3⟩

theorem sameAccounting_store (h : Heap) (a : Nat) (n n1 : LinkedTask)
    (hl : h.load a = some n) (hroot : n1.root = n.root)
    (hcnt : n1.nodeAllocationsCount = n.nodeAllocationsCount)
    (hmax : n1.maxPossbleNodesQuantity = n.maxPossbleNodesQuantity) :
    h.sameAccounting (h.store a n1) := by
  refine ⟨length_store _ _ _, fun b hb => ?_, fun b n0 hb => ?_⟩
  · rw [load_store_ne h a b n1 (by
      intro hab
      subst hab
      rw [hl] at hb
      exact absurd hb (by simp))]
    exact hb
  · rw [load_store h a b n1 (load_lt hl)]
    by_cases hab : a = b
    · subst hab
      rw [hl] at hb
      have e := Option.some.inj hb
      subst e
      rw [if_pos rfl]
      exact ⟨n1, rfl, hroot, hcnt, hmax⟩
    · rw [if_neg hab]
      exact ⟨n0, hb, rfl, rfl, rfl⟩

theorem sameAccounting_of_retargetsTo {h h1 : Heap} (hr : h.retargetsTo h1) :
    h.sameAccounting h1 := by
  refine ⟨hr.2.1, hr.2.2.2, fun a n0 hn => ?_⟩
  obtain ⟨n1, hn1, hs⟩ := hr.2.2.1 a n0 hn
  unfold LinkedTask.sameButUrl at hs
  exact ⟨n1, hn1, by rw [hs], by rw [hs], by rw [hs]⟩

theorem sameAccounting_owns {h h1 : Heap} (hs : h.sameAccounting h1) (r b : Nat) :
    h1.owns r b = h.owns r b := by
  apply owns_congr
  cases hb : h.load b with
  | none => rw [hs.2.1 b hb]
  | some n0 =>
    obtain ⟨n1, hn1, e, _⟩ := hs.2.2 b n0 hb
    rw [hn1]
    simp [e]

/-- The accounting invariant survives every change that keeps the accounting members. -/
theorem countsOk_sameAccounting {h h1 : Heap} (hs : h.sameAccounting h1) (hok : h.countsOk) :
    h1.countsOk := by
  have hback : ∀ a n1, h1.load a = some n1 → ∃ n0, h.load a = some n0 ∧ n1.root = n0.root
      ∧ n1.nodeAllocationsCount = n0.nodeAllocationsCount
      ∧ n1.maxPossbleNodesQuantity = n0.maxPossbleNodesQuantity := by
    intro a n1 hn1
    cases hb : h.load a with
    | none => rw [hs.2.1 a hb] at hn1; exact absurd hn1 (by simp)
    | some n0 =>
      obtain ⟨n1', hn1', e⟩ := hs.2.2 a n0 hb
      rw [hn1] at hn1'
      have := Option.some.inj hn1'
      subst this
      exact ⟨n0, rfl, e⟩
  constructor
  · intro a n1 hn1
    obtain ⟨n0, hn0, e1, e2, e3⟩ := hback a n1 hn1
    obtain ⟨h1', h2', h3'⟩ := hok.1 a n0 hn0
    refine ⟨by omega, by omega, fun r hr => ?_⟩
    rw [hs.1]
    exact h3' r (by rw [← e1]; exact hr)
  · intro r rn1 hr1
    obtain ⟨rn0, hrn0, _, e2, _⟩ := hback r rn1 hr1
    have := hok.2 r rn0 hrn0
    rw [ownedBy_congr h h1 r hs.1 (fun b _ => sameAccounting_owns hs r b)]
    omega

theorem load_free (h : Heap) (a b : Nat) :
    (h.free a).load b = if a = b then none else h.load b := by
  by_cases hab : a = b
  · subst hab
    rw [if_pos rfl]
    by_cases ha : a < h.nodes.length
    · simp [Heap.load, Heap.free, ha]
    · have hn : (h.nodes.set a none)[a]? = none :=
        List.getElem?_eq_none (by rw [List.length_set]; omega)
      simp [Heap.load, Heap.free, hn]
  · rw [if_neg hab]
    simp [Heap.load, Heap.free, List.getElem?_set, hab]

theorem length_free (h : Heap) (a : Nat) : (h.free a).nodes.length = h.nodes.length := by
  simp [Heap.free]

theorem ownedBy_eq_zero (h : Heap) (r : Nat)
    (hno : ∀ b, b < h.nodes.length → h.owns r b = false) : h.ownedBy r = 0 := by
  unfold Heap.ownedBy
  rw [List.length_eq_zero, List.filter_eq_nil_iff]
  intro b hb
  rw [hno b (List.mem_range.1 hb)]
  simp

/-- Under the accounting invariant nothing names a not yet allocated address as its root. -/
theorem countsOk_owns_fresh (h : Heap) (hok : h.countsOk) (r : Nat)
    (hr : h.nodes.length ≤ r) : ∀ b, b < h.nodes.length → h.owns r b = false := by
  intro b _
  unfold Heap.owns
  cases hb : h.load b with
  | none => simp
  | some n =>
    have h3 := (hok.1 b n hb).2.2
    have : n.root ≠ some r := by
      intro hc
      have := h3 r hc
      omega
    simp [this]

/-- The accounting invariant survives an allocation charged to `r`: one new object whose
`root` is `r`, and the count of `r` raised by one below its ceiling. -/
theorem countsOk_spawn (h h4 : Heap) (r mx : Nat) (rn : LinkedTask) (hok : h.countsOk)
    (hev : h.evolvesTo h4) (hlen : h4.nodes.length = h.nodes.length + 1)
    (hkeep : h.keepsOff LinkedTask.nodeAllocationsCount h4 r)
    (hr : h.load r = some rn)
    (hroom : rn.nodeAllocationsCount < rn.maxPossbleNodesQuantity)
    (hnew : ∃ n1, h4.load h.nodes.length = some n1 ∧ n1.root = some r
      ∧ n1.nodeAllocationsCount = 0 ∧ n1.maxPossbleNodesQuantity = mx)
    (hmx : mx < 4294967296)
    (hroot : ∃ rn1, h4.load r = some rn1
      ∧ rn1.nodeAllocationsCount = u32 (rn.nodeAllocationsCount + 1)
      ∧ rn1.maxPossbleNodesQuantity = rn.maxPossbleNodesQuantity) : h4.countsOk := by
  obtain ⟨nn, hnn, hnroot, hncnt, hnmax⟩ := hnew
  obtain ⟨rn1, hrn1, hrcnt, hrmax⟩ := hroot
  have hrlt := load_lt hr
  obtain ⟨hrle, hrmaxlt, _⟩ := hok.1 r rn hr
  have hu : u32 (rn.nodeAllocationsCount + 1) = rn.nodeAllocationsCount + 1 :=
    u32_of_lt (by omega)
  have hback : ∀ a n1, h4.load a = some n1 → a < h.nodes.length →
      ∃ n0, h.load a = some n0 ∧ n0.sameButLinks n1 := by
    intro a n1 hn1 ha
    cases hb : h.load a with
    | none => rw [hev.2.2.2 a ha hb] at hn1; exact absurd hn1 (by simp)
    | some n0 =>
      obtain ⟨n1', hn1', hs⟩ := hev.2.1 a n0 hb
      rw [hn1] at hn1'
      have := Option.some.inj hn1'
      subst this
      exact ⟨n0, rfl, hs⟩
  have howns : ∀ r' b, b < h.nodes.length → h4.owns r' b = h.owns r' b := by
    intro r' b hb
    apply owns_congr
    cases hl : h.load b with
    | none => rw [hev.2.2.2 b hb hl]
    | some n0 =>
      obtain ⟨n1, hn1, hs⟩ := hev.2.1 b n0 hl
      rw [hn1]
      simp [(sameButLinks_fields hs).1]
  constructor
  · intro a n1 hn1
    have halt := load_lt hn1
    rw [hlen] at halt
    by_cases ha : a = h.nodes.length
    · subst ha
      rw [hnn] at hn1
      have := Option.some.inj hn1
      subst this
      refine ⟨by omega, by omega, fun r' hr' => ?_⟩
      rw [hnroot] at hr'
      have := Option.some.inj hr'
      omega
    · obtain ⟨n0, hn0, hs⟩ := hback a n1 hn1 (by omega)
      obtain ⟨h1', h2', h3'⟩ := hok.1 a n0 hn0
      have hf := sameButLinks_fields hs
      refine ⟨?_, by rw [hf.2.2.2.1]; exact h2', fun r' hr' => ?_⟩
      · by_cases har : a = r
        · subst har
          rw [hrn1] at hn1
          have := Option.some.inj hn1
          subst this
          rw [hrcnt, hu, hrmax]
          omega
        · obtain ⟨n1', hn1', hc⟩ := hkeep a har n0 hn0
          rw [hn1] at hn1'
          have := Option.some.inj hn1'
          subst this
          rw [hc, hf.2.2.2.1]
          exact h1'
      · rw [hf.1] at hr'
        have := h3' r' hr'
        omega
  · intro r' rn1' hr1'
    have hr'lt := load_lt hr1'
    rw [hlen] at hr'lt
    have hsucc := ownedBy_succ h h4 r' hlen (fun b hb => howns r' b hb)
    by_cases hr'new : r' = h.nodes.length
    · subst hr'new
      have h0 := ownedBy_eq_zero h _ (countsOk_owns_fresh h hok _ (Nat.le_refl _))
      have hself : h4.owns h.nodes.length h.nodes.length = false := by
        simp [Heap.owns]
      rw [hsucc, h0, hself]
      simp
    · obtain ⟨n0, hn0, hs⟩ := hback r' rn1' hr1' (by omega)
      have hB := hok.2 r' n0 hn0
      by_cases hrr : r' = r
      · subst hrr
        rw [hrn1] at hr1'
        have := Option.some.inj hr1'
        subst this
        rw [hr] at hn0
        have := Option.some.inj hn0
        subst this
        rw [hsucc, hrcnt, hu]
        split <;> omega
      · obtain ⟨n1', hn1', hc⟩ := hkeep r' hrr n0 hn0
        rw [hr1'] at hn1'
        have := Option.some.inj hn1'
        subst this
        have hno : h4.owns r' h.nodes.length = false := by
          unfold Heap.owns
          rw [hnn]
          have : nn.root ≠ some r' := by
            rw [hnroot]
            intro hc'
            exact hrr (Option.some.inj hc').symm
          simp [this]
        rw [hsucc, hno, hc]
        simpa using hB

theorem load_createRootNode (h : Heap) (b : Nat) :
    (createRootNode h).2.load b =
      if b = h.nodes.length then some { LinkedTask.ctor with root := some h.nodes.length }
      else h.load b := by
  show ((h.alloc LinkedTask.ctor).2.store h.nodes.length _).load b = _
  rw [load_store _ _ b _ (by rw [length_alloc]; omega)]
  by_cases hb : b = h.nodes.length
  · subst hb; simp
  · rw [if_neg (fun hc => hb hc.symm), if_neg hb]
    by_cases hlt : b < h.nodes.length
    · exact load_alloc_old h _ b hlt
    · have h1 : (h.alloc LinkedTask.ctor).2.load b = none := by
        have : (h.alloc LinkedTask.ctor).2.nodes[b]? = none :=
          List.getElem?_eq_none (by rw [length_alloc]; omega)
        simp [Heap.load, this]
      have h2 : h.load b = none := by
        have : h.nodes[b]? = none := List.getElem?_eq_none (by omega)
        simp [Heap.load, this]
      rw [h1, h2]

theorem length_createRootNode (h : Heap) :
    (createRootNode h).2.nodes.length = h.nodes.length + 1 := by
  show ((h.alloc LinkedTask.ctor).2.store h.nodes.length _).nodes.length = _
  rw [length_store, length_alloc]

theorem countsOk_createRootNode (h : Heap) (hok : h.countsOk) :
    (createRootNode h).2.countsOk := by
  have hlen := length_createRootNode h
  have hold : ∀ b, b < h.nodes.length → (createRootNode h).2.load b = h.load b := by
    intro b hb
    rw [load_createRootNode, if_neg (by omega)]
  have hnew := load_createRootNode h h.nodes.length
  rw [if_pos rfl] at hnew
  have howns : ∀ r' b, b < h.nodes.length → (createRootNode h).2.owns r' b = h.owns r' b :=
    fun r' b hb => owns_congr _ _ r' b (by rw [hold b hb])
  constructor
  · intro a n hn
    have halt := load_lt hn
    rw [hlen] at halt
    by_cases ha : a = h.nodes.length
    · subst ha
      rw [hnew] at hn
      have := Option.some.inj hn
      subst this
      refine ⟨Nat.zero_le _, by show (8192 : Nat) < 4294967296; omega, fun r hr => ?_⟩
      have := Option.some.inj hr
      omega
    · rw [hold a (by omega)] at hn
      obtain ⟨h1', h2', h3'⟩ := hok.1 a n hn
      exact ⟨h1', h2', fun r hr => by have := h3' r hr; omega⟩
  · intro r rn hr
    have hrlt := load_lt hr
    rw [hlen] at hrlt
    have hsucc := ownedBy_succ h _ r hlen (fun b hb => howns r b hb)
    by_cases hrn : r = h.nodes.length
    · subst hrn
      have h0 := ownedBy_eq_zero h _ (countsOk_owns_fresh h hok _ (Nat.le_refl _))
      have hself : (createRootNode h).2.owns h.nodes.length h.nodes.length = false := by
        simp [Heap.owns]
      rw [hsucc, h0, hself]
      simp
    · rw [hold r (by omega)] at hr
      have hno : (createRootNode h).2.owns r h.nodes.length = false := by
        unfold Heap.owns
        rw [hnew]
        have : (some h.nodes.length : Option Nat) ≠ some r :=
          fun hc => hrn (Option.some.inj hc).symm
        simp [this]
      rw [hsucc, hno]
      simpa using hok.2 r rn hr

/-- The accounting invariant survives `DeleteCall`, the deletion of one node. -/
theorem countsOk_DeleteCall (item : Nat) (h h1 : Heap) (hres : DeleteCall item h = some h1)
    (hok : h.countsOk) : h1.countsOk := by
  unfold DeleteCall at hres
  cases hn : h.load item with
  | none => simp [hn] at hres
  | some n =>
    simp only [hn] at hres
    have hilt := load_lt hn
    by_cases hself : n.root = some item
    · simp only [hself, if_true, Option.some.injEq] at hres
      subst hres
      have howns : ∀ r', r' ≠ item → ∀ b, (h.free item).owns r' b = h.owns r' b := by
        intro r' hr' b
        by_cases hb : b = item
        · subst hb
          unfold Heap.owns
          rw [load_free, if_pos rfl, hn]
          have : n.root ≠ some r' := by
            rw [hself]
            exact fun hc => hr' (Option.some.inj hc).symm
          simp [this]
        · exact owns_congr _ _ r' b (by rw [load_free, if_neg (fun hc => hb hc.symm)])
      constructor
      · intro a m hm
        rw [load_free] at hm
        by_cases ha : item = a
        · rw [if_pos ha] at hm; exact absurd hm (by simp)
        · rw [if_neg ha] at hm
          obtain ⟨h1', h2', h3'⟩ := hok.1 a m hm
          exact ⟨h1', h2', fun r hr => by rw [length_free]; exact h3' r hr⟩
      · intro r rn hr
        rw [load_free] at hr
        by_cases ha : item = r
        · rw [if_pos ha] at hr; exact absurd hr (by simp)
        · rw [if_neg ha] at hr
          rw [ownedBy_congr h _ r (length_free h item)
            (fun b _ => howns r (fun hc => ha hc.symm) b)]
          exact hok.2 r rn hr
    · simp only [hself, if_false] at hres
      cases hroot : n.root with
      | none => simp [hroot] at hres
      | some r =>
        simp only [hroot] at hres
        cases hr : h.load r with
        | none => simp [hr] at hres
        | some rn =>
          simp only [hr] at hres
          have hri : r ≠ item := by
            intro hc
            apply hself
            rw [hroot, hc]
          have hr1 : (h.free item).load r = some rn := by
            rw [load_free, if_neg (fun hc => hri hc.symm), hr]
          simp only [hr1, Option.some.injEq] at hres
          have hrlt := load_lt hr
          obtain ⟨hrle, hrmax, hrroot⟩ := hok.1 r rn hr
          have hir : item ≠ r := fun hc => hri hc.symm
          have hown : h.owns r item = true := by
            unfold Heap.owns
            rw [hn]
            simp [hroot, hir]
          have hload : ∀ b, h1.load b = if r = b then some
                  { rn with nodeAllocationsCount := u32 (rn.nodeAllocationsCount + 4294967295) }
                else if item = b then none else h.load b := by
            intro b
            rw [← hres, load_store _ r b _ (by rw [length_free]; exact hrlt), load_free]
          have hlen : h1.nodes.length = h.nodes.length := by
            rw [← hres, length_store, length_free]
          have howns : ∀ r' b, b ≠ item → h1.owns r' b = h.owns r' b := by
            intro r' b hb
            apply owns_congr
            rw [hload b]
            by_cases hrb : r = b
            · subst hrb
              rw [if_pos rfl, hr]
              simp
            · rw [if_neg hrb, if_neg (fun hc => hb hc.symm)]
          have hgone : ∀ r', h1.owns r' item = false := by
            intro r'
            unfold Heap.owns
            rw [hload item, if_neg hri, if_pos rfl]
            simp
          have hrem := ownedBy_remove h h1 r item hlen hilt (fun b _ hb => howns r b hb) hown
            (hgone r)
          have hB := hok.2 r rn hr
          have hpos : 1 ≤ rn.nodeAllocationsCount := by omega
          have hu : u32 (rn.nodeAllocationsCount + 4294967295) = rn.nodeAllocationsCount - 1 := by
            unfold u32
            omega
          constructor
          · intro a m hm
            rw [hload a] at hm
            by_cases hra : r = a
            · subst hra
              rw [if_pos rfl] at hm
              have := Option.some.inj hm
              subst this
              refine ⟨?_, hrmax, fun r' hr' => by rw [hlen]; exact hrroot r' hr'⟩
              show u32 (rn.nodeAllocationsCount + 4294967295) ≤ rn.maxPossbleNodesQuantity
              rw [hu]
              omega
            · rw [if_neg hra] at hm
              by_cases hia : item = a
              · rw [if_pos hia] at hm; exact absurd hm (by simp)
              · rw [if_neg hia] at hm
                obtain ⟨h1', h2', h3'⟩ := hok.1 a m hm
                exact ⟨h1', h2', fun r' hr' => by rw [hlen]; exact h3' r' hr'⟩
          · intro r' rn' hr'
            rw [hload r'] at hr'
            by_cases hrr : r = r'
            · subst hrr
              rw [if_pos rfl] at hr'
              have := Option.some.inj hr'
              subst this
              show h1.ownedBy r ≤ u32 (rn.nodeAllocationsCount + 4294967295)
              rw [hu]
              omega
            · rw [if_neg hrr] at hr'
              by_cases hia : item = r'
              · rw [if_pos hia] at hr'; exact absurd hr' (by simp)
              · rw [if_neg hia] at hr'
                have hno : h.owns r' item = false := by
                  unfold Heap.owns
                  rw [hn]
                  have : n.root ≠ some r' := by
                    rw [hroot]
                    exact fun hc => hrr (Option.some.inj hc)
                  simp [this]
                rw [ownedBy_congr h h1 r' hlen (fun b _ => by
                  by_cases hb : b = item
                  · subst hb
                    rw [hgone r', hno]
                  · exact howns r' b hb)]
                exact hok.2 r' rn' hr'

/-- A property of the heap that every call of `func` keeps is kept by `TraverseFunc`. -/
theorem TraverseFunc_preserves (func : Nat → Heap → Option Heap) (P : Heap → Prop)
    (hfunc : ∀ a h h1, func a h = some h1 → P h → P h1) :
    ∀ (fuel : Nat) (head : Ptr) (h h1 : Heap),
    TraverseFunc func fuel head h = some h1 → P h → P h1
  | fuel, none, h, h1, hres, hP => by
    have e : TraverseFunc func fuel none h = some h := by
      cases fuel <;> simp [TraverseFunc]
    rw [e] at hres
    rw [← Option.some.inj hres]
    exact hP
  | 0, some hd, h, h1, hres, _ => by simp [TraverseFunc] at hres
  | fuel + 1, some hd, h, h1, hres, hP => by
    rw [TraverseFunc] at hres
    cases hn : h.load hd with
    | none => simp [hn] at hres
    | some n =>
      simp only [hn] at hres
      cases hA : TraverseFunc func fuel n.next h with
      | none => simp [hA] at hres
      | some hA1 =>
        simp only [hA] at hres
        cases hB : TraverseFunc func fuel n.child hA1 with
        | none => simp [hB] at hres
        | some hB1 =>
          simp only [hB] at hres
          exact hfunc hd hB1 h1 hres
            (TraverseFunc_preserves func P hfunc fuel n.child hA1 hB1 hB
              (TraverseFunc_preserves func P hfunc fuel n.next h hA1 hA hP))

theorem countsOk_FuncNeu (r : Nat) (h : Heap) (p : Ptr) (h1 : Heap)
    (hres : FuncNeu r h = some (p, h1)) (hok : h.countsOk) : h1.countsOk := by
  cases hr : h.load r with
  | none => simp [FuncNeu, hr] at hres
  | some rn =>
    by_cases hfull : rn.maxPossbleNodesQuantity ≤ rn.nodeAllocationsCount
    · rw [FuncNeu_full h r rn hr hfull] at hres
      simp only [Option.some.injEq, Prod.mk.injEq] at hres
      rw [← hres.2]
      exact hok
    · have hroom : rn.nodeAllocationsCount < rn.maxPossbleNodesQuantity := by omega
      rw [FuncNeu_room h r rn hr hroom] at hres
      simp only [Option.some.injEq, Prod.mk.injEq] at hres
      have hrlt := load_lt hr
      have hAr : (h.alloc (LinkedTask.ctorChild r rn)).2.load r = some rn := by
        rw [load_alloc_old h _ r hrlt]; exact hr
      rw [← hres.2]
      refine countsOk_spawn h _ r rn.maxPossbleNodesQuantity rn hok
        (evolvesTo_trans (evolvesTo_alloc h _) (evolvesTo_store _ r rn _ hAr (by cases rn; rfl)))
        (by rw [length_store, length_alloc])
        (keepsOff_trans (keepsOff_alloc _ h _ r) (keepsOff_store _ _ r r rn _ hAr (Or.inl rfl)))
        hr hroom ?_ (hok.1 r rn hr).2.1 ?_
      · refine ⟨LinkedTask.ctorChild r rn, ?_, rfl, rfl, rfl⟩
        rw [load_store_ne _ r _ _ (by omega), load_alloc_new]
      · exact ⟨_, load_store_same _ r _ (by rw [length_alloc]; omega), rfl, rfl⟩

theorem countsOk_spawnChildNode (this : Nat) (h : Heap) (res : Ptr × Ptr × Heap)
    (hres : spawnChildNode this h = some res) (hok : h.countsOk) : res.2.2.countsOk := by
  cases ht : h.load this with
  | none => simp [spawnChildNode, ht] at hres
  | some t =>
    cases hroot : t.root with
    | none => simp [spawnChildNode, ht, hroot] at hres
    | some r =>
      cases hr : h.load r with
      | none => simp [spawnChildNode, ht, hroot, FuncNeu, hr] at hres
      | some rn =>
        by_cases hfull : rn.maxPossbleNodesQuantity ≤ rn.nodeAllocationsCount
        · rw [spawnChildNode_full h this r t rn ht hroot hr hfull] at hres
          rw [← Option.some.inj hres]
          exact hok
        · obtain ⟨h4, hcall, _, _, hroom, hev, hlen, _, _, hkeep, _, _,
              ⟨cn, hcn, _, hcroot, _, _, hccnt, hcmax, _⟩, hrn1⟩ :=
            spawnChildNode_room h this r t rn ht hroot hr (by omega)
          rw [hcall] at hres
          rw [← Option.some.inj hres]
          exact countsOk_spawn h h4 r t.maxPossbleNodesQuantity rn hok hev hlen hkeep hr hroom
            ⟨cn, hcn, by rw [hcroot, hroot], hccnt, hcmax⟩ (hok.1 this t ht).2.1 hrn1

theorem countsOk_spawnNextNodes (fuel this n : Nat) (h : Heap) (res : Nat × Heap)
    (hres : spawnNextNodes fuel this n h = some res) (hok : h.countsOk) : res.2.countsOk := by
  obtain ⟨c, h1⟩ := res
  unfold spawnNextNodes at hres
  by_cases hn : n = 0
  · simp only [hn, if_true, Option.some.injEq, Prod.mk.injEq] at hres
    rw [← hres.2]
    exact hok
  · simp only [hn, if_false] at hres
    cases ht : h.load this with
    | none => simp [ht] at hres
    | some t =>
      simp only [ht] at hres
      cases hroot : t.root with
      | none => simp [hroot] at hres
      | some r =>
        cases hlast : getLastOnLevel fuel h this with
        | none => simp [hroot, hlast] at hres
        | some last =>
          simp only [hroot, hlast] at hres
          obtain ⟨_, l0, hl0, _⟩ := getLastOnLevel_carries h (fun _ => True) this last fuel
            (fun _ _ _ _ _ _ => trivial) trivial hlast
          obtain ⟨_, hP, _⟩ := spawnNextNodesLoop_induction this r
            (fun _ hx => hx.countsOk ∧ ∃ tx, hx.load this = some tx ∧ tx.root = some r)
            (fun last hx l _ hP _ _ hl => by
              obtain ⟨hokx, tx, htx, hrx⟩ := hP
              refine ⟨countsOk_sameAccounting
                (sameAccounting_store hx last l _ hl rfl rfl rfl) hokx, ?_⟩
              rw [load_store hx last this _ (load_lt hl)]
              by_cases hlt : last = this
              · subst hlt
                rw [hl] at htx
                have := Option.some.inj htx
                subst this
                rw [if_pos rfl]
                exact ⟨_, rfl, hrx⟩
              · rw [if_neg hlt]
                exact ⟨tx, htx, hrx⟩)
            (fun last hx h4 tx rn hP hs => by
              obtain ⟨hokx, tx', htx', hrx⟩ := hP
              obtain ⟨htx, hrn, hroom, hev, hlen, _, _, hkeep, _, _,
                ⟨ni, hni, _, hniroot, _, _, hnicnt, hnimax, _⟩, hrn1⟩ := hs
              rw [htx] at htx'
              have := Option.some.inj htx'
              subst this
              refine ⟨countsOk_spawn hx h4 r tx.maxPossbleNodesQuantity rn hokx hev hlen hkeep
                hrn hroom ⟨ni, hni, by rw [hniroot, hrx], hnicnt, hnimax⟩
                (hokx.1 this tx htx).2.1 hrn1, ?_⟩
              obtain ⟨t4, ht4, hs4⟩ := hev.2.1 this tx htx
              exact ⟨t4, ht4, by rw [(sameButLinks_fields hs4).1]; exact hrx⟩)
            n 0 last h c h1 t l0 ht hl0 ⟨hok, t, ht, hroot⟩ hres
          exact hP

theorem countsOk_atomics (h : Heap) (l : List Nat) (hok : h.countsOk) :
    ({ h with atomics := l } : Heap).countsOk :=
  countsOk_sameAccounting ⟨rfl, fun _ hn => hn, fun _ n0 hn => ⟨n0, hn, rfl, rfl, rfl⟩⟩ hok

theorem countsOk_spawnGreppedSubtasks (fuel this : Nat) (hp : List Char) (gv : GrepVars)
    (skip : Nat) (h : Heap) (res : Nat × Heap)
    (hres : spawnGreppedSubtasks fuel this hp gv skip h = some res) (hok : h.countsOk) :
    res.2.countsOk := by
  unfold spawnGreppedSubtasks at hres
  split at hres
  · rw [← Option.some.inj hres]
    exact hok
  · cases hs : spawnNextNodes fuel this (gv.matchURLVector.length - 1) h with
    | none => simp [hs] at hres
    | some r1 =>
      simp only [hs] at hres
      have hokA := countsOk_spawnNextNodes fuel this _ h r1 hs hok
      cases hfe : ForEachOnBranch fuel (some this) (spawnGreppedSubtasksFunc hp gv)
          (u32 skip) (r1.2, 0) with
      | none => simp [hfe] at hres
      | some r2 =>
        obtain ⟨cnt, hB, cpos⟩ := r2
        simp only [hfe] at hres
        have hrt : r1.2.retargetsTo hB := by
          unfold ForEachOnBranch at hfe
          cases hsk : ForEachOnBranchSkip r1.2 (u32 skip) (some this) with
          | none => simp [hsk] at hfe
          | some item =>
            simp only [hsk] at hfe
            rcases ForEachOnBranchLoop_func_returns hp gv fuel item 0 0 r1.2 cnt cpos hB hfe
              with ⟨hr, _⟩ | ⟨hr, _⟩
            · exact hr
            · exact hr
        have hokB := countsOk_sameAccounting (sameAccounting_of_retargetsTo hrt) hokA
        unfold linksCounterFetchAdd at hres
        cases ht : hB.load this with
        | none => simp [ht] at hres
        | some t2 =>
          simp only [ht] at hres
          cases hcp : t2.linksCounterPtr with
          | none => simp [hcp] at hres
          | some cp =>
            simp only [hcp] at hres
            cases hv : hB.atomics[cp]? with
            | none => simp [hv] at hres
            | some v =>
              simp only [hv] at hres
              rw [← Option.some.inj hres]
              exact countsOk_atomics hB _ hokB

theorem countsOk_apply (op : GraphOp) (h h1 : Heap) (hres : op.apply h = some h1)
    (hok : h.countsOk) : h1.countsOk := by
  cases op with
  | createRootNode =>
    simp only [GraphOp.apply, Option.some.injEq] at hres
    rw [← hres]
    exact countsOk_createRootNode h hok
  | setLinkCounters node links maxLinks =>
    simp only [GraphOp.apply, setLinkCounters] at hres
    cases hn : h.load node with
    | none => simp [hn] at hres
    | some n =>
      simp only [hn, Option.some.injEq] at hres
      rw [← hres]
      exact countsOk_sameAccounting (sameAccounting_store h node n _ hn rfl rfl rfl) hok
  | makeNewNode root =>
    simp only [GraphOp.apply, Option.map_eq_some'] at hres
    obtain ⟨⟨p, hx⟩, hcall, he⟩ := hres
    simp only at he
    subst he
    exact countsOk_FuncNeu root h p hx hcall hok
  | spawnChildNode this =>
    simp only [GraphOp.apply, Option.map_eq_some'] at hres
    obtain ⟨res, hcall, he⟩ := hres
    subst he
    exact countsOk_spawnChildNode this h res hcall hok
  | spawnNextNodes fuel this n =>
    simp only [GraphOp.apply, Option.map_eq_some'] at hres
    obtain ⟨res, hcall, he⟩ := hres
    subst he
    exact countsOk_spawnNextNodes fuel this n h res hcall hok
  | spawnGreppedSubtasks fuel this hp gv skip =>
    simp only [GraphOp.apply, Option.map_eq_some'] at hres
    obtain ⟨res, hcall, he⟩ := hres
    subst he
    exact countsOk_spawnGreppedSubtasks fuel this hp gv skip h res hcall hok
  | deleteNode item =>
    exact countsOk_DeleteCall item h h1 hres hok
  | DeleteList fuel head =>
    exact TraverseFunc_preserves DeleteCall Heap.countsOk
      (fun a hx hy hr hP => countsOk_DeleteCall a hx hy hr hP) fuel head h h1 hres hok

/-- A property of the heap that every operation keeps holds after every run. -/
theorem runOps_preserves (P : Heap → Prop) (allowed : GraphOp → Prop)
    (hstep : ∀ op h h1, allowed op → op.apply h = some h1 → P h → P h1) :
    ∀ (ops : List GraphOp) (h h1 : Heap), (∀ op ∈ ops, allowed op) →
    runOps ops h = some h1 → P h → P h1
  | [], h, h1, _, hres, hP => by
    simp only [runOps, Option.some.injEq] at hres
    rw [← hres]
    exact hP
  | op :: rest, h, h1, hall, hres, hP => by
    rw [runOps] at hres
    cases ha : op.apply h with
    | none => simp [ha] at hres
    | some h2 =>
      simp only [ha] at hres
      exact runOps_preserves P allowed hstep rest h2 h1
        (fun o ho => hall o (List.mem_cons_of_mem op ho)) hres
        (hstep op h h2 (hall op (List.mem_cons_self op rest)) ha hP)

theorem countsOk_empty (atomics : List Nat) : (Heap.empty atomics).countsOk := by
  constructor
  · intro a n hn
    simp [Heap.load, Heap.empty] at hn
  · intro r rn hr
    simp [Heap.load, Heap.empty] at hr

/-! ## The shape invariant -/

theorem sameShape_back {h h1 : Heap} (hs : h.sameShape h1) (a : Nat) (n1 : LinkedTask)
    (hn1 : h1.load a = some n1) :
    ∃ n0, h.load a = some n0 ∧ n1.root = n0.root ∧ n1.parent = n0.parent
      ∧ n1.level = n0.level ∧ (n1.next = n0.next ∨ n1.next = none)
      ∧ n1.nodeAllocationsCount = n0.nodeAllocationsCount
      ∧ n1.maxPossbleNodesQuantity = n0.maxPossbleNodesQuantity := by
  cases hb : h.load a with
  | none => rw [hs.1 a hb] at hn1; exact absurd hn1 (by simp)
  | some n0 =>
    obtain ⟨n1', hn1', e⟩ := hs.2 a n0 hb
    rw [hn1] at hn1'
    have := Option.some.inj hn1'
    subst this
    exact ⟨n0, rfl, e⟩

/-- The shape invariant survives every change that keeps the shape members. -/
theorem treeOk_sameShape {h h1 : Heap} (hs : h.sameShape h1) (hok : h.treeOk) :
    h1.treeOk := by
  obtain ⟨rn, hrn, hroot, hpar, hlev, hle, hmax, hall⟩ := hok
  obtain ⟨rn1, hrn1, e1, e2, e3, _, e5, e6⟩ := hs.2 0 rn hrn
  refine ⟨rn1, hrn1, by rw [e1, hroot], by rw [e2, hpar], by rw [e3, hlev], by omega,
    by omega, fun a n1 hn1 => ?_⟩
  obtain ⟨n0, hn0, f1, f2, f3, f4, _, _⟩ := sameShape_back hs a n1 hn1
  obtain ⟨g1, g2, g3, g4, g5⟩ := hall a n0 hn0
  refine ⟨by rw [f1, g1], by omega, fun hp => by rw [f3]; exact g3 (by rw [← f2]; exact hp),
    fun p hp => ?_, fun m hm => ?_⟩
  · obtain ⟨pn, hpn, hl⟩ := g4 p (by rw [← f2]; exact hp)
    obtain ⟨pn1, hpn1, _, _, k3, _⟩ := hs.2 p pn hpn
    exact ⟨pn1, hpn1, by omega⟩
  · rcases f4 with hsame | hnone
    · obtain ⟨mn, hmn, hl, hp⟩ := g5 m (by rw [← hsame]; exact hm)
      obtain ⟨mn1, hmn1, _, k2, k3, _⟩ := hs.2 m mn hmn
      exact ⟨mn1, hmn1, by rw [k3, hl, f3], by rw [k2, hp, f2]⟩
    · rw [hnone] at hm
      exact absurd hm (by simp)

theorem sameShape_store (h : Heap) (a : Nat) (n n1 : LinkedTask) (hl : h.load a = some n)
    (hroot : n1.root = n.root) (hpar : n1.parent = n.parent) (hlev : n1.level = n.level)
    (hnext : n1.next = n.next ∨ n1.next = none)
    (hcnt : n1.nodeAllocationsCount = n.nodeAllocationsCount)
    (hmax : n1.maxPossbleNodesQuantity = n.maxPossbleNodesQuantity) :
    h.sameShape (h.store a n1) := by
  refine ⟨fun b hb => ?_, fun b n0 hb => ?_⟩
  · rw [load_store_ne h a b n1 (by
      intro hab
      subst hab
      rw [hl] at hb
      exact absurd hb (by simp))]
    exact hb
  · rw [load_store h a b n1 (load_lt hl)]
    by_cases hab : a = b
    · subst hab
      rw [hl] at hb
      have e := Option.some.inj hb
      subst e
      rw [if_pos rfl]
      exact ⟨n1, rfl, hroot, hpar, hlev, hnext, hcnt, hmax⟩
    · rw [if_neg hab]
      exact ⟨n0, hb, rfl, rfl, rfl, Or.inl rfl, rfl, rfl⟩

theorem sameShape_of_retargetsTo {h h1 : Heap} (hr : h.retargetsTo h1) : h.sameShape h1 := by
  refine ⟨hr.2.2.2, fun a n0 hn => ?_⟩
  obtain ⟨n1, hn1, hs⟩ := hr.2.2.1 a n0 hn
  unfold LinkedTask.sameButUrl at hs
  exact ⟨n1, hn1, by rw [hs], by rw [hs], by rw [hs], Or.inl (by rw [hs]), by rw [hs],
    by rw [hs]⟩

theorem treeOk_atomics (h : Heap) (l : List Nat) (hok : h.treeOk) :
    ({ h with atomics := l } : Heap).treeOk :=
  treeOk_sameShape ⟨fun _ hn => hn,
    fun _ n0 hn => ⟨n0, hn, rfl, rfl, rfl, Or.inl rfl, rfl, rfl⟩⟩ hok

/-- The shape invariant survives the linking of one new node: the object at the new
address has level `lv` and parent `par`, which fit its parent and the node `x` whose
`next` now points to it (if any). -/
theorem treeOk_step (h h4 : Heap) (x lv : Nat) (par : Ptr) (rn : LinkedTask)
    (hok : h.treeOk) (hev : h.evolvesTo h4) (hlen : h4.nodes.length = h.nodes.length + 1)
    (hkeepn : h.keepsOff LinkedTask.next h4 x)
    (hr : h.load 0 = some rn)
    (hroom : rn.nodeAllocationsCount < rn.maxPossbleNodesQuantity)
    (hroot : ∃ rn1, h4.load 0 = some rn1
      ∧ rn1.nodeAllocationsCount = u32 (rn.nodeAllocationsCount + 1)
      ∧ rn1.maxPossbleNodesQuantity = rn.maxPossbleNodesQuantity)
    (hnew : ∃ ni, h4.load h.nodes.length = some ni ∧ ni.next = none ∧ ni.root = some 0
      ∧ ni.parent = par ∧ ni.level = lv)
    (hlv : lv ≤ rn.nodeAllocationsCount + 1) (hpar0 : par = none → lv = 0)
    (hpar : ∀ p, par = some p → ∃ pn, h.load p = some pn ∧ lv = pn.level + 1)
    (hx : ∀ n0 n1, h.load x = some n0 → h4.load x = some n1 →
      n1.next = n0.next ∨ (n1.next = some h.nodes.length ∧ n0.level = lv ∧ n0.parent = par)) :
    h4.treeOk := by
  obtain ⟨rn', hrn', hrroot, hrpar, hrlev, hrle, hrmax, hall⟩ := hok
  rw [hr] at hrn'
  have := Option.some.inj hrn'
  subst this
  obtain ⟨rn1, hrn1, hrcnt, hrmx⟩ := hroot
  obtain ⟨ni, hni, hninext, hniroot, hnipar, hnilev⟩ := hnew
  have hu : u32 (rn.nodeAllocationsCount + 1) = rn.nodeAllocationsCount + 1 :=
    u32_of_lt (by omega)
  obtain ⟨rn1', hrn1', hsr⟩ := hev.2.1 0 rn hr
  rw [hrn1] at hrn1'
  have := Option.some.inj hrn1'
  subst this
  have hfr := sameButLinks_fields hsr
  have hback : ∀ a n1, h4.load a = some n1 → a ≠ h.nodes.length →
      ∃ n0, h.load a = some n0 ∧ n0.sameButLinks n1 := by
    intro a n1 hn1 ha
    have halt := load_lt hn1
    rw [hlen] at halt
    cases hb : h.load a with
    | none => rw [hev.2.2.2 a (by omega) hb] at hn1; exact absurd hn1 (by simp)
    | some n0 =>
      obtain ⟨n1', hn1', hs⟩ := hev.2.1 a n0 hb
      rw [hn1] at hn1'
      have := Option.some.inj hn1'
      subst this
      exact ⟨n0, rfl, hs⟩
  have hfwd : ∀ p pn, h.load p = some pn → ∃ pn1, h4.load p = some pn1
      ∧ pn1.level = pn.level ∧ pn1.parent = pn.parent := by
    intro p pn hpn
    obtain ⟨pn1, hpn1, hs⟩ := hev.2.1 p pn hpn
    exact ⟨pn1, hpn1, (sameButLinks_fields hs).2.2.1, (sameButLinks_fields hs).2.1⟩
  refine ⟨rn1, hrn1, by rw [hfr.1, hrroot], by rw [hfr.2.1, hrpar], by rw [hfr.2.2.1, hrlev],
    by rw [hrcnt, hu, hrmx]; omega, by rw [hrmx]; exact hrmax, fun a n1 hn1 => ?_⟩
  rw [hrcnt, hu]
  by_cases ha : a = h.nodes.length
  · subst ha
    rw [hni] at hn1
    have := Option.some.inj hn1
    subst this
    refine ⟨hniroot, by omega, fun hp => by rw [hnilev]; exact hpar0 (by rw [← hnipar]; exact hp),
      fun p hp => ?_, fun m hm => by rw [hninext] at hm; exact absurd hm (by simp)⟩
    obtain ⟨pn, hpn, hl⟩ := hpar p (by rw [← hnipar]; exact hp)
    obtain ⟨pn1, hpn1, k1, _⟩ := hfwd p pn hpn
    exact ⟨pn1, hpn1, by omega⟩
  · obtain ⟨n0, hn0, hs⟩ := hback a n1 hn1 ha
    have hf := sameButLinks_fields hs
    obtain ⟨g1, g2, g3, g4, g5⟩ := hall a n0 hn0
    have hold : ∀ m, n0.next = some m →
        ∃ mn, h4.load m = some mn ∧ mn.level = n1.level ∧ mn.parent = n1.parent := by
      intro m hm
      obtain ⟨mn, hmn, hl, hp⟩ := g5 m hm
      obtain ⟨mn1, hmn1, k1, k2⟩ := hfwd m mn hmn
      exact ⟨mn1, hmn1, by rw [k1, hl, hf.2.2.1], by rw [k2, hp, hf.2.1]⟩
    refine ⟨by rw [hf.1, g1], by rw [hf.2.2.1]; omega,
      fun hp => by rw [hf.2.2.1]; exact g3 (by rw [← hf.2.1]; exact hp),
      fun p hp => ?_, fun m hm => ?_⟩
    · obtain ⟨pn, hpn, hl⟩ := g4 p (by rw [← hf.2.1]; exact hp)
      obtain ⟨pn1, hpn1, k1, _⟩ := hfwd p pn hpn
      exact ⟨pn1, hpn1, by rw [hf.2.2.1, k1]; exact hl⟩
    · by_cases hax : a = x
      · subst hax
        rcases hx n0 n1 hn0 hn1 with hsame | ⟨hnx, hl, hp⟩
        · exact hold m (by rw [← hsame]; exact hm)
        · rw [hnx] at hm
          have := Option.some.inj hm
          subst this
          exact ⟨ni, hni, by rw [hnilev, hf.2.2.1, hl], by rw [hnipar, hf.2.1, hp]⟩
      · obtain ⟨n1', hn1', hnext⟩ := hkeepn a hax n0 hn0
        rw [hn1] at hn1'
        have := Option.some.inj hn1'
        subst this
        exact hold m (by rw [← hnext]; exact hm)

theorem treeOk_spawnChildNode (this : Nat) (h : Heap) (res : Ptr × Ptr × Heap)
    (hres : spawnChildNode this h = some res) (hok : h.treeOk) : res.2.2.treeOk := by
  have hok0 := hok
  obtain ⟨rn, hrn, _, _, _, hrle, hrmax, hall⟩ := hok
  cases ht : h.load this with
  | none => simp [spawnChildNode, ht] at hres
  | some t =>
    obtain ⟨htroot, htlev, _, _, _⟩ := hall this t ht
    by_cases hfull : rn.maxPossbleNodesQuantity ≤ rn.nodeAllocationsCount
    · rw [spawnChildNode_full h this 0 t rn ht htroot hrn hfull] at hres
      rw [← Option.some.inj hres]
      exact hok0
    · obtain ⟨h4, hcall, _, _, hroom, hev, hlen, _, hkeepn, _, _, _,
          ⟨cn, hcn, hcnext, hcroot, hcpar, hclev, _⟩, hrn1⟩ :=
        spawnChildNode_room h this 0 t rn ht htroot hrn (by omega)
      rw [hcall] at hres
      rw [← Option.some.inj hres]
      have hu : u32 (1 + t.level) = t.level + 1 := by
        rw [Nat.add_comm]; exact u32_of_lt (by omega)
      refine treeOk_step h h4 h.nodes.length (t.level + 1) (some this) rn hok0 hev hlen hkeepn
        hrn hroom hrn1 ⟨cn, hcn, hcnext, by rw [hcroot, htroot], hcpar, by rw [hclev, hu]⟩
        (by omega) (fun hc => absurd hc (by simp)) (fun p hp => ?_) (fun n0 _ hn0 _ => ?_)
      · have := Option.some.inj hp
        subst this
        exact ⟨t, ht, rfl⟩
      · have := load_lt hn0
        omega

theorem treeOk_spawnNextNodes (fuel this n : Nat) (h : Heap) (res : Nat × Heap)
    (hres : spawnNextNodes fuel this n h = some res) (hok : h.treeOk) : res.2.treeOk := by
  obtain ⟨c, h1⟩ := res
  unfold spawnNextNodes at hres
  by_cases hn : n = 0
  · simp only [hn, if_true, Option.some.injEq, Prod.mk.injEq] at hres
    rw [← hres.2]
    exact hok
  · simp only [hn, if_false] at hres
    cases ht : h.load this with
    | none => simp [ht] at hres
    | some t =>
      simp only [ht] at hres
      have hroot : t.root = some 0 := by
        obtain ⟨_, _, _, _, _, _, _, hall⟩ := hok
        exact (hall this t ht).1
      cases hlast : getLastOnLevel fuel h this with
      | none => simp [hroot, hlast] at hres
      | some last =>
        simp only [hroot, hlast] at hres
        obtain ⟨⟨l0, hl0, hl0lev, hl0par⟩, _⟩ := getLastOnLevel_carries h
          (fun a => ∃ x, h.load a = some x ∧ x.level = t.level ∧ x.parent = t.parent)
          this last fuel
          (fun a x m hQ hx hm => by
            obtain ⟨x', hx', e1, e2⟩ := hQ
            rw [hx] at hx'
            have := Option.some.inj hx'
            subst this
            obtain ⟨_, _, _, _, _, _, _, hall⟩ := hok
            obtain ⟨mn, hmn, hl, hp⟩ := (hall a x hx).2.2.2.2 m hm
            exact ⟨mn, hmn, by rw [hl, e1], by rw [hp, e2]⟩)
          ⟨t, ht, rfl, rfl⟩ hlast
        obtain ⟨_, hP, _⟩ := spawnNextNodesLoop_induction this 0
          (fun last hx => hx.treeOk ∧ ∃ tx lx, hx.load this = some tx ∧ hx.load last = some lx
            ∧ lx.level = tx.level ∧ lx.parent = tx.parent)
          (fun last hx l _ hP _ _ hl => by
            obtain ⟨hokx, tx, lx, htx, hlx, e1, e2⟩ := hP
            rw [hl] at hlx
            have := Option.some.inj hlx
            subst this
            refine ⟨treeOk_sameShape
              (sameShape_store hx last l _ hl rfl rfl rfl (Or.inr rfl) rfl rfl) hokx, ?_⟩
            rw [load_store hx last this _ (load_lt hl), load_store_same hx last _ (load_lt hl)]
            by_cases hlt : last = this
            · subst hlt
              rw [hl] at htx
              have := Option.some.inj htx
              subst this
              rw [if_pos rfl]
              exact ⟨_, _, rfl, rfl, rfl, rfl⟩
            · rw [if_neg hlt]
              exact ⟨tx, _, htx, rfl, e1, e2⟩)
          (fun last hx h4 tx rn hP hs => by
            obtain ⟨hokx, tx', lx, htx', hlx, e1, e2⟩ := hP
            obtain ⟨htx, hrn, hroom, hev, hlen, _, hkeepn, _, _, ⟨l4, hl4, hl4next⟩,
              ⟨ni, hni, hninext, hniroot, hnipar, hnilev, _⟩, hrn1⟩ := hs
            rw [htx] at htx'
            have := Option.some.inj htx'
            subst this
            obtain ⟨rn', hrn', _, _, _, _, _, hall⟩ := id hokx
            rw [hrn] at hrn'
            have := Option.some.inj hrn'
            subst this
            obtain ⟨g1, g2, g3, g4, _⟩ := hall this tx htx
            refine ⟨treeOk_step hx h4 last tx.level tx.parent rn hokx hev hlen hkeepn hrn hroom
              hrn1 ⟨ni, hni, hninext, by rw [hniroot, g1], hnipar, hnilev⟩ (by omega) g3 g4
              (fun n0 n1 hn0 hn1 => ?_), ?_⟩
            · rw [hlx] at hn0
              have := Option.some.inj hn0
              subst this
              rw [hl4] at hn1
              have := Option.some.inj hn1
              subst this
              exact Or.inr ⟨hl4next, e1, e2⟩
            · obtain ⟨t4, ht4, hs4⟩ := hev.2.1 this tx htx
              have hf := sameButLinks_fields hs4
              exact ⟨t4, ni, ht4, hni, by rw [hnilev, hf.2.2.1], by rw [hnipar, hf.2.1]⟩)
          n 0 last h c h1 t l0 ht hl0 ⟨hok, t, l0, ht, hl0, hl0lev, hl0par⟩ hres
        exact hP

theorem treeOk_spawnGreppedSubtasks (fuel this : Nat) (hp : List Char) (gv : GrepVars)
    (skip : Nat) (h : Heap) (res : Nat × Heap)
    (hres : spawnGreppedSubtasks fuel this hp gv skip h = some res) (hok : h.treeOk) :
    res.2.treeOk := by
  unfold spawnGreppedSubtasks at hres
  split at hres
  · rw [← Option.some.inj hres]
    exact hok
  · cases hs : spawnNextNodes fuel this (gv.matchURLVector.length - 1) h with
    | none => simp [hs] at hres
    | some r1 =>
      simp only [hs] at hres
      have hokA := treeOk_spawnNextNodes fuel this _ h r1 hs hok
      cases hfe : ForEachOnBranch fuel (some this) (spawnGreppedSubtasksFunc hp gv)
          (u32 skip) (r1.2, 0) with
      | none => simp [hfe] at hres
      | some r2 =>
        obtain ⟨cnt, hB, cpos⟩ := r2
        simp only [hfe] at hres
        have hrt : r1.2.retargetsTo hB := by
          unfold ForEachOnBranch at hfe
          cases hsk : ForEachOnBranchSkip r1.2 (u32 skip) (some this) with
          | none => simp [hsk] at hfe
          | some item =>
            simp only [hsk] at hfe
            rcases ForEachOnBranchLoop_func_returns hp gv fuel item 0 0 r1.2 cnt cpos hB hfe
              with ⟨hr, _⟩ | ⟨hr, _⟩
            · exact hr
            · exact hr
        have hokB := treeOk_sameShape (sameShape_of_retargetsTo hrt) hokA
        unfold linksCounterFetchAdd at hres
        cases ht : hB.load this with
        | none => simp [ht] at hres
        | some t2 =>
          simp only [ht] at hres
          cases hcp : t2.linksCounterPtr with
          | none => simp [hcp] at hres
          | some cp =>
            simp only [hcp] at hres
            cases hv : hB.atomics[cp]? with
            | none => simp [hv] at hres
            | some v =>
              simp only [hv] at hres
              rw [← Option.some.inj hres]
              exact treeOk_atomics hB _ hokB

theorem treeOk_apply (op : GraphOp) (h h1 : Heap) (hsp : op.isSpawn = true)
    (hres : op.apply h = some h1) (hok : h.treeOk) : h1.treeOk := by
  cases op with
  | createRootNode => simp [GraphOp.isSpawn] at hsp
  | makeNewNode root => simp [GraphOp.isSpawn] at hsp
  | deleteNode item => simp [GraphOp.isSpawn] at hsp
  | DeleteList fuel head => simp [GraphOp.isSpawn] at hsp
  | setLinkCounters node links maxLinks =>
    simp only [GraphOp.apply, setLinkCounters] at hres
    cases hn : h.load node with
    | none => simp [hn] at hres
    | some n =>
      simp only [hn, Option.some.injEq] at hres
      rw [← hres]
      exact treeOk_sameShape
        (sameShape_store h node n _ hn rfl rfl rfl (Or.inl rfl) rfl rfl) hok
  | spawnChildNode this =>
    simp only [GraphOp.apply, Option.map_eq_some'] at hres
    obtain ⟨res, hcall, he⟩ := hres
    subst he
    exact treeOk_spawnChildNode this h res hcall hok
  | spawnNextNodes fuel this n =>
    simp only [GraphOp.apply, Option.map_eq_some'] at hres
    obtain ⟨res, hcall, he⟩ := hres
    subst he
    exact treeOk_spawnNextNodes fuel this n h res hcall hok
  | spawnGreppedSubtasks fuel this hp gv skip =>
    simp only [GraphOp.apply, Option.map_eq_some'] at hres
    obtain ⟨res, hcall, he⟩ := hres
    subst he
    exact treeOk_spawnGreppedSubtasks fuel this hp gv skip h res hcall hok

theorem treeOk_createRootNode (atomics : List Nat) :
    (createRootNode (Heap.empty atomics)).2.treeOk := by
  have hload : ∀ b, (createRootNode (Heap.empty atomics)).2.load b
      = if b = 0 then some { LinkedTask.ctor with root := some 0 } else none := by
    intro b
    rw [load_createRootNode]
    by_cases hb : b = 0
    · subst hb; rfl
    · have : (Heap.empty atomics).load b = none := by simp [Heap.load, Heap.empty]
      rw [this]
      rfl
  refine ⟨{ LinkedTask.ctor with root := some 0 }, by rw [hload 0]; rfl, rfl, rfl, rfl,
    Nat.zero_le _, by show (8192 : Nat) < 4294967296; omega, fun a n hn => ?_⟩
  rw [hload a] at hn
  by_cases ha : a = 0
  · rw [if_pos ha] at hn
    have := Option.some.inj hn
    subst this
    exact ⟨rfl, Nat.le_refl _, fun _ => rfl, fun p hp => absurd hp (by simp [LinkedTask.ctor]),
      fun m hm => absurd hm (by simp [LinkedTask.ctor])⟩
  · rw [if_neg ha] at hn
    exact absurd hn (by simp)

/-- In a heap with the shape invariant all nodes of a sibling chain have the level and the
parent of its head. -/
theorem treeOk_chain (h : Heap) (hok : h.treeOk) : ∀ (chain : List Nat) (head : Nat)
    (hn : LinkedTask), h.load head = some hn → isChain h (some head) chain = true →
    ∀ a ∈ chain, ∃ an, h.load a = some an ∧ an.level = hn.level ∧ an.parent = hn.parent
  | [], head, hn, _, hc, a, ha => absurd ha (by simp)
  | b :: rest, head, hn, hhead, hc, a, ha => by
    rw [isChain_cons] at hc
    obtain ⟨hb, n, hnb, hc1⟩ := hc
    have := Option.some.inj hb
    subst this
    rw [hhead] at hnb
    have := Option.some.inj hnb
    subst this
    rcases List.mem_cons.1 ha with hah | hrest
    · subst hah
      exact ⟨hn, hhead, rfl, rfl⟩
    · cases hnext : hn.next with
      | none =>
        rw [hnext] at hc1
        cases rest with
        | nil => exact absurd hrest (by simp)
        | cons x xs =>
          rw [isChain_cons] at hc1
          exact absurd hc1.1 (by simp)
      | some m =>
        obtain ⟨_, _, _, _, _, _, _, hall⟩ := id hok
        obtain ⟨mn, hmn, hl, hp⟩ := (hall head hn hhead).2.2.2.2 m hnext
        rw [hnext] at hc1
        obtain ⟨an, han, e1, e2⟩ := treeOk_chain h hok rest m mn hmn hc1 a hrest
        exact ⟨an, han, by rw [e1, hl], by rw [e2, hp]⟩

/-! ## The URL helpers -/

theorem charAt_append_left (l1 l2 : List Char) (i : Nat) (h : i < l1.length) :
    charAt (l1 ++ l2) i = charAt l1 i := by
  unfold charAt
  rw [List.getElem?_append_left h]

theorem charAt_append_right (l1 l2 : List Char) (i : Nat) :
    charAt (l1 ++ l2) (l1.length + i) = charAt l2 i := by
  unfold charAt
  rw [List.getElem?_append_right (by omega)]
  congr 2
  omega

theorem map_charAt_range (l : List Char) : (List.range l.length).map (charAt l) = l := by
  apply List.ext_getElem
  · simp
  · intro i h1 h2
    simp [charAt, h2]

/-- The loop of `FindURLAddressBegin` stops at the first offset `m` that holds `://`, when
the position `m + 1` is below the bound. -/
theorem FindURLAddressBeginLoop_found (str : List Char) (bound m : Nat)
    (hm : differsFromSemSlash str m = false) (hmb : m + 1 < bound) :
    ∀ (fuel ptr : Nat), ptr ≤ m → m - ptr ≤ fuel →
      (∀ j, ptr ≤ j → j < m → differsFromSemSlash str j = true) →
      FindURLAddressBeginLoop str bound fuel (ptr + 1) ptr = (m + 1, m) := by
  intro fuel
  induction fuel with
  | zero =>
    intro ptr h1 h2 _
    have : ptr = m := by omega
    subst this
    rfl
  | succ n ih =>
    intro ptr h1 h2 hall
    unfold FindURLAddressBeginLoop
    by_cases hpm : ptr = m
    · subst hpm
      simp [hm]
    · have hd := hall ptr (Nat.le_refl _) (by omega)
      have hlt : ptr + 1 < bound := by omega
      simp only [hd, hlt, decide_True, Bool.and_self, if_true]
      exact ih (ptr + 1) (by omega) (by omega) (fun j hj1 hj2 => hall j (by omega) hj2)

/-- The loop of `FindURLAddressBegin` runs up to the bound when no offset `j` with
`j + 1` below the bound holds `://`. -/
theorem FindURLAddressBeginLoop_none (str : List Char) (bound : Nat) :
    ∀ (fuel ptr : Nat), ptr + 1 ≤ bound → bound - (ptr + 1) ≤ fuel →
      (∀ j, ptr ≤ j → j + 1 < bound → differsFromSemSlash str j = true) →
      FindURLAddressBeginLoop str bound fuel (ptr + 1) ptr = (bound, bound - 1) := by
  intro fuel
  induction fuel with
  | zero =>
    intro ptr h1 h2 _
    have : ptr + 1 = bound := by omega
    subst this
    rfl
  | succ n ih =>
    intro ptr h1 h2 hall
    unfold FindURLAddressBeginLoop
    by_cases hpb : ptr + 1 = bound
    · subst hpb
      simp
    · have hlt : ptr + 1 < bound := by omega
      have hd := hall ptr (Nat.le_refl _) hlt
      simp only [hd, hlt, decide_True, Bool.and_self, if_true]
      exact ih (ptr + 1) (by omega) (by omega) (fun j hj1 hj2 => hall j (by omega) hj2)

theorem FindURLAddressBegin_slash (str : List Char) (nmax : Nat) (h : charAt str 0 = '/') :
    FindURLAddressBegin str nmax = 0 := by
  unfold FindURLAddressBegin
  simp [h]

/-- The value of `FindURLAddressBegin` when `://` is found: `m + 3` for the first offset
`m` that holds `://`, provided `m + 1` is below `min MaxURLlen nmax`. -/
theorem FindURLAddressBegin_found (str : List Char) (nmax m : Nat)
    (h0 : charAt str 0 ≠ '/') (hm : differsFromSemSlash str m = false)
    (hmb : m + 1 < min MaxURLlen nmax)
    (hall : ∀ j, j < m → differsFromSemSlash str j = true) :
    FindURLAddressBegin str nmax = m + 3 := by
  unfold FindURLAddressBegin
  have hloop := FindURLAddressBeginLoop_found str (min MaxURLlen nmax) m hm hmb
    (min MaxURLlen nmax - 1) 0 (Nat.zero_le _) (by omega) (fun j _ hj => hall j hj)
  have hc : charAt str m = ':' := by
    unfold differsFromSemSlash at hm
    simp at hm
    exact hm.1.1
  simp only [beq_iff_eq, h0, if_false]
  rw [show (0 : Nat) + 1 = 1 from rfl] at hloop
  simp [hloop, hmb, hc]

/-- The value of `FindURLAddressBegin` when `://` is not found: `nmax`. -/
theorem FindURLAddressBegin_none (str : List Char) (nmax : Nat)
    (h0 : charAt str 0 ≠ '/')
    (hall : ∀ j, j + 1 < min MaxURLlen nmax → differsFromSemSlash str j = true) :
    FindURLAddressBegin str nmax = nmax := by
  unfold FindURLAddressBegin
  simp only [beq_iff_eq, h0, if_false]
  by_cases hb : min MaxURLlen nmax = 0
  · rw [hb]
    simp [FindURLAddressBeginLoop]
  · have hloop := FindURLAddressBeginLoop_none str (min MaxURLlen nmax)
      (min MaxURLlen nmax - 1) 0 (by omega) (by omega) (fun j _ hj => hall j hj)
    rw [show (0 : Nat) + 1 = 1 from rfl] at hloop
    simp [hloop]

theorem differsFromSemSlash_at_sep (scheme rest : List Char) :
    differsFromSemSlash (scheme ++ [':', '/', '/'] ++ rest) scheme.length = false := by
  have e : scheme ++ [':', '/', '/'] ++ rest = scheme ++ (':' :: '/' :: '/' :: rest) := by simp
  have h0 := charAt_append_right scheme (':' :: '/' :: '/' :: rest) 0
  have h1 := charAt_append_right scheme (':' :: '/' :: '/' :: rest) 1
  have h2 := charAt_append_right scheme (':' :: '/' :: '/' :: rest) 2
  rw [Nat.add_zero] at h0
  unfold differsFromSemSlash
  rw [e, h0, h1, h2]
  simp [charAt]

theorem charAt_replicate (n : Nat) (c : Char) (l : List Char) (j : Nat) (h : j < n) :
    charAt (List.replicate n c ++ l) j = c := by
  rw [charAt_append_left _ _ _ (by simpa using h)]
  simp [charAt, h]

theorem findFirstOf_append_hit (l1 l2 chars : List Char) (a : Char)
    (h1 : ∀ x ∈ l1, chars.contains x = false) (ha : chars.contains a = true) :
    findFirstOf (l1 ++ a :: l2) chars = some l1.length := by
  unfold findFirstOf
  have hidx : (l1 ++ a :: l2).findIdx (fun c => chars.contains c) = l1.length := by
    induction l1 with
    | nil =>
      rw [List.nil_append, List.findIdx_cons, ha]
      rfl
    | cons x xs ih =>
      have hx := h1 x (List.mem_cons_self x xs)
      rw [List.cons_append, List.findIdx_cons, hx]
      simp only [cond_false, List.length_cons]
      rw [ih (fun y hy => h1 y (List.mem_cons_of_mem x hy))]
  simp only [hidx]
  rw [if_pos (by simp)]

theorem findFirstOf_miss (l chars : List Char) (h : ∀ x ∈ l, chars.contains x = false) :
    findFirstOf l chars = none := by
  unfold findFirstOf
  have hidx : l.findIdx (fun c => chars.contains c) = l.length := by
    induction l with
    | nil => rfl
    | cons x xs ih =>
      rw [List.findIdx_cons, h x (List.mem_cons_self x xs)]
      simp only [cond_false, List.length_cons]
      rw [ih (fun y hy => h y (List.mem_cons_of_mem x hy))]
  simp only [hidx]
  rw [if_neg (by omega)]

theorem cString_append (l1 l2 : List Char) (h : ∀ x ∈ l1, x ≠ NUL) :
    cString (l1 ++ l2) = l1 ++ cString l2 := by
  unfold cString
  induction l1 with
  | nil => rfl
  | cons x xs ih =>
    have hx := h x (List.mem_cons_self x xs)
    rw [List.cons_append, List.takeWhile_cons]
    simp only [bne_iff_ne, ne_eq, hx, not_false_eq_true, if_true, List.cons_append]
    rw [ih (fun y hy => h y (List.mem_cons_of_mem x hy))]

theorem FindClosingQuoteLoop_spec (buf : List Char) :
    ∀ (n off : Nat),
      off ≤ FindClosingQuoteLoop buf n off ∧ FindClosingQuoteLoop buf n off ≤ off + n
      ∧ (∀ i, off ≤ i → i < FindClosingQuoteLoop buf n off →
          stopChars.contains (charAt buf i) = false)
      ∧ (FindClosingQuoteLoop buf n off < off + n →
          stopChars.contains (charAt buf (FindClosingQuoteLoop buf n off)) = true) := by
  intro n
  induction n with
  | zero =>
    intro off
    refine ⟨Nat.le_refl _, Nat.le_refl _, fun i h1 h2 => ?_, fun h => ?_⟩
    · simp only [FindClosingQuoteLoop] at h2; omega
    · simp only [FindClosingQuoteLoop] at h; omega
  | succ n ih =>
    intro off
    unfold FindClosingQuoteLoop
    by_cases hc : stopChars.contains (charAt buf off) = true
    · rw [if_pos hc]
      exact ⟨Nat.le_refl _, by omega, fun i h1 h2 => by omega, fun _ => hc⟩
    · rw [if_neg hc]
      obtain ⟨a, b, c, d⟩ := ih (off + 1)
      refine ⟨by omega, by omega, fun i h1 h2 => ?_, fun h => d (by omega)⟩
      by_cases hi : i = off
      · subst hi
        simpa using hc
      · exact c i (by omega) h2

/-- The loop of `FindURLPathBegin` stops at the first slash at or behind `ptr`, when that
slash is not beyond the bound. -/
theorem FindURLPathBeginLoop_first_slash (str : List Char) (bound m : Nat)
    (hm : charAt str m = '/') (hmb : m ≤ bound) :
    ∀ (fuel ptr : Nat), ptr ≤ m → m - ptr ≤ fuel →
      (∀ j, ptr ≤ j → j < m → charAt str j ≠ '/') →
      FindURLPathBeginLoop str bound fuel ptr = m := by
  intro fuel
  induction fuel with
  | zero =>
    intro ptr h1 h2 _
    unfold FindURLPathBeginLoop
    omega
  | succ n ih =>
    intro ptr h1 h2 hall
    unfold FindURLPathBeginLoop
    by_cases hpm : ptr = m
    · subst hpm
      simp [hm]
    · have hc := hall ptr (Nat.le_refl _) (by omega)
      have hlt : ptr < bound := by omega
      have hcond : (charAt str ptr != '/' && decide (ptr < bound)) = true := by
        simp [hc, hlt]
      rw [if_pos hcond]
      exact ih (ptr + 1) (by omega) (by omega) (fun j hj1 hj2 => hall j (by omega) hj2)

/-- The value of `FindURLPathBegin` on a string with a slash: the offset of the first slash
of the whole string, when that offset is within `min nmax MaxURLlen`. For a URL
`scheme://rest` whose scheme has no slash this is the first slash of the separator. -/
theorem FindURLPathBegin_first_slash (pre rest : List Char) (nmax : Nat)
    (hpre : ∀ c ∈ pre, c ≠ '/') (hb : pre.length ≤ min nmax MaxURLlen) :
    FindURLPathBegin (pre ++ '/' :: rest) nmax = pre.length := by
  unfold FindURLPathBegin
  have hm : charAt (pre ++ '/' :: rest) pre.length = '/' := by
    have := charAt_append_right pre ('/' :: rest) 0
    rw [Nat.add_zero] at this
    rw [this]
    simp [charAt]
  exact FindURLPathBeginLoop_first_slash _ _ pre.length hm hb _ 0 (Nat.zero_le _) (by omega)
    (fun j _ hj => by
      rw [charAt_append_left _ _ _ hj]
      unfold charAt
      rw [List.getElem?_eq_getElem hj]
      exact hpre _ (List.getElem_mem hj))

theorem cString_no_NUL (buf : List Char) : NUL ∉ cString buf := by
  unfold cString
  intro hm
  have := List.mem_takeWhile_imp hm
  simp at this

/-- The bytes read from a buffer that holds a NUL are the bytes before its first NUL. -/
theorem cString_prefix (buf : List Char) (hnul : NUL ∈ buf) :
    ∃ rest, buf = cString buf ++ NUL :: rest := by
  unfold cString
  induction buf with
  | nil => simp at hnul
  | cons c l ih =>
    by_cases hc : c = NUL
    · subst hc
      exact ⟨l, by simp [List.takeWhile_cons]⟩
    · have hl : NUL ∈ l := by
        rcases List.mem_cons.1 hnul with e | hm
        · exact absurd e.symm hc
        · exact hm
      obtain ⟨rest, hrest⟩ := ih hl
      refine ⟨rest, ?_⟩
      rw [List.takeWhile_cons]
      simp only [bne_iff_ne, ne_eq, hc, not_false_eq_true, decide_True, if_true,
        List.cons_append]
      rw [← hrest]

/-! ## The links of objects that exist already -/

/-- The method `start` on a root other than the current one, when the page of the new root
is parsed already: the pool is replaced by a new one without work, the new root is
installed, and both vectors of abandoned work are left as they were. -/
theorem start_other_root_keeps_vectors (pv : CrawlerPV) (h : Heap) (r : Nat) (rn : LinkedTask)
    (threadsNumber : Nat) (forceRebuild waiterDone : Bool) (fake : LonelyTask)
    (rootPipeline : CrawlerPV → Heap → Option (CrawlerPV × Heap))
    (hne : pv.taskRoot ≠ some r) (hr : h.load r = some rn)
    (hparsed : (rn.grepVars.pageIsParsed && !forceRebuild) = true) :
    pv.start h (some r) threadsNumber forceRebuild waiterDone fake rootPipeline
      = some ({ pv with taskRoot := some r,
                         workersPool := ThreadsPool.ctor threadsNumber }, h) := by
  have h1 : (some r != pv.taskRoot) = true := by
    simp only [bne_iff_ne, ne_eq]
    exact fun e => hne e.symm
  have h2 : (pv.taskRoot == some r) = false := by
    simp only [beq_eq_false_iff_ne, ne_eq]
    exact hne
  unfold CrawlerPV.start
  simp only [h1, if_true, ThreadsPool.terminateDetach, ThreadsPool.closed, Bool.true_or, h2,
    hr, hparsed]
  rfl

/-! ## The traversal of a tree -/

theorem TraverseFunc_null (func : Nat → Heap → Option Heap) (fuel : Nat) (h : Heap) :
    TraverseFunc func fuel none h = some h := by
  cases fuel <;> rfl

theorem visitAll_append (func : Nat → Heap → Option Heap) (l1 l2 : List Nat) (h : Heap) :
    visitAll func (l1 ++ l2) h = (visitAll func l1 h).bind (visitAll func l2) := by
  induction l1 generalizing h with
  | nil => rfl
  | cons a rest ih =>
    rw [List.cons_append, visitAll, visitAll]
    cases func a h with
    | none => rfl
    | some h1 => exact ih h1

/-- Visits of a function that leaves the links of the other nodes alone leave the links
of every node that is not visited alone. -/
theorem visitAll_keeps (func : Nat → Heap → Option Heap)
    (hfunc : ∀ a hx hy, func a hx = some hy →
      hx.keepsOff LinkedTask.next hy a ∧ hx.keepsOff LinkedTask.child hy a) :
    ∀ (l : List Nat) (h h1 : Heap), visitAll func l h = some h1 →
      ∀ b, b ∉ l → ∀ x, h.load b = some x →
        ∃ y, h1.load b = some y ∧ y.next = x.next ∧ y.child = x.child
  | [], h, h1, hres, b, _, x, hx => by
    simp only [visitAll, Option.some.injEq] at hres
    subst hres
    exact ⟨x, hx, rfl, rfl⟩
  | a :: rest, h, h1, hres, b, hb, x, hx => by
    rw [visitAll] at hres
    cases hf : func a h with
    | none => simp [hf] at hres
    | some h2 =>
      simp only [hf] at hres
      have hba : b ≠ a := fun e => hb (by rw [e]; exact List.mem_cons_self a rest)
      obtain ⟨kn, kc⟩ := hfunc a h h2 hf
      obtain ⟨y, hy, en⟩ := kn b hba x hx
      obtain ⟨y', hy', ec⟩ := kc b hba x hx
      rw [hy] at hy'
      have := Option.some.inj hy'
      subst this
      obtain ⟨z, hz, e1, e2⟩ := visitAll_keeps func hfunc rest h2 h1 hres b
        (fun hm => hb (List.mem_cons_of_mem a hm)) y hy
      exact ⟨z, hz, e1.trans en, e2.trans ec⟩

theorem holdsTree_node (h : Heap) (a : Nat) (n c : TaskTree) :
    h.holdsTree (TaskTree.node a n c) = true ↔
      (∃ x, h.load a = some x ∧ x.next = n.ptr ∧ x.child = c.ptr)
        ∧ h.holdsTree n = true ∧ h.holdsTree c = true := by
  rw [Heap.holdsTree]
  cases hx : h.load a with
  | none => simp
  | some x => simp [and_assoc]

/-- A heap that keeps the links of the nodes of a tree holds the tree as well. -/
theorem holdsTree_of_keeps (h h1 : Heap) :
    ∀ (t : TaskTree), h.holdsTree t = true →
      (∀ b ∈ t.postOrder, ∀ x, h.load b = some x →
        ∃ y, h1.load b = some y ∧ y.next = x.next ∧ y.child = x.child) →
      h1.holdsTree t = true
  | TaskTree.nil, _, _ => rfl
  | TaskTree.node a n c, hh, hk => by
    rw [holdsTree_node] at hh ⊢
    obtain ⟨⟨x, hx, e1, e2⟩, hn, hc⟩ := hh
    have hmem : ∀ b, b ∈ n.postOrder ∨ b ∈ c.postOrder ∨ b = a →
        b ∈ (TaskTree.node a n c).postOrder := by
      intro b hb
      simp only [TaskTree.postOrder, List.mem_append, List.mem_singleton]
      tauto
    obtain ⟨y, hy, f1, f2⟩ := hk a (hmem a (Or.inr (Or.inr rfl))) x hx
    exact ⟨⟨y, hy, f1.trans e1, f2.trans e2⟩,
      holdsTree_of_keeps h h1 n hn (fun b hb => hk b (hmem b (Or.inl hb))),
      holdsTree_of_keeps h h1 c hc (fun b hb => hk b (hmem b (Or.inr (Or.inl hb))))⟩

/-- The function `TraverseFunc` on a tree, with fuel for its height and a function that
leaves the links of the other nodes alone: the calls of the function are those of the
post-order list, in that order. -/
theorem TraverseFunc_postOrder (func : Nat → Heap → Option Heap)
    (hfunc : ∀ a hx hy, func a hx = some hy →
      hx.keepsOff LinkedTask.next hy a ∧ hx.keepsOff LinkedTask.child hy a) :
    ∀ (t : TaskTree) (fuel : Nat) (h : Heap), h.holdsTree t = true → t.postOrder.Nodup →
      t.height ≤ fuel → TraverseFunc func fuel t.ptr h = visitAll func t.postOrder h
  | TaskTree.nil, fuel, h, _, _, _ => TraverseFunc_null func fuel h
  | TaskTree.node a n c, 0, h, _, _, hfuel => by
    simp only [TaskTree.height] at hfuel
    omega
  | TaskTree.node a n c, fuel + 1, h, hh, hnd, hfuel => by
    rw [holdsTree_node] at hh
    obtain ⟨⟨x, hx, e1, e2⟩, hn, hc⟩ := hh
    simp only [TaskTree.height] at hfuel
    simp only [TaskTree.postOrder] at hnd
    rw [List.nodup_append] at hnd
    obtain ⟨hnc, _, _⟩ := hnd
    rw [List.nodup_append] at hnc
    obtain ⟨hndn, hndc, hdisj⟩ := hnc
    have ihn := TraverseFunc_postOrder func hfunc n fuel h hn hndn (by omega)
    show TraverseFunc func (fuel + 1) (some a) h
      = visitAll func (n.postOrder ++ c.postOrder ++ [a]) h
    rw [TraverseFunc]
    simp only [hx]
    rw [e1, e2, ihn, List.append_assoc, visitAll_append]
    cases hv : visitAll func n.postOrder h with
    | none => rfl
    | some h1 =>
      have hc1 : h1.holdsTree c = true :=
        holdsTree_of_keeps h h1 c hc (fun b hb y hy =>
          visitAll_keeps func hfunc n.postOrder h h1 hv b (fun hbn => hdisj hbn hb) y hy)
      have ihc := TraverseFunc_postOrder func hfunc c fuel h1 hc1 hndc (by omega)
      simp only [ihc]
      rw [Option.some_bind, visitAll_append]
      cases hv2 : visitAll func c.postOrder h1 with
      | none => rfl
      | some h2 =>
        rw [Option.some_bind, visitAll]
        show func a h2 = _
        cases func a h2 <;> rfl

/-- A function that returns on every call returns on every list of visits. -/
theorem visitAll_total (func : Nat → Heap → Option Heap)
    (htotal : ∀ a hx, ∃ hy, func a hx = some hy) :
    ∀ (l : List Nat) (h : Heap), ∃ h1, visitAll func l h = some h1
  | [], h => ⟨h, rfl⟩
  | a :: rest, h => by
    obtain ⟨h2, hf⟩ := htotal a h
    obtain ⟨h1, hv⟩ := visitAll_total func htotal rest h2
    exact ⟨h1, by rw [visitAll, hf]; exact hv⟩

/-- What `DeleteCall` does when it returns: the item is gone, every other object is
alive as before with the same `next`, `child` and `root`, and nothing comes to life. -/
theorem DeleteCall_frame (a : Nat) (h h1 : Heap) (hres : DeleteCall a h = some h1) :
    h1.load a = none
      ∧ (∀ b, b ≠ a → ∀ x, h.load b = some x →
          ∃ y, h1.load b = some y ∧ y.next = x.next ∧ y.child = x.child ∧ y.root = x.root)
      ∧ (∀ b, h.load b = none → h1.load b = none) := by
  unfold DeleteCall at hres
  cases hn : h.load a with
  | none => simp [hn] at hres
  | some n =>
    simp only [hn] at hres
    by_cases hself : n.root = some a
    · rw [if_pos hself] at hres
      rw [← Option.some.inj hres]
      refine ⟨by rw [load_free, if_pos rfl], fun b hb x hx => ?_, fun b hb => ?_⟩
      · rw [load_free, if_neg (Ne.symm hb)]
        exact ⟨x, hx, rfl, rfl, rfl⟩
      · rw [load_free]
        split
        · rfl
        · exact hb
    · rw [if_neg hself] at hres
      cases hroot : n.root with
      | none => simp [hroot] at hres
      | some r =>
        have hra : r ≠ a := fun e => hself (by rw [hroot, e])
        simp only [hroot] at hres
        cases hr : h.load r with
        | none => simp [hr] at hres
        | some rx =>
          have hr1 : (h.free a).load r = some rx := by
            rw [load_free, if_neg (Ne.symm hra)]; exact hr
          simp only [hr, hr1, Option.some.injEq] at hres
          rw [← hres]
          refine ⟨?_, fun b hb x hx => ?_, fun b hb => ?_⟩
          · rw [load_store_ne _ r a _ hra, load_free, if_pos rfl]
          · by_cases hbr : r = b
            · subst hbr
              rw [hr] at hx
              have := Option.some.inj hx
              subst this
              rw [load_store_same _ r _ (by rw [length_free]; exact load_lt hr)]
              exact ⟨_, rfl, rfl, rfl, rfl⟩
            · rw [load_store_ne _ r b _ hbr, load_free, if_neg (Ne.symm hb)]
              exact ⟨x, hx, rfl, rfl, rfl⟩
          · have hbr : r ≠ b := fun e => by
              rw [e] at hr; rw [hr] at hb; exact absurd hb (by simp)
            rw [load_store_ne _ r b _ hbr, load_free]
            split
            · rfl
            · exact hb

theorem DeleteCall_keeps_links (a : Nat) (hx hy : Heap) (hres : DeleteCall a hx = some hy) :
    hx.keepsOff LinkedTask.next hy a ∧ hx.keepsOff LinkedTask.child hy a := by
  obtain ⟨_, hk, _⟩ := DeleteCall_frame a hx hy hres
  constructor
  · intro b hb x hxb
    obtain ⟨y, hy, e, _, _⟩ := hk b hb x hxb
    exact ⟨y, hy, e⟩
  · intro b hb x hxb
    obtain ⟨y, hy, _, e, _⟩ := hk b hb x hxb
    exact ⟨y, hy, e⟩

/-- The function `DeleteCall` returns on a live item whose root is alive. -/
theorem DeleteCall_returns (a r : Nat) (h : Heap) (x rx : LinkedTask)
    (hx : h.load a = some x) (hroot : x.root = some r) (hr : h.load r = some rx) :
    ∃ h1, DeleteCall a h = some h1 := by
  unfold DeleteCall
  simp only [hx]
  by_cases hself : x.root = some a
  · rw [if_pos hself]
    exact ⟨_, rfl⟩
  · rw [if_neg hself]
    have hra : r ≠ a := fun e => hself (by rw [hroot, e])
    have hr1 : (h.free a).load r = some rx := by
      rw [load_free, if_neg (Ne.symm hra)]; exact hr
    simp only [hroot, hr, hr1]
    exact ⟨_, rfl⟩

/-- Deleting the nodes of a list one after the other: when no node is listed twice and the
root of every node is alive and is either not listed or the last of the list, every call
of `DeleteCall` returns and all the nodes are gone at the end. -/
theorem visitAll_DeleteCall :
    ∀ (l : List Nat) (h : Heap), l.Nodup →
      (∀ a ∈ l, ∃ x r rx, h.load a = some x ∧ x.root = some r ∧ h.load r = some rx
        ∧ (r ∉ l ∨ l.getLast? = some r)) →
      ∃ h1, visitAll DeleteCall l h = some h1 ∧ (∀ a ∈ l, h1.load a = none)
        ∧ (∀ b, h.load b = none → h1.load b = none)
        ∧ (∀ b, b ∉ l → ∀ x, h.load b = some x → ∃ y, h1.load b = some y)
  | [], h, _, _ => ⟨h, rfl, fun _ ha => absurd ha (by simp), fun _ hb => hb,
      fun _ _ x hx => ⟨x, hx⟩⟩
  | a :: rest, h, hnd, hall => by
    obtain ⟨hnotin, hndrest⟩ := List.nodup_cons.1 hnd
    obtain ⟨x, r, rx, hx, hroot, hr, _⟩ := hall a (List.mem_cons_self a rest)
    obtain ⟨h2, hdel⟩ := DeleteCall_returns a r h x rx hx hroot hr
    obtain ⟨hgone, hkeep, hnone⟩ := DeleteCall_frame a h h2 hdel
    have hall2 : ∀ b ∈ rest, ∃ y rb rbx, h2.load b = some y ∧ y.root = some rb
        ∧ h2.load rb = some rbx ∧ (rb ∉ rest ∨ rest.getLast? = some rb) := by
      intro b hb
      have hba : b ≠ a := fun e => hnotin (by rw [← e]; exact hb)
      obtain ⟨y, rb, rbx, hy, hyroot, hrb, hpos⟩ := hall b (List.mem_cons_of_mem a hb)
      obtain ⟨y2, hy2, _, _, eroot⟩ := hkeep b hba y hy
      have hrest : rest ≠ [] := List.ne_nil_of_mem hb
      have hlast : (a :: rest).getLast? = rest.getLast? := by
        cases rest with
        | nil => exact absurd rfl hrest
        | cons c cs => rfl
      have hrba : rb ≠ a := by
        rcases hpos with hp | hp
        · exact fun e => hp (by rw [e]; exact List.mem_cons_self a rest)
        · rw [hlast] at hp
          have hm : rb ∈ rest := List.mem_of_getLast?_eq_some hp
          exact fun e => hnotin (by rw [← e]; exact hm)
      obtain ⟨rb2, hrb2, _⟩ := hkeep rb hrba rbx hrb
      refine ⟨y2, rb, rb2, hy2, eroot.trans hyroot, hrb2, ?_⟩
      rcases hpos with hp | hp
      · exact Or.inl (fun hm => hp (List.mem_cons_of_mem a hm))
      · exact Or.inr (by rw [← hlast]; exact hp)
    obtain ⟨h1, hv, hgone1, hnone1, hlive1⟩ := visitAll_DeleteCall rest h2 hndrest hall2
    refine ⟨h1, by rw [visitAll, hdel]; exact hv, fun b hb => ?_,
      fun b hb => hnone1 b (hnone b hb), fun b hb y hy => ?_⟩
    · rcases List.mem_cons.1 hb with e | hm
      · rw [e]; exact hnone1 a hgone
      · exact hgone1 b hm
    · have hba : b ≠ a := fun e => hb (by rw [e]; exact List.mem_cons_self a rest)
      obtain ⟨y2, hy2, _⟩ := hkeep b hba y hy
      exact hlive1 b (fun hm => hb (List.mem_cons_of_mem a hm)) y2 hy2

theorem postOrder_getLast (t : TaskTree) : t.postOrder.getLast? = t.ptr := by
  cases t with
  | nil => rfl
  | node a n c => simp [TaskTree.postOrder, TaskTree.ptr]

/-! ## One caller and several callers of FuncNeu -/

/-- The function `FuncNeu` is its test followed by the statements behind it. -/
theorem FuncNeu_steps (r : Nat) (h : Heap) :
    FuncNeu r h =
      match FuncNeuTest r h with
      | none => none
      | some true => FuncNeuAllocate r h
      | some false => some (none, h) := by
  unfold FuncNeu FuncNeuTest FuncNeuAllocate
  cases hr : h.load r with
  | none => rfl
  | some rn =>
    by_cases hfull : rn.maxPossbleNodesQuantity ≤ rn.nodeAllocationsCount
    · simp [hfull]
    · simp [hfull]

/-- One thread alone in `FuncNeu` does what `FuncNeu` does. -/
theorem FuncNeuThreads_alone (r w : Nat) (h : Heap) :
    FuncNeuThreads r [w, w] [] h = (FuncNeu r h).map Prod.snd := by
  rw [FuncNeu_steps]
  cases ht : FuncNeuTest r h with
  | none => simp [FuncNeuThreads, ht]
  | some passed =>
    cases passed with
    | false => simp [FuncNeuThreads, ht]
    | true =>
      cases ha : FuncNeuAllocate r h with
      | none => simp [FuncNeuThreads, ht, ha]
      | some res => simp [FuncNeuThreads, ht, ha]

/-- The test of `FuncNeu` on a live root passes when the count is below the ceiling. -/
theorem FuncNeuTest_eq (r : Nat) (h : Heap) (rn : LinkedTask) (hr : h.load r = some rn) :
    FuncNeuTest r h
      = some (decide (rn.nodeAllocationsCount < rn.maxPossbleNodesQuantity)) := by
  simp only [FuncNeuTest, hr]
  by_cases hfull : rn.maxPossbleNodesQuantity ≤ rn.nodeAllocationsCount
  · simp [hfull]
  · have hlt : rn.nodeAllocationsCount < rn.maxPossbleNodesQuantity := by omega
    simp [hfull, hlt]

/-- The statements of `FuncNeu` behind the test allocate and count one node, whatever the
count is by then. -/
theorem FuncNeuAllocate_spec (r : Nat) (h : Heap) (rn : LinkedTask)
    (hr : h.load r = some rn) :
    ∃ h1, FuncNeuAllocate r h = some (some h.nodes.length, h1)
      ∧ h1.load r
          = some { rn with nodeAllocationsCount := u32 (rn.nodeAllocationsCount + 1) }
      ∧ h1.liveCount = h.liveCount + 1 := by
  have h1 : (h.alloc (LinkedTask.ctorChild r rn)).2.load r = some rn := by
    rw [load_alloc_old h _ r (load_lt hr)]; exact hr
  refine ⟨(h.alloc (LinkedTask.ctorChild r rn)).2.store r
      { rn with nodeAllocationsCount := u32 (rn.nodeAllocationsCount + 1) }, ?_, ?_, ?_⟩
  · simp only [FuncNeuAllocate, hr, h1]
    rfl
  · rw [load_store_same _ r _ (load_lt h1)]
  · rw [liveCount_store _ r _ rn h1, liveCount_alloc]

/-- Operations that run one after the other keep the count within the ceiling: when
`nodeAllocationsCount ≤ maxPossbleNodesQuantity` holds on every object of a heap (with the
accounting of `Heap.countsOk`), it holds on every object (in particular on every root) of
every heap reached from it by `createRootNode`, `makeNewNode`, `spawnChildNode`,
`spawnNextNodes`, `spawnGreppedSubtasks`, `deleteNode` and `DeleteList`, in any order and
with any arguments; none of them writes `maxPossbleNodesQuantity` of an existing object. -/
theorem allocations_stay_within_ceiling (h0 : Heap) (hok : h0.countsOk) (ops : List GraphOp)
    (h : Heap) (hrun : runOps ops h0 = some h) (a : Nat) (n : LinkedTask)
    (hn : h.load a = some n) : n.nodeAllocationsCount ≤ n.maxPossbleNodesQuantity :=
  ((runOps_preserves Heap.countsOk (fun _ => True)
    (fun op hx hy _ hr hP => countsOk_apply op hx hy hr hP) ops h0 h
    (fun _ _ => trivial) hrun hok).1 a n hn).1

/-- A fresh root with a ceiling set by its owner satisfies the accounting invariant. -/
theorem countsOk_configuredRoot (atomics : List Nat) (links maxLinks : Option Nat) (M : Nat) :
    (configuredRoot atomics links maxLinks M).countsOk := by
  have hload : ∀ a n, (configuredRoot atomics links maxLinks M).load a = some n →
      a = 0 ∧ n.nodeAllocationsCount = 0 ∧ n.maxPossbleNodesQuantity = u32 M
        ∧ n.root = some 0 := by
    intro a n hn
    cases a with
    | zero =>
      have e : ((configuredRoot atomics links maxLinks M).load 0).map
          (fun x => (x.nodeAllocationsCount, x.maxPossbleNodesQuantity, x.root))
          = some (0, u32 M, some 0) := rfl
      rw [hn] at e
      simp only [Option.map_some', Option.some.injEq, Prod.mk.injEq] at e
      exact ⟨rfl, e.1, e.2.1, e.2.2⟩
    | succ k =>
      have e : (configuredRoot atomics links maxLinks M).load (k + 1) = none := rfl
      rw [e] at hn
      exact absurd hn (by simp)
  have hlen : (configuredRoot atomics links maxLinks M).nodes.length = 1 := rfl
  constructor
  · intro a n hn
    obtain ⟨_, hc, hm, hroot⟩ := hload a n hn
    refine ⟨by rw [hc]; exact Nat.zero_le _, by rw [hm]; exact Nat.mod_lt _ (by decide), ?_⟩
    intro r hr
    rw [hroot] at hr
    have e := Option.some.inj hr
    rw [hlen]
    omega
  · intro r rn hr
    obtain ⟨hr0, _, _, _⟩ := hload r rn hr
    subst hr0
    have e : (configuredRoot atomics links maxLinks M).ownedBy 0 = 0 := rfl
    rw [e]
    exact Nat.zero_le _

/-- After `sampleRun` the root is alive with a count within its ceiling. -/
theorem allocations_stay_within_ceiling_sampleRun :
    ∃ n, runOps sampleRun (Heap.empty [0, 4096]) = some sampleRunHeap
      ∧ sampleRunHeap.load 0 = some n
      ∧ n.nodeAllocationsCount ≤ n.maxPossbleNodesQuantity :=
  ⟨(sampleRunHeap.load 0).getD LinkedTask.ctor, by decide, by decide,
    allocations_stay_within_ceiling (Heap.empty [0, 4096]) (countsOk_empty [0, 4096])
      sampleRun sampleRunHeap (by decide) 0 _ (by decide)⟩

/-- Operations that run one after the other on a root with any ceiling `M` set by its
owner keep the count within that ceiling. -/
theorem allocations_stay_within_configured_ceiling (atomics : List Nat)
    (links maxLinks : Option Nat) (M : Nat) (ops : List GraphOp) (h : Heap)
    (hrun : runOps ops (configuredRoot atomics links maxLinks M) = some h) (a : Nat)
    (n : LinkedTask) (hn : h.load a = some n) :
    n.nodeAllocationsCount ≤ n.maxPossbleNodesQuantity :=
  allocations_stay_within_ceiling _ (countsOk_configuredRoot atomics links maxLinks M) ops h
    hrun a n hn

/-! ## The source held by reference -/

theorem store_store (h : Heap) (a : Nat) (x y : LinkedTask) :
    (h.store a x).store a y = h.store a y := by
  simp [Heap.store]

/-- A write to the node `i` leaves the value behind a reference alone, unless the reference
is to the `grepVars` of the node `i`. -/
theorem SourceRef.read_store (src : SourceRef) (h : Heap) (i : Nat) (x : LinkedTask)
    (hne : src ≠ SourceRef.ofNode i) : src.read (h.store i x) = src.read h := by
  cases src with
  | object gv => rfl
  | ofNode a =>
    have hia : i ≠ a := fun e => hne (by rw [e])
    simp only [SourceRef.read, load_store_ne h i a x hia]

/-- When the reference `targetVariables` is not to the `grepVars` of the node that the
lambda is applied to, the lambda works as on a copy of the source. -/
theorem spawnGreppedSubtasksFuncRef_eq (hp : List Char) (src : SourceRef) (gv : GrepVars)
    (i : Nat) (h : Heap) (c : Nat) (hread : src.read h = some gv)
    (hne : src ≠ SourceRef.ofNode i) :
    spawnGreppedSubtasksFuncRef hp src i (h, c) = spawnGreppedSubtasksFunc hp gv i (h, c) := by
  cases hn : h.load i with
  | none => simp only [spawnGreppedSubtasksFuncRef, spawnGreppedSubtasksFunc, hn]
  | some n =>
    cases hm : gv.matchURLVector[c]? with
    | none => simp only [spawnGreppedSubtasksFuncRef, spawnGreppedSubtasksFunc, hn, hread, hm]
    | some m =>
      cases hr : iteratorRange gv.pageContent m with
      | none =>
        simp only [spawnGreppedSubtasksFuncRef, spawnGreppedSubtasksFunc, hn, hread, hm, hr]
      | some turl =>
        simp only [spawnGreppedSubtasksFuncRef, spawnGreppedSubtasksFunc, hn, hread, hm, hr,
          load_store_same h i _ (load_lt hn), SourceRef.read_store src h i _ hne, store_store]

/-- A write of `grepVars.targetUrl` of one node changes nothing else. -/
theorem retargetsTo_store_url (h : Heap) (a : Nat) (n : LinkedTask) (url : List Char)
    (hn : h.load a = some n) :
    h.retargetsTo (h.store a { n with grepVars := { n.grepVars with targetUrl := url } }) := by
  refine ⟨rfl, length_store _ _ _, fun b n0 hb => ?_, fun b hb => ?_⟩
  · rw [load_store h a b _ (load_lt hn)]
    by_cases hab : a = b
    · subst hab
      rw [hn] at hb
      have e := Option.some.inj hb
      subst e
      rw [if_pos rfl]
      exact ⟨_, rfl, rfl⟩
    · rw [if_neg hab]
      exact ⟨n0, hb, sameButUrl_refl n0⟩
  · rw [load_store_ne h a b _ (by
      intro hab
      subst hab
      rw [hn] at hb
      exact absurd hb (by simp))]
    exact hb

/-- One call of the lambda of `spawnGreppedSubtasks`, whatever the reference
`targetVariables` is to: it returns (it never throws), adds one to `cposition` and writes
only `targetUrl` of the node. -/
theorem spawnGreppedSubtasksFuncRef_returns (hp : List Char) (src : SourceRef) (node : Nat)
    (s : Heap × Nat) (o : Outcome (Heap × Nat))
    (hres : spawnGreppedSubtasksFuncRef hp src node s = some o) :
    ∃ h1, o = Outcome.returned (h1, s.2 + 1) ∧ s.1.retargetsTo h1 := by
  unfold spawnGreppedSubtasksFuncRef at hres
  cases hn : s.1.load node with
  | none => simp [hn] at hres
  | some n =>
    cases hg : src.read s.1 with
    | none => simp [hn, hg] at hres
    | some gv =>
      simp only [hn, hg] at hres
      cases hm : gv.matchURLVector[s.2]? with
      | none => simp [hm] at hres
      | some m =>
        simp only [hm] at hres
        cases hr : iteratorRange gv.pageContent m with
        | none => simp [hr] at hres
        | some turl =>
          simp only [hr, load_store_same s.1 node _ (load_lt hn)] at hres
          cases hg1 : src.read (s.1.store node
              { n with grepVars := { n.grepVars with targetUrl := turl } }) with
          | none => simp [hg1] at hres
          | some gv1 =>
            simp only [hg1, store_store, Option.some.injEq] at hres
            exact ⟨_, hres.symm, retargetsTo_store_url s.1 node n _ hn⟩

/-- Whenever the second loop of `ForEachOnBranch` returns for the lambda of
`spawnGreppedSubtasks`, whatever the reference `targetVariables` is to, only `targetUrl`
members were written. -/
theorem ForEachOnBranchLoop_funcRef_returns (hp : List Char) (src : SourceRef) :
    ∀ (fuel : Nat) (p : Ptr) (cnt c : Nat) (h : Heap) (cnt1 c1 : Nat) (h1 : Heap),
    ForEachOnBranchLoop (spawnGreppedSubtasksFuncRef hp src) fuel p cnt (h, c)
      = some (cnt1, (h1, c1)) → h.retargetsTo h1
  | fuel, none, cnt, c, h, cnt1, c1, h1, hres => by
    have e : ForEachOnBranchLoop (spawnGreppedSubtasksFuncRef hp src) fuel none cnt (h, c)
        = some (cnt, (h, c)) := by
      cases fuel <;> simp [ForEachOnBranchLoop]
    rw [e] at hres
    simp only [Option.some.injEq, Prod.mk.injEq] at hres
    obtain ⟨_, h2c, _⟩ := hres
    subst h2c
    exact retargetsTo_refl _
  | 0, some i, cnt, c, h, cnt1, c1, h1, hres => by
    simp [ForEachOnBranchLoop] at hres
  | fuel + 1, some i, cnt, c, h, cnt1, c1, h1, hres => by
    rw [ForEachOnBranchLoop] at hres
    cases hf : spawnGreppedSubtasksFuncRef hp src i (h, c) with
    | none => simp [hf] at hres
    | some o =>
      obtain ⟨h2, ho, hrt⟩ := spawnGreppedSubtasksFuncRef_returns hp src i (h, c) o hf
      simp only [hf, ho] at hres
      cases hl : h2.load i with
      | none => simp [hl] at hres
      | some n =>
        simp only [hl] at hres
        exact retargetsTo_trans hrt
          (ForEachOnBranchLoop_funcRef_returns hp src fuel n.next (cnt + 1) (c + 1) h2 cnt1
            c1 h1 hres)

/-- Whenever `spawnGreppedSubtasks` returns `c`, whatever the reference `targetVariables`
is to, the links counter of the head holds `(old + c) mod 2^32` and every other shared
counter is untouched. -/
theorem spawnGreppedSubtasksRef_counter (fuel this : Nat) (hp : List Char) (src : SourceRef)
    (skip : Nat) (h : Heap) (c : Nat) (h1 : Heap) (t : LinkedTask) (cp v : Nat)
    (hres : spawnGreppedSubtasksRef fuel this hp src skip h = some (c, h1))
    (hthis : h.load this = some t) (hcp : t.linksCounterPtr = some cp)
    (hv : h.atomics[cp]? = some v) (hvlt : v < 4294967296) :
    h1.atomics = h.atomics.set cp (u32 (v + c)) := by
  have hcplt : cp < h.atomics.length := by
    by_contra hc
    rw [List.getElem?_eq_none (Nat.le_of_not_lt hc)] at hv
    exact absurd hv (by simp)
  unfold spawnGreppedSubtasksRef at hres
  cases hg : src.read h with
  | none => simp [hg] at hres
  | some gv =>
    simp only [hg] at hres
    split at hres
    · simp only [Option.some.injEq, Prod.mk.injEq] at hres
      rw [← hres.1, ← hres.2, Nat.add_zero, u32_of_lt hvlt]
      apply List.ext_getElem?
      intro i
      by_cases hi : cp = i
      · subst hi
        rw [List.getElem?_set_self hcplt, hv]
      · rw [List.getElem?_set_ne hi]
    · cases hs : spawnNextNodes fuel this (gv.matchURLVector.length - 1) h with
      | none => simp [hs] at hres
      | some r1 =>
        obtain ⟨c0, hA⟩ := r1
        simp only [hs] at hres
        have hev := spawnNextNodes_evolves fuel this _ h c0 hA hs
        cases hfe : ForEachOnBranch fuel (some this) (spawnGreppedSubtasksFuncRef hp src)
            (u32 skip) (hA, 0) with
        | none => simp [hfe] at hres
        | some r2 =>
          obtain ⟨cnt, hB, cpos⟩ := r2
          simp only [hfe] at hres
          have hrt : hA.retargetsTo hB := by
            unfold ForEachOnBranch at hfe
            cases hsk : ForEachOnBranchSkip hA (u32 skip) (some this) with
            | none => simp [hsk] at hfe
            | some item =>
              simp only [hsk] at hfe
              exact ForEachOnBranchLoop_funcRef_returns hp src fuel item 0 0 hA cnt cpos hB hfe
          obtain ⟨t1, ht1, hs1⟩ := hev.2.1 this t hthis
          obtain ⟨t2, ht2, hs2⟩ := hrt.2.2.1 this t1 ht1
          have hcp2 : t2.linksCounterPtr = some cp := by
            rw [hs2]
            rw [(sameButLinks_fields hs1).2.2.2.2.1]
            exact hcp
          have hv2 : hB.atomics[cp]? = some v := by rw [hrt.1, hev.1]; exact hv
          rw [linksCounterFetchAdd_eq hB this cnt cp v t2 ht2 hcp2 hv2] at hres
          simp only [Option.some.injEq, Prod.mk.injEq] at hres
          rw [← hres.1, ← hres.2]
          show hB.atomics.set cp (u32 (v + cnt)) = _
          rw [hrt.1, hev.1]

/-- A reference to a `GrepVars` object that is no member of a node: the lambda works as on
a copy of the source, on every branch. -/
theorem ForEachOnBranchLoop_funcRef_object (hp : List Char) (gv : GrepVars) :
    ∀ (fuel : Nat) (p : Ptr) (cnt c : Nat) (h : Heap),
    ForEachOnBranchLoop (spawnGreppedSubtasksFuncRef hp (SourceRef.object gv)) fuel p cnt
        (h, c)
      = ForEachOnBranchLoop (spawnGreppedSubtasksFunc hp gv) fuel p cnt (h, c)
  | fuel, none, cnt, c, h => by
    cases fuel <;> simp [ForEachOnBranchLoop]
  | 0, some i, cnt, c, h => by
    simp [ForEachOnBranchLoop]
  | fuel + 1, some i, cnt, c, h => by
    have hA := spawnGreppedSubtasksFuncRef_eq hp (SourceRef.object gv) gv i h c rfl
      (by intro e; cases e)
    rw [ForEachOnBranchLoop, ForEachOnBranchLoop, hA]
    cases hf : spawnGreppedSubtasksFunc hp gv i (h, c) with
    | none => rfl
    | some o =>
      obtain ⟨h2, ho, _, _⟩ := spawnGreppedSubtasksFunc_returns hp gv i (h, c) o hf
      subst ho
      simp only
      cases hl : h2.load i with
      | none => rfl
      | some n =>
        simp only
        exact ForEachOnBranchLoop_funcRef_object hp gv fuel n.next (cnt + 1) (c + 1) h2

/-- With a source that is no member of a node, `spawnGreppedSubtasks` works as on a copy
of the source, for every head, `skipCount` and heap. -/
theorem spawnGreppedSubtasksRef_object (fuel this : Nat) (hp : List Char) (gv : GrepVars)
    (skip : Nat) (h : Heap) :
    spawnGreppedSubtasksRef fuel this hp (SourceRef.object gv) skip h
      = spawnGreppedSubtasks fuel this hp gv skip h := by
  unfold spawnGreppedSubtasksRef spawnGreppedSubtasks
  simp only [SourceRef.read]
  split
  · rfl
  · cases hs : spawnNextNodes fuel this (gv.matchURLVector.length - 1) h with
    | none => rfl
    | some r1 =>
      simp only [ForEachOnBranch]
      cases hsk : ForEachOnBranchSkip r1.2 (u32 skip) (some this) with
      | none => rfl
      | some item =>
        simp only [ForEachOnBranchLoop_funcRef_object hp gv fuel item 0 0 r1.2]

/-! ## The properties of the specification -/

/-- C3 as it is stated fails: with ten matched links, `max_links = 3` and the counter at 0
(so `current ≤ max` before the call), `spawnGreppedSubtasks` returns 10 and leaves the
counter at 10, above the ceiling 3. -/
theorem C3_counterexample :
    (startHeap 3 8192).atomics = [0, 3]
      ∧ (spawnGreppedSubtasksRef 11 1 [] (SourceRef.object (linksPage 10)) 0
            (startHeap 3 8192)).map
          (fun r => (r.1, r.2.atomics)) = some (10, [10, 3]) := by
  decide

/-- C3, amended: `spawnGreppedSubtasks` never reads `max_links_count`.  Whenever it returns
`c`, whatever its source, head and `skipCount` are, the links counter holds
`(current + c) mod 2^32` and the ceiling cell is unchanged; so `current ≤ max` still holds
after the call if `current + c ≤ max` held before it, and, when `current + c` fits in 32
bits, only then. -/
theorem C3_counter_grows_by_returned_count (fuel this : Nat) (hp : List Char)
    (src : SourceRef) (skip : Nat) (h : Heap) (c : Nat) (h1 : Heap) (t : LinkedTask)
    (cp mp cur max : Nat)
    (hres : spawnGreppedSubtasksRef fuel this hp src skip h = some (c, h1))
    (hthis : h.load this = some t) (hcp : t.linksCounterPtr = some cp)
    (_hmp : t.maxLinksCountPtr = some mp) (hne : cp ≠ mp)
    (hcur : h.atomics[cp]? = some cur) (hmaxc : h.atomics[mp]? = some max)
    (hcurlt : cur < 4294967296) :
    h1.atomics[mp]? = some max
      ∧ h1.atomics[cp]? = some ((cur + c) % 4294967296)
      ∧ (cur + c ≤ max → (cur + c) % 4294967296 ≤ max)
      ∧ (cur + c < 4294967296 → ((cur + c) % 4294967296 ≤ max ↔ cur + c ≤ max)) := by
  have hat := spawnGreppedSubtasksRef_counter fuel this hp src skip h c h1 t cp cur hres
    hthis hcp hcur hcurlt
  have hcplt : cp < h.atomics.length := by
    by_contra hc
    rw [List.getElem?_eq_none (Nat.le_of_not_lt hc)] at hcur
    exact absurd hcur (by simp)
  refine ⟨?_, ?_, ?_, ?_⟩
  · rw [hat, List.getElem?_set_ne hne, hmaxc]
  · rw [hat, List.getElem?_set_self hcplt]
    rfl
  · intro hle
    exact Nat.le_trans (Nat.mod_le _ _) hle
  · intro hlt
    rw [Nat.mod_eq_of_lt hlt]

/-- The call of `CrawlerPV::start`, with the root's page as the source: three links under
`max_links = 4096` with the counter at 0, the counter becomes 3. -/
theorem C3_witness :
    rootPageHeap.atomics[1]? = some 4096
      ∧ rootPageHeap.atomics[0]? = some 0
      ∧ ∃ h1, spawnGreppedSubtasksRef 4 1 [] (SourceRef.ofNode 0) 0 rootPageHeap
          = some (3, h1)
        ∧ h1.atomics[1]? = some 4096
        ∧ h1.atomics[0]? = some ((0 + 3) % 4294967296)
        ∧ (0 + 3 ≤ 4096 → (0 + 3) % 4294967296 ≤ 4096)
        ∧ (0 + 3 < 4294967296 → ((0 + 3) % 4294967296 ≤ 4096 ↔ 0 + 3 ≤ 4096)) := by
  refine ⟨by decide, by decide,
    ((spawnGreppedSubtasksRef 4 1 [] (SourceRef.ofNode 0) 0 rootPageHeap).map Prod.snd).getD
      (Heap.empty []), by decide, ?_⟩
  exact C3_counter_grows_by_returned_count 4 1 [] (SourceRef.ofNode 0) 0 rootPageHeap 3 _ _
    0 1 0 4096 (by decide) (by rfl) (by rfl) (by rfl) (by decide) (by decide) (by decide)
    (by decide)

/-- C4: two threads inside `FuncNeu` pass the ceiling. On a root with room for one more
node (count + 1 = ceiling) the threads `w1` and `w2` both make the test before either of
them has counted its node: both tests pass, both threads allocate, and the root is left
with the count one above its unchanged ceiling and with two more nodes alive. When the
thread `w1` has finished before the thread `w2` starts, the second call is refused and the
count ends at the ceiling. -/
theorem C4_concurrent_FuncNeu_passes_ceiling (h : Heap) (r w1 w2 : Nat) (rn : LinkedTask)
    (hr : h.load r = some rn) (hw : w1 ≠ w2)
    (hlast : rn.nodeAllocationsCount + 1 = rn.maxPossbleNodesQuantity)
    (hmax : rn.maxPossbleNodesQuantity + 1 < 4294967296) :
    (∃ h1 rn1, FuncNeuThreads r [w1, w2, w1, w2] [] h = some h1 ∧ h1.load r = some rn1
        ∧ rn1.maxPossbleNodesQuantity = rn.maxPossbleNodesQuantity
        ∧ rn1.nodeAllocationsCount = rn.maxPossbleNodesQuantity + 1
        ∧ rn1.maxPossbleNodesQuantity < rn1.nodeAllocationsCount
        ∧ h1.liveCount = h.liveCount + 2)
      ∧ ∃ h1 rn1, FuncNeuThreads r [w1, w1, w2, w2] [] h = some h1 ∧ h1.load r = some rn1
        ∧ rn1.maxPossbleNodesQuantity = rn.maxPossbleNodesQuantity
        ∧ rn1.nodeAllocationsCount = rn.maxPossbleNodesQuantity
        ∧ h1.liveCount = h.liveCount + 1 := by
  have hw2 : w2 ≠ w1 := fun e => hw e.symm
  have hroom : rn.nodeAllocationsCount < rn.maxPossbleNodesQuantity := by omega
  have htest := FuncNeuTest_eq r h rn hr
  rw [decide_eq_true hroom] at htest
  obtain ⟨ha, hacall, haload, halive⟩ := FuncNeuAllocate_spec r h rn hr
  obtain ⟨hb, hbcall, hbload, hblive⟩ := FuncNeuAllocate_spec r ha _ haload
  have hu1 : u32 (rn.nodeAllocationsCount + 1) = rn.maxPossbleNodesQuantity := by
    rw [hlast]; exact u32_of_lt (by omega)
  have hu2 : u32 (rn.maxPossbleNodesQuantity + 1) = rn.maxPossbleNodesQuantity + 1 :=
    u32_of_lt hmax
  have hb1 : (w2 == w1) = false := beq_false_of_ne hw2
  have hb2 : (w1 == w2) = false := beq_false_of_ne hw
  have hl0 : List.lookup w1 ([] : List (Nat × Bool)) = none := rfl
  have hl1 : List.lookup w2 [(w1, true)] = none := by
    simp only [List.lookup, hb1]
  have hl2 : List.lookup w1 [(w2, true), (w1, true)] = some true := by
    simp only [List.lookup, hb2, beq_self_eq_true]
  have hl3 : List.lookup w2 [(w2, true), (w1, true)] = some true := by
    simp only [List.lookup, beq_self_eq_true]
  have hl4 : List.lookup w1 [(w1, true)] = some true := by
    simp only [List.lookup, beq_self_eq_true]
  have hl5 : List.lookup w2 [(w2, false), (w1, true)] = some false := by
    simp only [List.lookup, beq_self_eq_true]
  constructor
  · refine ⟨hb, _, ?_, hbload, rfl, ?_, ?_, ?_⟩
    · simp only [FuncNeuThreads, hl0, htest, hl1, hl2, hl3, hacall, hbcall]
    · show u32 (u32 (rn.nodeAllocationsCount + 1) + 1) = _
      rw [hu1, hu2]
    · show rn.maxPossbleNodesQuantity < u32 (u32 (rn.nodeAllocationsCount + 1) + 1)
      rw [hu1, hu2]
      omega
    · rw [hblive, halive]
  · have htest2 := FuncNeuTest_eq r ha _ haload
    have hfull : ¬ (u32 (rn.nodeAllocationsCount + 1) < rn.maxPossbleNodesQuantity) := by
      rw [hu1]; omega
    simp only [decide_eq_false hfull] at htest2
    refine ⟨ha, _, ?_, haload, rfl, hu1, halive⟩
    simp only [FuncNeuThreads, hl0, htest, htest2, hl1, hl4, hl5, hacall]

/-- The owner of a fresh root has set its ceiling to 1: the threads 7 and 8 inside
`FuncNeu` leave the count 2 above the ceiling 1, with two nodes beside the root; one after
the other they leave the count 1 and one node beside the root. -/
theorem C4_witness :
    (∃ h1 rn1,
        FuncNeuThreads 0 [7, 8, 7, 8] [] (configuredRoot [0, 4096] (some 0) (some 1) 1)
          = some h1 ∧ h1.load 0 = some rn1
        ∧ rn1.maxPossbleNodesQuantity = 1
        ∧ rn1.nodeAllocationsCount = 1 + 1
        ∧ rn1.maxPossbleNodesQuantity < rn1.nodeAllocationsCount
        ∧ h1.liveCount = 1 + 2)
      ∧ ∃ h1 rn1,
        FuncNeuThreads 0 [7, 7, 8, 8] [] (configuredRoot [0, 4096] (some 0) (some 1) 1)
          = some h1 ∧ h1.load 0 = some rn1
        ∧ rn1.maxPossbleNodesQuantity = 1
        ∧ rn1.nodeAllocationsCount = 1
        ∧ h1.liveCount = 1 + 1 :=
  C4_concurrent_FuncNeu_passes_ceiling (configuredRoot [0, 4096] (some 0) (some 1) 1) 0 7 8 _
    (by rfl) (by decide) (by rfl) (by decide)

/-- C6: `spawnNextNodes(n)` on a node whose sibling chain is `chain` returns
`min n (max - count)` and appends that many nodes behind the previous tail, in the order
of their allocation, stopping at the first refused allocation; with room for `n` nodes
(`count + n ≤ max`) it returns `n` and the chain grows by exactly `n` nodes. -/
theorem C6_spawnNextNodes_appends_in_order (h : Heap) (this r : Nat) (t rn : LinkedTask)
    (chain : List Nat) (fuel n : Nat) (hthis : h.load this = some t)
    (hroot : t.root = some r) (hr : h.load r = some rn)
    (hmax : rn.maxPossbleNodesQuantity < 4294967296)
    (hc : isChain h (some this) chain = true) (hf : chain.length ≤ fuel) :
    ∃ h1 k, spawnNextNodes fuel this n h = some (k, h1)
      ∧ k = min n (rn.maxPossbleNodesQuantity - rn.nodeAllocationsCount)
      ∧ (rn.nodeAllocationsCount + n ≤ rn.maxPossbleNodesQuantity → k = n)
      ∧ isChain h1 (some this) (chain ++ List.range' h.nodes.length k) = true
      ∧ h1.nodes.length = h.nodes.length + k
      ∧ h1.liveCount = h.liveCount + k := by
  obtain ⟨h1, hcall, hchain, _, hlen, hlive, _⟩ :=
    spawnNextNodes_spec h this r t rn chain fuel n hthis hroot hr hmax hc hf
  exact ⟨h1, _, hcall, rfl, fun hroom => by omega, hchain, hlen, hlive⟩

/-- The requests of `CrawlerPV::selfTest`: on a fresh root with one child,
`spawnNextNodes(1024 * z + z)` returns the requested count for `z = 0, 1, 2, 3`. -/
theorem C6_selfTest_witness :
    (∃ h1, spawnNextNodes 1 1 (1024 * 0 + 0) selfTestHeap = some (1024 * 0 + 0, h1))
    ∧ (∃ h1, spawnNextNodes 1 1 (1024 * 1 + 1) selfTestHeap = some (1024 * 1 + 1, h1))
    ∧ (∃ h1, spawnNextNodes 1 1 (1024 * 2 + 2) selfTestHeap = some (1024 * 2 + 2, h1))
    ∧ (∃ h1, spawnNextNodes 1 1 (1024 * 3 + 3) selfTestHeap = some (1024 * 3 + 3, h1)
        ∧ isChain h1 (some 1) ([1] ++ List.range' 2 (1024 * 3 + 3)) = true) := by
  have key : ∀ n, n ≤ 8191 → ∃ h1, spawnNextNodes 1 1 n selfTestHeap = some (n, h1)
      ∧ isChain h1 (some 1) ([1] ++ List.range' 2 n) = true := by
    intro n hn
    obtain ⟨h1, k, hcall, _, hk, hchain, _⟩ :=
      C6_spawnNextNodes_appends_in_order selfTestHeap 1 0 _ _ [1] 1 n
        (by rfl) (by rfl) (by rfl) (by decide) (by decide) (by decide)
    have hkn : k = n := hk (by
      show 1 + n ≤ 8192
      omega)
    subst hkn
    exact ⟨h1, hcall, hchain⟩
  refine ⟨?_, ?_, ?_, key _ (by decide)⟩
  · obtain ⟨h1, hcall, _⟩ := key (1024 * 0 + 0) (by decide)
    exact ⟨h1, hcall⟩
  · obtain ⟨h1, hcall, _⟩ := key (1024 * 1 + 1) (by decide)
    exact ⟨h1, hcall⟩
  · obtain ⟨h1, hcall, _⟩ := key (1024 * 2 + 2) (by decide)
    exact ⟨h1, hcall⟩

/-- C7: when the root has room for one node, `spawnChildNode` on the parent `p` creates a
node `c`: `c` is an address at which nothing was alive before the call, it is not `p`,
one more object is alive after the call and every object alive before is alive after.
The node has `c.level = p.level + 1` (computed in `unsigned`), `c.parent = p` and
`c.root = p.root`; `c` is stored in `p.child` and returned, and `expelledChild` holds the
value that `p.child` had before the call. -/
theorem C7_spawnChildNode_links_child (h : Heap) (p r : Nat) (t rn : LinkedTask)
    (hp : h.load p = some t) (hroot : t.root = some r) (hr : h.load r = some rn)
    (hroom : rn.nodeAllocationsCount < rn.maxPossbleNodesQuantity) :
    ∃ h1 c cn pn, spawnChildNode p h = some (some c, t.child, h1)
      ∧ h.load c = none ∧ c = h.nodes.length ∧ c ≠ p
      ∧ h1.liveCount = h.liveCount + 1
      ∧ (∀ a n0, h.load a = some n0 → ∃ n1, h1.load a = some n1)
      ∧ h1.load c = some cn ∧ h1.load p = some pn
      ∧ cn.level = (t.level + 1) % 4294967296
      ∧ (t.level + 1 < 4294967296 → cn.level = t.level + 1)
      ∧ cn.parent = some p ∧ cn.root = t.root ∧ cn.next = none ∧ pn.child = some c := by
  obtain ⟨h1, hcall, _, _, _, hev, _, hlive, _, _, _, ⟨pn, hpn, hchild⟩,
      ⟨cn, hc, hcnext, hcroot, hparent, hlevel, _⟩, _⟩ :=
    spawnChildNode_room h p r t rn hp hroot hr hroom
  have hl : cn.level = (t.level + 1) % 4294967296 := by
    rw [hlevel, Nat.add_comm]; rfl
  have hplt := load_lt hp
  have hfresh : h.load h.nodes.length = none := by
    cases hx : h.load h.nodes.length with
    | none => rfl
    | some x => exact absurd (load_lt hx) (Nat.lt_irrefl _)
  exact ⟨h1, _, cn, pn, hcall, hfresh, rfl, by omega, hlive,
    fun a n0 hn0 => by
      obtain ⟨n1, hn1, _⟩ := hev.2.1 a n0 hn0
      exact ⟨n1, hn1⟩,
    hc, hpn, hl, fun hlt => by rw [hl, Nat.mod_eq_of_lt hlt], hparent, hcroot, hcnext, hchild⟩

/-- The first child of a fresh root: the new node is at the address 1, where nothing was
alive, two objects are alive afterwards; level 1, parent and root are the root, nothing
is expelled. -/
theorem C7_witness :
    ∃ h1 c cn pn, spawnChildNode 0 (createRootNode (Heap.empty [])).2 = some (some c, none, h1)
      ∧ (createRootNode (Heap.empty [])).2.load c = none ∧ c = 1 ∧ c ≠ 0
      ∧ h1.liveCount = 1 + 1
      ∧ (∀ a n0, (createRootNode (Heap.empty [])).2.load a = some n0 →
          ∃ n1, h1.load a = some n1)
      ∧ h1.load c = some cn ∧ h1.load 0 = some pn
      ∧ cn.level = (0 + 1) % 4294967296
      ∧ (0 + 1 < 4294967296 → cn.level = 0 + 1)
      ∧ cn.parent = some 0 ∧ cn.root = some 0 ∧ cn.next = none ∧ pn.child = some c :=
  C7_spawnChildNode_links_child (createRootNode (Heap.empty [])).2 0 0 _ _
    (by rfl) (by rfl) (by rfl) (by decide)

/-- C8: when the root's `nodeAllocationsCount` has reached `maxPossbleNodesQuantity`,
`FuncNeu` and `spawnChildNode` return the null pointer (a normal return), and the heap
after either call is the heap before it: `child` and `childNodesCount` of the parent and
`nodeAllocationsCount` of the root keep their values. -/
theorem C8_ceiling_returns_null_and_changes_nothing (h : Heap) (p r : Nat)
    (t rn : LinkedTask) (hp : h.load p = some t) (hroot : t.root = some r)
    (hr : h.load r = some rn)
    (hfull : rn.maxPossbleNodesQuantity ≤ rn.nodeAllocationsCount) :
    FuncNeu r h = some (none, h) ∧ spawnChildNode p h = some (none, t.child, h) :=
  ⟨FuncNeu_full h r rn hr hfull, spawnChildNode_full h p r t rn hp hroot hr hfull⟩

/-- The child of a root with ceiling 1 asks for a child of its own: refused, nothing changes. -/
theorem C8_witness :
    FuncNeu 0 (startHeap 4096 1) = some (none, startHeap 4096 1)
      ∧ spawnChildNode 1 (startHeap 4096 1) = some (none, none, startHeap 4096 1) :=
  C8_ceiling_returns_null_and_changes_nothing (startHeap 4096 1) 1 0 _ _
    (by rfl) (by rfl) (by rfl) (by decide)

/-- C9 as it is stated fails: `spawnNextNodes(1)` applied to the root itself makes the
node 1, which is not the root, has no parent (`parent` is null) and is on level 0: for
this node `level = parent.level + 1` cannot hold. -/
theorem C9_counterexample :
    ((runOps [GraphOp.spawnNextNodes 1 0 1] (createRootNode (Heap.empty [])).2).bind
        (fun h => h.load 1)).map (fun n => (n.root, n.parent, n.level))
      = some (some 0, none, 0) := by
  decide

/-- C9, amended: in every heap built from `createRootNode` by `spawnChildNode`,
`spawnNextNodes` and `spawnGreppedSubtasks` (and the caller's counter assignments) the
root's `root` is the root itself and every node's `root` is that root; every node with a
parent has `level = parent.level + 1`; a node without parent (the root and the siblings
appended to the root's own chain) has level 0; and all nodes of a sibling chain share
the level and the parent of its head. -/
theorem C9_tree_shape_of_spawned_trees (atomics : List Nat) (ops : List GraphOp) (h : Heap)
    (hops : ∀ op ∈ ops, op.isSpawn = true)
    (hrun : runOps ops (createRootNode (Heap.empty atomics)).2 = some h) :
    (∃ rn, h.load 0 = some rn ∧ rn.root = some 0)
      ∧ (∀ a n, h.load a = some n → n.root = some 0)
      ∧ (∀ a n p, h.load a = some n → n.parent = some p →
          ∃ pn, h.load p = some pn ∧ n.level = pn.level + 1)
      ∧ (∀ a n, h.load a = some n → n.parent = none → n.level = 0)
      ∧ (∀ head hn chain, h.load head = some hn → isChain h (some head) chain = true →
          ∀ a ∈ chain, ∃ an, h.load a = some an ∧ an.level = hn.level
            ∧ an.parent = hn.parent) := by
  have hok : h.treeOk :=
    runOps_preserves Heap.treeOk (fun op => op.isSpawn = true)
      (fun op hx hy hsp hr hP => treeOk_apply op hx hy hsp hr hP) ops _ h hops hrun
      (treeOk_createRootNode atomics)
  have hok0 := hok
  obtain ⟨rn, hrn, hroot, _, _, _, _, hall⟩ := hok
  exact ⟨⟨rn, hrn, hroot⟩, fun a n hn => (hall a n hn).1,
    fun a n p hn hp => (hall a n hn).2.2.2.1 p hp,
    fun a n hn hp => (hall a n hn).2.2.1 hp,
    fun head hn chain hh hc => treeOk_chain h hok0 chain head hn hh hc⟩

/-- The tree of `sampleSpawnRun`: root 0, its sibling 5, the chain 1, 2, 3 under the root
and the grandchild 4 under node 2. -/
theorem C9_witness :
    (∃ rn, sampleSpawnHeap.load 0 = some rn ∧ rn.root = some 0)
      ∧ (∀ a n, sampleSpawnHeap.load a = some n → n.root = some 0)
      ∧ (∀ a n p, sampleSpawnHeap.load a = some n → n.parent = some p →
          ∃ pn, sampleSpawnHeap.load p = some pn ∧ n.level = pn.level + 1)
      ∧ (∀ a n, sampleSpawnHeap.load a = some n → n.parent = none → n.level = 0)
      ∧ (∀ head hn chain, sampleSpawnHeap.load head = some hn →
          isChain sampleSpawnHeap (some head) chain = true →
          ∀ a ∈ chain, ∃ an, sampleSpawnHeap.load a = some an ∧ an.level = hn.level
            ∧ an.parent = hn.parent) :=
  C9_tree_shape_of_spawned_trees [0, 4096] sampleSpawnRun sampleSpawnHeap (by decide)
    (by decide)

/-- C10: a throw ends the whole loop of `ForEachOnBranch`. On the branch 0, 1, 2 a functor
that throws on the node 1 is invoked on the nodes 0 and 1, as its log shows; the call
returns normally with the count 1, one less than the number of invocations, and the
node 2, a later sibling, is never visited. A functor that throws on no node of the branch
is invoked on all three nodes and the count is 3. -/
theorem C10_ForEachOnBranch_skips_siblings_after_throw :
    isChain threeChain (some 0) [0, 1, 2] = true
      ∧ ForEachOnBranch 10 (some 0) (loggingFunctor 1) 0 (threeChain, [])
          = some (1, (threeChain, [0, 1]))
      ∧ ForEachOnBranch 10 (some 0) (loggingFunctor 9) 0 (threeChain, [])
          = some (3, (threeChain, [0, 1, 2])) := by
  decide

/-! ## The properties of the URL helpers -/

/-- C11 (amended): `MakeFullPath` returns an absolute URL `scheme://hostport/path` unchanged,
whatever `host_and_port` and the base variables are, when the scheme is not empty, does not
start with a slash and is short enough for its `://` to be tested by
`FindURLAddressBegin`, which is when `scheme.length + 1 < MaxURLlen`. -/
theorem C11_MakeFullPath_keeps_absolute_url (scheme hostport path host_and_port : List Char)
    (base : GrepVars) (hne : scheme ≠ []) (h0 : scheme.head? ≠ some '/')
    (hlen : scheme.length + 1 < MaxURLlen) :
    MakeFullPath (scheme ++ [':', '/', '/'] ++ (hostport ++ '/' :: path))
        (scheme ++ [':', '/', '/'] ++ (hostport ++ '/' :: path)).length host_and_port base
      = scheme ++ [':', '/', '/'] ++ (hostport ++ '/' :: path) := by
  generalize hrest : hostport ++ '/' :: path = rest
  have hrlen : 0 < rest.length := by rw [← hrest]; simp
  generalize hurl : scheme ++ [':', '/', '/'] ++ rest = url
  have hulen : url.length = scheme.length + 3 + rest.length := by
    rw [← hurl]; simp; omega
  have hsep : differsFromSemSlash url scheme.length = false := by
    rw [← hurl]; exact differsFromSemSlash_at_sep scheme rest
  have hex : ∃ m, differsFromSemSlash url m = false := ⟨_, hsep⟩
  have hfirst : charAt url 0 ≠ '/' := by
    cases scheme with
    | nil => exact absurd rfl hne
    | cons c s =>
      rw [← hurl]
      intro hc
      apply h0
      simp [charAt] at hc
      simp [hc]
  have hm := Nat.find_spec hex
  have hle : Nat.find hex ≤ scheme.length := Nat.find_min' hex hsep
  have hupos : FindURLAddressBegin url url.length = Nat.find hex + 3 :=
    FindURLAddressBegin_found url url.length (Nat.find hex) hfirst hm
      (by rw [hulen]; apply lt_min <;> omega)
      (fun j hj => by
        have := Nat.find_min hex hj
        simpa using this)
  unfold MakeFullPath
  rw [hupos, map_charAt_range]
  have hnle : ¬ (url.length ≤ Nat.find hex + 3) := by omega
  simp [hnle]

/-- C11, an instance: `http://x/y` comes back unchanged. -/
theorem C11_witness :
    MakeFullPath "http://x/y".toList 10 "s.example".toList samplePage = "http://x/y".toList :=
  C11_MakeFullPath_keeps_absolute_url "http".toList "x".toList "y".toList "s.example".toList
    samplePage (by decide) (by decide) (by decide)

/-- C11, the counterexample: with a scheme of 8191 letters the `://` starts beyond the
offsets that `FindURLAddressBegin` tests, and `MakeFullPath` prepends the base URL and a
slash to the absolute URL. -/
theorem C11_counterexample :
    MakeFullPath longSchemeUrl longSchemeUrl.length "s.example".toList samplePage
      = "http://s.example".toList ++ '/' :: longSchemeUrl := by
  have hlen : longSchemeUrl.length = 8197 := by
    unfold longSchemeUrl
    rw [List.length_append, List.length_replicate]
    rfl
  have hfirst : charAt longSchemeUrl 0 ≠ '/' := by
    unfold longSchemeUrl
    rw [charAt_replicate _ _ _ 0 (by omega)]
    decide
  have hupos : FindURLAddressBegin longSchemeUrl longSchemeUrl.length = longSchemeUrl.length :=
    FindURLAddressBegin_none longSchemeUrl _ hfirst (fun j hj => by
      have hj2 : j < 8191 := by
        rw [hlen] at hj
        simp [MaxURLlen] at hj
        omega
      unfold differsFromSemSlash longSchemeUrl
      rw [charAt_replicate _ _ _ j hj2]
      rfl)
  unfold MakeFullPath
  rw [hupos, map_charAt_range]
  simp [hfirst]
  rfl

/-- C12: for a link that begins with a slash and a base whose scheme buffer holds a NUL,
`MakeFullPath` returns the C-string content of the scheme buffer (its bytes before the
first NUL), then `://`, then `host_and_port`, then the link. -/
theorem C12_MakeFullPath_rooted_link (link host_and_port : List Char) (base : GrepVars)
    (h : link.head? = some '/') (hnul : NUL ∈ base.scheme) :
    MakeFullPath link link.length host_and_port base
        = cString base.scheme ++ [':', '/', '/'] ++ host_and_port ++ link
      ∧ NUL ∉ cString base.scheme
      ∧ ∃ rest, base.scheme = cString base.scheme ++ NUL :: rest := by
  have h0 : charAt link 0 = '/' := by
    cases link with
    | nil => simp at h
    | cons c l =>
      simp at h
      simp [charAt, h]
  refine ⟨?_, cString_no_NUL base.scheme, cString_prefix base.scheme hnul⟩
  unfold MakeFullPath
  rw [FindURLAddressBegin_slash link _ h0, map_charAt_range]
  simp [h0]

/-- C12, the instance of the specification: scheme `https`, host `s.example` and the link
`/a/b` give `https://s.example/a/b`. -/
theorem C12_witness :
    MakeFullPath "/a/b".toList 4 "s.example".toList
        { GrepVars.ctor with scheme := ['h', 't', 't', 'p', 's', NUL] }
      = "https://s.example/a/b".toList :=
  (C12_MakeFullPath_rooted_link "/a/b".toList "s.example".toList
    { GrepVars.ctor with scheme := ['h', 't', 't', 'p', 's', NUL] } (by decide)
    (by decide)).1

/-- C13 (amended): for a URL `scheme://hostport` followed by nothing or by a path that
starts with a slash, where the scheme holds no colon, no slash and no NUL byte and the
host part holds no slash, `ExtractHostPortHttp` returns the host part. -/
theorem C13_ExtractHostPortHttp_returns_hostport (scheme hostport rest : List Char)
    (hs : ∀ c ∈ scheme, c ≠ ':' ∧ c ≠ '/' ∧ c ≠ NUL)
    (hh : ∀ c ∈ hostport, c ≠ '/')
    (hr : rest = [] ∨ rest.head? = some '/') :
    ExtractHostPortHttp (scheme ++ [':', '/', '/'] ++ (hostport ++ rest)) = some hostport := by
  have e : scheme ++ [':', '/', '/'] ++ (hostport ++ rest)
      = scheme ++ (':' :: '/' :: '/' :: (hostport ++ rest)) := by simp
  have hc : cString (scheme ++ (':' :: '/' :: '/' :: (hostport ++ rest)))
      = scheme ++ (':' :: '/' :: '/' :: cString (hostport ++ rest)) := by
    rw [cString_append _ _ (fun x hx => (hs x hx).2.2)]
    rfl
  have hfind : findFirstOf (scheme ++ (':' :: '/' :: '/' :: cString (hostport ++ rest)))
      [':', '/', '/'] = some scheme.length :=
    findFirstOf_append_hit scheme _ _ ':'
      (fun x hx => by
        have := hs x hx
        simp [this.1, this.2.1])
      (by decide)
  have hcut : (match findFirstOf (hostport ++ rest) ['/'] with
      | some slash_pos => (hostport ++ rest).take slash_pos
      | none => hostport ++ rest) = hostport := by
    rcases hr with hr | hr
    · subst hr
      rw [List.append_nil, findFirstOf_miss hostport _ (fun x hx => by simp [hh x hx])]
    · cases rest with
      | nil => simp at hr
      | cons c r =>
        simp at hr
        subst hr
        rw [findFirstOf_append_hit hostport r _ '/' (fun x hx => by simp [hh x hx])
          (by decide)]
        simp
  unfold ExtractHostPortHttp
  simp only [e, hc, hfind]
  rw [if_pos (by simp)]
  have hdrop : (scheme ++ (':' :: '/' :: '/' :: (hostport ++ rest))).drop (scheme.length + 3)
      = hostport ++ rest := by
    rw [List.drop_append]
    rfl
  rw [hdrop, hcut]

/-- C13, the instance of the header: `https://site.com:443/a/b` gives `site.com:443`. -/
theorem C13_witness :
    ExtractHostPortHttp "https://site.com:443/a/b".toList = some "site.com:443".toList :=
  C13_ExtractHostPortHttp_returns_hostport "https".toList "site.com:443".toList "/a/b".toList
    (by decide) (by decide) (Or.inr rfl)

/-- C13, the counterexample: a NUL byte in the scheme ends the copy that is searched for
the separator, and the text before the NUL is returned in place of the host. -/
theorem C13_counterexample :
    ExtractHostPortHttp (['a', NUL, 'b'] ++ "://h/p".toList) = some ['a'] := by
  decide

/-- C14: a URL without `://` fails or loses its host. For `site.com/a` the first
character that is a colon or a slash is at the offset 8, and `substr(11)` of the ten
characters throws; for `site.com/abc` the result is `c`. -/
theorem C14_ExtractHostPortHttp_without_scheme :
    ExtractHostPortHttp "site.com/a".toList = none
      ∧ ExtractHostPortHttp "site.com/abc".toList = some "c".toList := by
  decide

/-- C15: the window of `FindURLAddressBegin` is one byte off. With `nmax = 4` the `://`
of `ab://` ends at the byte number 4, outside the first four bytes, and is found all the
same, the result 5 being above `nmax`; the `://` of `abc://` starts inside the first four
bytes and is not found. The three instances of the specification hold. -/
theorem C15_FindURLAddressBegin_window :
    FindURLAddressBegin "ab://".toList 4 = 5
      ∧ FindURLAddressBegin "abc://".toList 4 = 4
      ∧ FindURLAddressBegin "/local".toList 6 = 0
      ∧ FindURLAddressBegin "http://x/y".toList 10 = 7
      ∧ FindURLAddressBegin "no-scheme".toList 9 = 9 := by
  decide

/-- C16: the scan of `FindURLPathBegin` starts at the first byte of the string, not behind
the `://`: for `http://x/p` it stops at the first slash of the separator, the offset 5. -/
theorem C16_FindURLPathBegin_scans_from_start :
    FindURLPathBegin "http://x/p".toList 10 = 5 := by
  decide

/-- C17: `FindClosingQuote` on a buffer with `n = end - strPtr` returns an offset `r ≤ n`
such that no byte before `r` is a double quote, an apostrophe, a newline, `>`, a space,
`<` or NUL, and the byte at `r` is one of them whenever `r < n`: the least such offset
below `n`, and `n` when there is none. -/
theorem C17_FindClosingQuote_least_stop (buf : List Char) (n : Nat) :
    FindClosingQuote buf n ≤ n
      ∧ (∀ i, i < FindClosingQuote buf n →
          charAt buf i ∉ [Char.ofNat 34, Char.ofNat 39, Char.ofNat 10, '>', ' ', '<',
            Char.ofNat 0])
      ∧ (FindClosingQuote buf n < n →
          charAt buf (FindClosingQuote buf n) ∈
            [Char.ofNat 34, Char.ofNat 39, Char.ofNat 10, '>', ' ', '<', Char.ofNat 0])
      ∧ ((∀ i, i < n → charAt buf i ∉ [Char.ofNat 34, Char.ofNat 39, Char.ofNat 10, '>',
            ' ', '<', Char.ofNat 0]) → FindClosingQuote buf n = n) := by
  obtain ⟨_, b, c, d⟩ := FindClosingQuoteLoop_spec buf n 0
  have hmem : ∀ x : Char, stopChars.contains x = true ↔
      x ∈ [Char.ofNat 34, Char.ofNat 39, Char.ofNat 10, '>', ' ', '<', Char.ofNat 0] := by
    intro x
    exact List.elem_iff
  unfold FindClosingQuote
  refine ⟨by omega, fun i hi hm => ?_, fun h => (hmem _).1 (d (by omega)), fun hall => ?_⟩
  · have := c i (Nat.zero_le _) hi
    rw [(hmem _).2 hm] at this
    exact absurd this (by simp)
  · by_contra hne
    have hlt : FindClosingQuoteLoop buf n 0 < n := by omega
    exact hall _ hlt ((hmem _).1 (d (by omega)))

/-! ## The properties of the orchestrator and of the links -/

/-- C18: `start` on another root keeps the abandoned work of the old root. With a task
and a functor of the root at the address 0 in the two vectors, `start` on the root at the
address 1 leaves both vectors as they were and submits nothing; a second `start` on the
root at the address 1 then submits the functor and the task of the old root to the pool
of the new root, whether the waiter thread of `stop` has finished or not. -/
theorem C18_start_on_new_root_keeps_old_work :
    pocketedCrawler.map (fun s => (s.taskRoot, s.lonelyVector, s.lonelyFunctorsVector))
        = some (some 0, [oldRootTask], [CallableDoubleFunc.functor 7])
      ∧ (pocketedCrawler.bind (fun s => startOnNewRoot s true)).map
          (fun s => (s.taskRoot, s.lonelyVector, s.lonelyFunctorsVector, s.workersPool.queue))
        = some (some 1, [oldRootTask], [CallableDoubleFunc.functor 7], [])
      ∧ ∀ waiterDone : Bool,
        ((pocketedCrawler.bind (fun s => startOnNewRoot s true)).bind
            (fun s => startOnNewRoot s waiterDone)).map (fun s => s.workersPool.queue)
          = some [CallableDoubleFunc.functor 7, CallableDoubleFunc.runTask fakeTask,
              CallableDoubleFunc.runTask oldRootTask] := by
  decide

/-- C19: when the pool is closed, `scheduleTask` returns true and appends the task to
`lonelyVector`, and `scheduleFunctor` returns true and appends the functor to
`lonelyFunctorsVector`; the pool, the other vector and the earlier entries stay as they
were, whatever `resendAbandonedTasks` is. -/
theorem C19_closed_pool_pockets_the_work (pv : CrawlerPV) (task : LonelyTask)
    (func : CallableDoubleFunc) (resendAbandonedTasks : Bool)
    (hclosed : pv.workersPool.closed = true) :
    pv.scheduleTask task resendAbandonedTasks
        = (true, { pv with lonelyVector := pv.lonelyVector ++ [task] })
      ∧ pv.scheduleFunctor func resendAbandonedTasks
        = (true, { pv with lonelyFunctorsVector := pv.lonelyFunctorsVector ++ [func] }) := by
  unfold CrawlerPV.scheduleTask CrawlerPV.scheduleFunctor
  simp [hclosed]

/-- C19, an instance: on the stopped orchestrator, whose vector of functors holds the
functor 7, a task goes to the empty `lonelyVector` and the functor 8 goes behind the
functor 7; the closed pool stays empty. -/
theorem C19_witness :
    stoppedCrawler.scheduleTask oldRootTask true
        = (true, { taskRoot := none,
                   workersPool := { threads := 1, isClosed := true, queue := [] },
                   lonelyVector := [oldRootTask],
                   lonelyFunctorsVector := [CallableDoubleFunc.functor 7] })
      ∧ stoppedCrawler.scheduleFunctor (CallableDoubleFunc.functor 8) true
        = (true, { taskRoot := none,
                   workersPool := { threads := 1, isClosed := true, queue := [] },
                   lonelyVector := [],
                   lonelyFunctorsVector :=
                     [CallableDoubleFunc.functor 7, CallableDoubleFunc.functor 8] }) :=
  C19_closed_pool_pockets_the_work stoppedCrawler oldRootTask (CallableDoubleFunc.functor 8)
    true (by decide)

/-- C21: on a heap that holds a finite tree `t` in which no node occurs twice, with fuel for
the height of the tree, `TraverseFunc` makes exactly the calls of the post-order list of
`t`, each node once, the nodes behind `next` first, then the nodes behind `child`, then
the node itself; this holds for every function that leaves the links of the other nodes
alone, and the traversal returns when every call of the function does. `DeleteList` is
such a traversal; when the root of every node is alive and is outside the tree or at its
top, every deletion finds its node and its root alive, `DeleteList` returns, the nodes of
the tree are gone and every other object stays alive. -/
theorem C21_TraverseFunc_post_order_each_node_once (func : Nat → Heap → Option Heap)
    (t : TaskTree) (h : Heap) (fuel : Nat)
    (htree : h.holdsTree t = true) (hnodup : t.postOrder.Nodup) (hfuel : t.height ≤ fuel) :
    ((∀ a hx hy, func a hx = some hy →
          hx.keepsOff LinkedTask.next hy a ∧ hx.keepsOff LinkedTask.child hy a) →
        TraverseFunc func fuel t.ptr h = visitAll func t.postOrder h
          ∧ ((∀ a hx, ∃ hy, func a hx = some hy) →
              ∃ h1, TraverseFunc func fuel t.ptr h = some h1))
      ∧ DeleteList fuel t.ptr h = visitAll DeleteCall t.postOrder h
      ∧ ((∀ a ∈ t.postOrder, ∃ x r rx, h.load a = some x ∧ x.root = some r
            ∧ h.load r = some rx ∧ (r ∉ t.postOrder ∨ t.ptr = some r)) →
          ∃ h1, DeleteList fuel t.ptr h = some h1
            ∧ (∀ a ∈ t.postOrder, h1.load a = none)
            ∧ ∀ b, b ∉ t.postOrder → ∀ x, h.load b = some x →
                ∃ y, h1.load b = some y) := by
  have hdel : DeleteList fuel t.ptr h = visitAll DeleteCall t.postOrder h :=
    TraverseFunc_postOrder DeleteCall DeleteCall_keeps_links t fuel h htree hnodup hfuel
  refine ⟨fun hfunc => ?_, hdel, fun hroots => ?_⟩
  · have heq := TraverseFunc_postOrder func hfunc t fuel h htree hnodup hfuel
    refine ⟨heq, fun htotal => ?_⟩
    rw [heq]
    exact visitAll_total func htotal t.postOrder h
  · obtain ⟨h1, hv, hgone, _, hlive⟩ := visitAll_DeleteCall t.postOrder h hnodup
      (fun a ha => by
        obtain ⟨x, r, rx, hx, hroot, hr, hpos⟩ := hroots a ha
        refine ⟨x, r, rx, hx, hroot, hr, ?_⟩
        rw [postOrder_getLast]
        exact hpos)
    exact ⟨h1, by rw [hdel]; exact hv, hgone, hlive⟩

/-- C21, an instance: `DeleteList` on the root of the tree of `sampleSpawnRun` deletes the
nodes in the order 5, 3, 4, 2, 1, 0 and returns with all six gone. -/
theorem C21_witness :
    DeleteList 4 (some 0) sampleSpawnHeap
        = visitAll DeleteCall [5, 3, 4, 2, 1, 0] sampleSpawnHeap
      ∧ ∃ h1, DeleteList 4 (some 0) sampleSpawnHeap = some h1
          ∧ ∀ a ∈ [5, 3, 4, 2, 1, 0], h1.load a = none :=
  have w := C21_TraverseFunc_post_order_each_node_once DeleteCall sampleSpawnTree
    sampleSpawnHeap 4 (by decide) (by decide) (by decide)
  ⟨w.2.1, (w.2.2 (fun a ha => by
      have hm : a = 5 ∨ a = 3 ∨ a = 4 ∨ a = 2 ∨ a = 1 ∨ a = 0 := by
        simpa [sampleSpawnTree, TaskTree.postOrder] using ha
      rcases hm with e | e | e | e | e | e <;> subst e <;>
        exact ⟨_, 0, _, by rfl, by rfl, by rfl, Or.inr rfl⟩)).imp
    (fun _ hh => ⟨hh.1, hh.2.1⟩)⟩

/-- C22: on a head that has a next sibling the lambda of `spawnGreppedSubtasks` reads
`matchURLVector` beyond its end. The node 1 of `siblingHeap` has the sibling 2 and the
page has one match: nothing is spawned, `ForEachOnBranch` visits the two nodes of the
branch, and the second call of the lambda reads `matchURLVector[1]` of a vector of
size 1, so that the call has no defined result, whatever the fuel. -/
theorem C22_read_beyond_matchURLVector :
    (linksPage 1).pageIsParsed = true ∧ (linksPage 1).matchURLVector.length = 1
      ∧ isChain siblingHeap (some 1) [1, 2] = true
      ∧ (∀ fuel, spawnNextNodes fuel 1 ((linksPage 1).matchURLVector.length - 1) siblingHeap
          = some (0, siblingHeap))
      ∧ (ForEachOnBranch 2 (some 1) (loggingFunctor 99) (u32 0) (siblingHeap, [])).map
          (fun r => (r.1, r.2.2)) = some (2, [1, 2])
      ∧ (∃ h1, spawnGreppedSubtasksFunc [] (linksPage 1) 1 (siblingHeap, 0)
            = some (Outcome.returned (h1, 1))
          ∧ (h1.load 1).map LinkedTask.next = some (some 2)
          ∧ (linksPage 1).matchURLVector[1]? = none
          ∧ spawnGreppedSubtasksFunc [] (linksPage 1) 2 (h1, 1) = none)
      ∧ ∀ fuel, spawnGreppedSubtasks fuel 1 [] (linksPage 1) 0 siblingHeap = none := by
  refine ⟨rfl, rfl, by decide, fun fuel => rfl, by decide, ⟨_, rfl, by decide, rfl, by rfl⟩,
    fun fuel => ?_⟩
  cases fuel with
  | zero => rfl
  | succ n =>
    cases n with
    | zero => rfl
    | succ k => rfl

end WebGrep
